import Mathlib

/-!
# Polling filesystem watcher (`engine/core/filesystem/filesystem_watcher.hpp`)

A shallow embedding of `fs::filesystem_watcher` and its nested `watcher_impl`.

* `fs::path` is represented by its `string()`; path equality is string equality.
* `std::map<std::string, T>` is an association list kept in key order
  (`map_find`, `map_insert`, `map_set`, `map_erase`); iteration is list order.
* The header `filesystem.h` (the `fs::` library) is not part of the sources, so every
  library call is a field of the parameter `filesystem`: the pure path operations
  (`parent_path`, `filename`, `operator/`) and the queries on the ambient filesystem
  state (`exists`, `is_empty`, `last_write_time`, `file_size`, `status().type()`,
  `directory_iterator`).  One value of `filesystem` is the state seen by one call.
* A callback (`std::function<void(const std::vector<entry>&, bool)>`) is an identifier;
  `none` is the empty `std::function`.  Running a callback is recorded as a
  `callback_call`; callbacks are assumed not to re-enter the watcher.
* `visit_wild_card_path` recurses through the directory tree; the embedding takes a
  recursion budget and returns `none` when the budget is exhausted, so every `some`
  result is a result of the code.
* `std::string` is `String` with `find` and `substr` on its characters; `npos` is
  `2 ^ 64 - 1` and `wildcardPos + 1` wraps modulo `2 ^ 64`.  Statements that read
  `find(..) != npos` as "occurs in" assume strings shorter than `npos`, as every
  `std::string` is.
-/

namespace filesystem_watcher

/-! ## Data model -/

/-- `fs::file_type`, the kind of a filesystem object as reported by `status().type()`. -/
inductive file_type where
  | status_error
  | file_not_found
  | regular_file
  | directory_file
  | symlink_file
  | type_unknown
  deriving DecidableEq, Repr

/-- `filesystem_watcher::entry_status`. -/
inductive entry_status where
  | created
  | modified
  | removed
  | renamed
  | unmodified
  deriving DecidableEq, Repr

/-- `filesystem_watcher::entry`. -/
structure entry where
  path : String
  last_path : String
  status : entry_status
  last_mod_time : Int
  size : Nat
  type : file_type
  deriving DecidableEq, Repr

/-- The `fs::` library of `filesystem.h` (absent from the sources), taken as a parameter:
path operations and the queries on the filesystem state. -/
structure filesystem where
  /-- `path::parent_path()` -/
  parent_path : String → String
  /-- `path::filename()` -/
  filename : String → String
  /-- `operator/` on paths -/
  join : String → String → String
  /-- `fs::exists(p, err)` -/
  fs_exists : String → Bool
  /-- `fs::is_empty(p, err)` -/
  is_empty : String → Bool
  /-- `fs::last_write_time(p, err)` -/
  last_write_time : String → Int
  /-- `fs::file_size(p, err)` -/
  file_size : String → Nat
  /-- `fs::status(p, err).type()`, also used for `it->status().type()` -/
  status_type : String → file_type
  /-- the paths `it->path()` yielded by `fs::directory_iterator(p, err)`, in order -/
  directory_iterator : String → List String

/-- One invocation `callback(entries, is_initial)`. -/
structure callback_call where
  callback : Nat
  entries : List entry
  is_initial : Bool
  deriving DecidableEq, Repr

/-! ## `std::map<std::string, T>` -/

/-- `m.find(key)`: the value stored under `key`, `none` for `end()`. -/
def map_find {α : Type} : List (String × α) → String → Option α
  | [], _ => none
  | (k, v) :: m, key => if k = key then some v else map_find m key

/-- Insertion of a key that is not present (`operator[]`, `emplace`), at its place in key
order: `std::less<std::string>` compares the character sequences lexicographically. -/
def map_insert {α : Type} : List (String × α) → String → α → List (String × α)
  | [], key, v => [(key, v)]
  | (k, x) :: m, key, v =>
    if key.data < k.data then (key, v) :: (k, x) :: m else (k, x) :: map_insert m key v

/-- Assignment through the iterator returned by `find(key)`. -/
def map_set {α : Type} : List (String × α) → String → α → List (String × α)
  | [], _, _ => []
  | (k, x) :: m, key, v => if k = key then (k, v) :: m else (k, x) :: map_set m key v

/-- `m.erase(it)` for the iterator returned by `find(key)`. -/
def map_erase {α : Type} : List (String × α) → String → List (String × α)
  | [], _ => []
  | (k, x) :: m, key => if k = key then m else (k, x) :: map_erase m key

/-- The keys of a map, in iteration order. -/
def map_keys {α : Type} (m : List (String × α)) : List String := m.map Prod.fst

/-! ## `std::string` helpers -/

/-- `std::string::npos` for a 64-bit `size_t`. -/
def npos : Nat := 2 ^ 64 - 1

/-- Search for `pat` in the characters `s`, which start at index `i` of the whole string. -/
def find_from (pat : List Char) : List Char → Nat → Nat
  | [], i => if pat = [] then i else npos
  | c :: cs, i => if pat.isPrefixOf (c :: cs) then i else find_from pat cs (i + 1)

/-- `s.find(pat)`: index of the first occurrence of `pat`, or `npos`. -/
def string_find (s pat : String) : Nat := find_from pat.data s.data 0

/-- `s.substr(pos, n)`. -/
def substr (s : String) (pos n : Nat) : String := String.mk ((s.data.drop pos).take n)

/-! ## `watcher_impl` -/

/-- `filesystem_watcher::watcher_impl`: one registered watch. -/
structure watcher_impl where
  _recursive : Bool
  _root : String
  _filter : String
  _callback : Option Nat
  _entries : List (String × entry)
  deriving DecidableEq

/-- `watcher_impl::poll_entry(path, modifications)` on the snapshot `_entries`. -/
def poll_entry (F : filesystem) (_entries : List (String × entry)) (path : String)
    (modifications : List entry) : List (String × entry) × List entry :=
  let time := F.last_write_time path
  let size := F.file_size path
  let status := F.status_type path
  let key := path
  match map_find _entries key with
  | some fi =>
    if fi.last_mod_time ≠ time ∨ fi.size ≠ size ∨ fi.type ≠ status then
      let fi1 := { fi with size := size, last_mod_time := time,
                           status := entry_status.modified, type := status }
      (map_set _entries key fi1, modifications ++ [fi1])
    else
      let fi1 := { fi with status := entry_status.unmodified, type := status }
      (map_set _entries key fi1, modifications)
  | none =>
    let fi : entry := { path := path, last_path := path, last_mod_time := time,
                        status := entry_status.created, size := size, type := status }
    (map_insert _entries key fi, modifications ++ [fi])

/-- The inner loop of `process_modifications`: the first `created` entry of the batch
with the time and size of `fi` becomes `renamed` with `last_path = fi.path`;
`none` when the loop ends with `was_removed` still true. -/
def rename_match (fi : entry) : List entry → Option (List entry)
  | [] => none
  | e :: es =>
    if e.status = entry_status.created ∧ e.last_mod_time = fi.last_mod_time ∧ e.size = fi.size then
      some ({ e with status := entry_status.renamed, last_path := fi.path } :: es)
    else
      (rename_match fi es).map (fun r => e :: r)

/-- The body of the outer loop of `process_modifications` for a missing entry `fi`. -/
def reconcile (fi : entry) (entries : List entry) : List entry :=
  match rename_match fi entries with
  | some r => r
  | none => entries ++ [{ fi with status := entry_status.removed }]

/-- `watcher_impl::process_modifications(entries)`: walks `_entries` in key order and
returns the snapshot that is left and the batch. -/
def process_modifications (F : filesystem) :
    List (String × entry) → List entry → List (String × entry) × List entry
  | [], entries => ([], entries)
  | (k, fi) :: rest, entries =>
    if !F.fs_exists fi.path then
      process_modifications F rest (reconcile fi entries)
    else
      let r := process_modifications F rest entries
      ((k, fi) :: r.1, r.2)

/-! ## Wildcard expansion -/

/-- `filesystem_watcher::get_path_filter_pair(path)` (`log_path` does nothing). -/
def get_path_filter_pair (F : filesystem) (path : String) : String × String :=
  let key := path
  let wildCardPos := string_find key "*"
  if wildCardPos ≠ npos then (F.parent_path path, F.filename path) else (path, "")

/-- The `for` loop of `visit_wild_card_path` over the directory listing; `recurse` is the
nested call `visit_wild_card_path(it->path() / filter, ...)`, whose result is dropped. -/
def visit_children {σ : Type} (F : filesystem) (recurse : String → σ → Option σ)
    (filter before after : String) (recursive : Bool) (visitor : String → σ → σ × Bool) :
    List String → σ → Option σ
  | [], s => some s
  | it :: rest, s =>
    let nested :=
      if F.status_type it = file_type.directory_file ∧ recursive = true then
        recurse (F.join it filter) s
      else some s
    match nested with
    | none => none
    | some s1 =>
      let current := it
      let beforePos := string_find current before
      let afterPos := string_find current after
      if (beforePos ≠ npos ∨ before = "") ∧ (afterPos ≠ npos ∨ after = "") then
        let r := visitor it s1
        if r.2 = true then some r.1 else visit_children F recurse filter before after recursive visitor rest r.1
      else
        visit_children F recurse filter before after recursive visitor rest s1

/-- `filesystem_watcher::visit_wild_card_path(path, recursive, visitEmpty, visitor)`.
The visitor threads a state `σ` (what its captures hold) and returns the `bool` of the
C++ visitor.  The first argument bounds the nesting of recursive calls; `none` means the
bound was reached. -/
def visit_wild_card_path {σ : Type} : Nat → filesystem → String → Bool → Bool →
    (String → σ → σ × Bool) → σ → Option (σ × (String × String))
  | 0, _, _, _, _, _, _ => none
  | fuel + 1, F, path, recursive, visitEmpty, visitor, s =>
    let pathFilter := get_path_filter_pair F path
    if pathFilter.2 ≠ "" then
      let full := F.join pathFilter.1 pathFilter.2
      let wildcardPos := string_find full "*"
      let before := substr full 0 wildcardPos
      let after := substr full ((wildcardPos + 1) % 2 ^ 64) npos
      if visitEmpty = true ∧ F.is_empty pathFilter.1 = true then
        some ((visitor pathFilter.1 s).1, pathFilter)
      else if F.fs_exists pathFilter.1 = true then
        (visit_children F
            (fun p s1 => (visit_wild_card_path fuel F p recursive visitEmpty visitor s1).map Prod.fst)
            pathFilter.2 before after recursive visitor
            (F.directory_iterator pathFilter.1) s).map (fun s1 => (s1, pathFilter))
      else some (s, pathFilter)
    else some (s, pathFilter)

/-- The visitor lambda of `watcher_impl`: `poll_entry(p, entries); return false;`. -/
def poll_visitor (F : filesystem) (p : String)
    (st : List (String × entry) × List entry) : (List (String × entry) × List entry) × Bool :=
  (poll_entry F st.1 p st.2, false)

/-- The first half of `watcher_impl::watch()` and of the constructor: the snapshot and the
batch after every observed path went through `poll_entry`. -/
def poll_all (fuel : Nat) (F : filesystem) (root filter : String) (recursive : Bool)
    (_entries : List (String × entry)) : Option (List (String × entry) × List entry) :=
  if filter ≠ "" then
    (visit_wild_card_path fuel F (F.join root filter) recursive false (poll_visitor F)
      (_entries, [])).map Prod.fst
  else
    some (poll_entry F _entries root [])

/-- The guarded call `if(entries.size() > 0 && _callback) _callback(entries, flag)`. -/
def invoke (callback : Option Nat) (entries : List entry) (flag : Bool) : List callback_call :=
  match callback with
  | some cb => if entries.length > 0 then [{ callback := cb, entries := entries, is_initial := flag }] else []
  | none => []

/-- The constructor `watcher_impl(path, filter, recursive, initialList, listCallback)`:
the new watch and the callback invocations made during construction. -/
def watcher_impl.create (fuel : Nat) (F : filesystem) (path filter : String)
    (recursive initialList : Bool) (listCallback : Option Nat) :
    Option (watcher_impl × List callback_call) :=
  match poll_all fuel F path filter recursive [] with
  | none => none
  | some (snapshot, entries) =>
    some ({ _recursive := recursive, _root := path, _filter := filter,
            _callback := listCallback, _entries := snapshot },
          if initialList = true then invoke listCallback entries true else [])

/-- `watcher_impl::watch()`: one poll cycle; the watch afterwards and the callback
invocations (at most one, with `is_initial = false`). -/
def watcher_impl.watch (fuel : Nat) (F : filesystem) (w : watcher_impl) :
    Option (watcher_impl × List callback_call) :=
  match poll_all fuel F w._root w._filter w._recursive w._entries with
  | none => none
  | some (snapshot, entries) =>
    let r := process_modifications F snapshot entries
    some ({ w with _entries := r.1 }, invoke w._callback r.2 false)

/-- The paths handed to the visitor by the expansion a watch performs, in order
(for a bare root: the root itself). -/
def observed (fuel : Nat) (F : filesystem) (root filter : String) (recursive : Bool) :
    Option (List String) :=
  if filter ≠ "" then
    (visit_wild_card_path fuel F (F.join root filter) recursive false
      (fun p acc => (acc ++ [p], false)) []).map Prod.fst
  else
    some [root]

/-! ## The registry and the poller -/

/-- The data members of `filesystem_watcher`: the running flag of the polling thread and
the registered watches, keyed by the registration path string. -/
structure watcher where
  _watching : Bool
  _watchers : List (String × watcher_impl)
  deriving DecidableEq

/-- `filesystem_watcher::start()`: raises the flag and launches the polling thread. -/
def watcher.start (wd : watcher) : watcher := { wd with _watching := true }

/-- One sweep of the polling thread: `it->second.watch()` for every watch, in key order. -/
def sweep (fuel : Nat) (F : filesystem) :
    List (String × watcher_impl) → Option (List (String × watcher_impl) × List callback_call)
  | [] => some ([], [])
  | (k, w) :: rest =>
    match w.watch fuel F with
    | none => none
    | some (w1, calls) =>
      (sweep fuel F rest).map (fun r => ((k, w1) :: r.1, calls ++ r.2))

/-- The registration at the end of `watch_impl`, under the lock: construct and emplace the
watch unless the key is already present. -/
def register (fuel : Nat) (F : filesystem) (wd : watcher) (key p filter : String)
    (recursive initialList : Bool) (listCallback : Option Nat) :
    Option (watcher × List callback_call) :=
  match map_find wd._watchers key with
  | none =>
    match watcher_impl.create fuel F p filter recursive initialList listCallback with
    | none => none
    | some (w, calls) => some ({ wd with _watchers := map_insert wd._watchers key w }, calls)
  | some _ => some (wd, [])

/-- `filesystem_watcher::watch_impl(path, recursive, initialList, listCallback)`. -/
def watch_impl (fuel : Nat) (F : filesystem) (wd0 : watcher) (path : String)
    (recursive initialList : Bool) (listCallback : Option Nat) :
    Option (watcher × List callback_call) :=
  let wd := if wd0._watching = false then wd0.start else wd0
  let key := path
  match listCallback with
  | none => some (wd, [])
  | some cb =>
    if string_find path "*" ≠ npos then
      match visit_wild_card_path fuel F path recursive true (fun _ _ => (true, true)) false with
      | none => none
      | some (_, pathFilter) =>
        register fuel F wd key pathFilter.1 pathFilter.2 recursive initialList (some cb)
    else if F.fs_exists path = false then
      some (wd, [])
    else
      register fuel F wd key path "" recursive initialList (some cb)

/-- The loop of the recursive branch of `unwatch_impl`: every watch whose key has parent
directory `dir` runs `watch()` and is erased. -/
def unwatch_siblings (fuel : Nat) (F : filesystem) (dir : String) :
    List (String × watcher_impl) → Option (List (String × watcher_impl) × List callback_call)
  | [] => some ([], [])
  | (k, w) :: rest =>
    let watcher_key := F.parent_path k
    if watcher_key = dir then
      match w.watch fuel F with
      | none => none
      | some (_, calls) => (unwatch_siblings fuel F dir rest).map (fun r => (r.1, calls ++ r.2))
    else
      (unwatch_siblings fuel F dir rest).map (fun r => ((k, w) :: r.1, r.2))

/-- `filesystem_watcher::unwatch_impl(path, recursive)`. -/
def unwatch_impl (fuel : Nat) (F : filesystem) (wd : watcher) (path : String)
    (recursive : Bool) : Option (watcher × List callback_call) :=
  let key := path
  let dir := F.parent_path path
  if path = "" then
    some ({ wd with _watchers := [] }, [])
  else if recursive = true ∧ wd._watchers.length > 0 then
    (unwatch_siblings fuel F dir wd._watchers).map
      (fun r => ({ wd with _watchers := r.1 }, r.2))
  else
    match map_find wd._watchers key with
    | some w =>
      match w.watch fuel F with
      | none => none
      | some (_, calls) => some ({ wd with _watchers := map_erase wd._watchers key }, calls)
    | none => some (wd, [])

/-- `filesystem_watcher::unwatch_all()`. -/
def unwatch_all (fuel : Nat) (F : filesystem) (wd : watcher) :
    Option (watcher × List callback_call) :=
  unwatch_impl fuel F wd "" false

/-- `filesystem_watcher::close()`: unwatch everything, lower the flag, join the thread. -/
def close (fuel : Nat) (F : filesystem) (wd : watcher) : Option (watcher × List callback_call) :=
  (unwatch_all fuel F wd).map (fun r => ({ r.1 with _watching := false }, r.2))

/-! ## A sample filesystem

A concrete value of the library parameter, for evaluating the definitions: POSIX-style
paths with `/` as separator and a finite table of filesystem objects. -/

/-- Sample `parent_path`: the part before the last separator (`/` for a child of the root). -/
def sample_parent_path (p : String) : String :=
  let after := p.data.reverse.dropWhile (fun c => c ≠ '/')
  match after with
  | [] => ""
  | _ :: rest => if rest = [] then (if p = "/" then "" else "/") else String.mk rest.reverse

/-- Sample `filename`: the part after the last separator. -/
def sample_filename (p : String) : String :=
  String.mk (p.data.reverse.takeWhile (fun c => c ≠ '/')).reverse

/-- Sample `operator/`: appends with one separator in between. -/
def sample_join (a b : String) : String :=
  if a = "" then b
  else if a.data.getLast? = some '/' then a ++ b
  else a ++ "/" ++ b

/-- One object of the sample filesystem. A `file_not_found` type stands for a name that a
directory lists but that cannot be resolved (a dangling symbolic link). -/
structure fs_node where
  path : String
  time : Int
  size : Nat
  type : file_type

/-- The object named by `p`, when it resolves. -/
def lookup_node (nodes : List fs_node) (p : String) : Option fs_node :=
  nodes.find? (fun n => n.path = p ∧ n.type ≠ file_type.file_not_found)

/-- The sample filesystem holding exactly `nodes`. Failing queries return the error values
of the library: time `-1`, size `uintmax_t(-1)`, type `file_not_found`. -/
def sample_fs (nodes : List fs_node) : filesystem where
  parent_path := sample_parent_path
  filename := sample_filename
  join := sample_join
  fs_exists := fun p => (lookup_node nodes p).isSome
  is_empty := fun p =>
    match lookup_node nodes p with
    | some n =>
      if n.type = file_type.directory_file then
        (nodes.filter (fun c => sample_parent_path c.path = p ∧ c.path ≠ p)).isEmpty
      else decide (n.size = 0)
    | none => false
  last_write_time := fun p => match lookup_node nodes p with | some n => n.time | none => -1
  file_size := fun p => match lookup_node nodes p with | some n => n.size | none => 2 ^ 64 - 1
  status_type := fun p =>
    match lookup_node nodes p with | some n => n.type | none => file_type.file_not_found
  directory_iterator := fun p =>
    match lookup_node nodes p with
    | some n =>
      if n.type = file_type.directory_file then
        (nodes.filter (fun c => sample_parent_path c.path = p ∧ c.path ≠ p)).map fs_node.path
      else []
    | none => []

/-- A directory. -/
def dir_node (p : String) : fs_node := { path := p, time := 1, size := 0, type := file_type.directory_file }

/-- A regular file with the given time and size. -/
def file_node (p : String) (t : Int) (s : Nat) : fs_node :=
  { path := p, time := t, size := s, type := file_type.regular_file }

/-- A regular-file entry as `poll_entry` stores it. -/
def file_entry (p : String) (t : Int) (s : Nat) (st : entry_status) : entry :=
  { path := p, last_path := p, status := st, last_mod_time := t, size := s,
    type := file_type.regular_file }

/-- Sample state: `/d` holds `a.txt`, `c.txt` and the subdirectory `sub` with `x.txt`. -/
def fs_before : filesystem :=
  sample_fs [dir_node "/", dir_node "/d", file_node "/d/a.txt" 5 10, file_node "/d/c.txt" 6 20,
    dir_node "/d/sub", file_node "/d/sub/x.txt" 7 30]

/-- Sample state after `/d/a.txt` was renamed to `/d/b.txt`. -/
def fs_renamed : filesystem :=
  sample_fs [dir_node "/", dir_node "/d", file_node "/d/b.txt" 5 10, file_node "/d/c.txt" 6 20,
    dir_node "/d/sub", file_node "/d/sub/x.txt" 7 30]

/-- Sample state after `/d/a.txt` was renamed to `/d/b.txt` and `/d/e.txt` was created. -/
def fs_renamed_extra : filesystem :=
  sample_fs [dir_node "/", dir_node "/d", file_node "/d/b.txt" 5 10, file_node "/d/c.txt" 6 20,
    file_node "/d/e.txt" 9 99, dir_node "/d/sub", file_node "/d/sub/x.txt" 7 30]

/-- Sample state after `/d/a.txt` was deleted. -/
def fs_removed : filesystem :=
  sample_fs [dir_node "/", dir_node "/d", file_node "/d/c.txt" 6 20,
    dir_node "/d/sub", file_node "/d/sub/x.txt" 7 30]

/-- Sample state after both `/d/a.txt` and `/d/c.txt` were deleted. -/
def fs_both_removed : filesystem :=
  sample_fs [dir_node "/", dir_node "/d", dir_node "/d/sub", file_node "/d/sub/x.txt" 7 30]

/-- The watch that `watch("/d/*.txt", false, true, cb 7)` constructs on `fs_before`. -/
def sample_watch : watcher_impl :=
  { _recursive := false, _root := "/d", _filter := "*.txt", _callback := some 7,
    _entries := [("/d/a.txt", file_entry "/d/a.txt" 5 10 entry_status.created),
                 ("/d/c.txt", file_entry "/d/c.txt" 6 20 entry_status.created)] }

/-- A bare-root watch of the regular file `p` with callback `cb`. -/
def file_watch (p : String) (t : Int) (s : Nat) (cb : Nat) : watcher_impl :=
  { _recursive := false, _root := p, _filter := "", _callback := some cb,
    _entries := [(p, file_entry p t s entry_status.created)] }

/-- A registry on `fs_before`: watches keyed by the directory `/d`, by two files in it and
by a file below its subdirectory. -/
def sample_registry : watcher :=
  { _watching := true,
    _watchers :=
      [("/d", { _recursive := false, _root := "/d", _filter := "", _callback := some 1,
                _entries := [("/d", { path := "/d", last_path := "/d",
                                      status := entry_status.created, last_mod_time := 1,
                                      size := 0, type := file_type.directory_file })] }),
       ("/d/a.txt", file_watch "/d/a.txt" 5 10 2),
       ("/d/c.txt", file_watch "/d/c.txt" 6 20 3),
       ("/d/sub/x.txt", file_watch "/d/sub/x.txt" 7 30 4)] }

/-- A sequence of poll cycles of one watch, one filesystem state per cycle, with all the
callback invocations they make. -/
def poll_cycles (fuel : Nat) :
    List filesystem → watcher_impl → Option (watcher_impl × List callback_call)
  | [], w => some (w, [])
  | F :: rest, w =>
    match w.watch fuel F with
    | none => none
    | some (w1, calls) => (poll_cycles fuel rest w1).map (fun r => (r.1, calls ++ r.2))

/-- The fold of `poll_entry` over a list of observed paths, in order. -/
def poll_list (F : filesystem) (paths : List String)
    (st : List (String × entry) × List entry) : List (String × entry) × List entry :=
  paths.foldl (fun acc p => poll_entry F acc.1 p acc.2) st

/-- Well-formed snapshot: keys are distinct and every entry is stored under its own path. -/
def snapshot_wf (m : List (String × entry)) : Prop :=
  (map_keys m).Nodup ∧ ∀ x ∈ m, x.2.path = x.1

/-- The snapshot entry stored for `p` has the time, size and kind that `p` shows now. -/
def stored_same (F : filesystem) (S : List (String × entry)) (p : String) : Prop :=
  ∃ fi, map_find S p = some fi ∧ fi.last_mod_time = F.last_write_time p ∧
    fi.size = F.file_size p ∧ fi.type = F.status_type p

/-- The paths handed to a visitor that never asks to stop, in order, by
`visit_wild_card_path(path, recursive, visitEmpty, visitor)`. -/
def visited (fuel : Nat) (F : filesystem) (path : String) (recursive visitEmpty : Bool) :
    Option (List String) :=
  (visit_wild_card_path fuel F path recursive visitEmpty
    (fun p acc => (acc ++ [p], false)) []).map Prod.fst

/-- The test of the listing loop of `visit_wild_card_path` on the path `current`. -/
def child_matches (before after current : String) : Bool :=
  decide ((string_find current before ≠ npos ∨ before = "") ∧
    (string_find current after ≠ npos ∨ after = ""))

/-- A visitor that always asks to stop and counts its invocations (the shape of the
"does any match exist" probe of `watch_impl`). -/
def counting_probe (_p : String) (n : Nat) : Nat × Bool := (n + 1, true)

/-- Sample state: `/d` holds `c.txt` and `abc.txt`. -/
def fs_abc : filesystem :=
  sample_fs [dir_node "/", dir_node "/d", file_node "/d/c.txt" 6 20, file_node "/d/abc.txt" 8 40]

/-- Sample state: `/d` holds `a.txt` and `b.log`. -/
def fs_txt_log : filesystem :=
  sample_fs [dir_node "/", dir_node "/d", file_node "/d/a.txt" 5 10, file_node "/d/b.log" 6 20]

/-- Sample state: `/d` lists its subdirectory `sub` (holding `x.txt`) before `a.txt`. -/
def fs_sub_first : filesystem :=
  sample_fs [dir_node "/", dir_node "/d", dir_node "/d/sub", file_node "/d/sub/x.txt" 7 30,
    file_node "/d/a.txt" 5 10]

/-- The number of entries of a batch that carry the status `st`. -/
def count_status (st : entry_status) (L : List entry) : Nat :=
  L.countP (fun e => decide (e.status = st))

/-- A running engine whose registry holds the single watch keyed `/d/c.txt`. -/
def single_registry : watcher :=
  { _watching := true, _watchers := [("/d/c.txt", file_watch "/d/c.txt" 6 20 3)] }

/-- The entry `poll_entry` stores and reports for a path that is not yet a key. -/
def new_entry (F : filesystem) (p : String) : entry :=
  { path := p, last_path := p, status := entry_status.created,
    last_mod_time := F.last_write_time p, size := F.file_size p, type := F.status_type p }

/-! ## Lemmas on the map operations -/

theorem map_find_eq_none_iff {α : Type} (m : List (String × α)) (key : String) :
    map_find m key = none ↔ key ∉ map_keys m := by
  induction m with
  | nil => simp [map_find, map_keys]
  | cons x m ih =>
    obtain ⟨k, v⟩ := x
    by_cases h : k = key
    · simp [map_find, map_keys, h]
    · have h2 : ¬ key = k := fun e => h e.symm
      simp only [map_keys] at ih
      simp [map_find, map_keys, h, h2, ih]

theorem map_find_mem {α : Type} (m : List (String × α)) (key : String) (v : α)
    (h : map_find m key = some v) : (key, v) ∈ m := by
  induction m with
  | nil => simp [map_find] at h
  | cons x m ih =>
    obtain ⟨k, x⟩ := x
    by_cases hk : k = key
    · simp [map_find, hk] at h
      simp [hk, h]
    · simp [map_find, hk] at h
      simp [ih h]

theorem map_mem_find {α : Type} (m : List (String × α)) (key : String) (v : α)
    (hnd : (map_keys m).Nodup) (h : (key, v) ∈ m) : map_find m key = some v := by
  induction m with
  | nil => simp at h
  | cons x m ih =>
    obtain ⟨k, x⟩ := x
    simp only [map_keys, List.map_cons, List.nodup_cons] at hnd
    simp only [List.mem_cons, Prod.mk.injEq] at h
    by_cases hk : k = key
    · rcases h with h | h
      · simp [map_find, hk, h.2]
      · exfalso
        apply hnd.1
        rw [hk]
        exact List.mem_map_of_mem Prod.fst h
    · rcases h with h | h
      · exact absurd h.1.symm hk
      · simp only [map_find, hk, if_false]
        exact ih hnd.2 h

theorem map_find_insert {α : Type} (m : List (String × α)) (key k : String) (v : α)
    (h : map_find m key = none) :
    map_find (map_insert m key v) k = if k = key then some v else map_find m k := by
  induction m with
  | nil =>
    by_cases hk : k = key
    · simp [map_insert, map_find, hk]
    · have : ¬ key = k := fun e => hk e.symm
      simp [map_insert, map_find, hk, this]
  | cons x m ih =>
    obtain ⟨k0, x⟩ := x
    have hne : ¬ k0 = key := by
      intro e
      simp [map_find, e] at h
    have h2 : map_find m key = none := by
      simpa [map_find, hne] using h
    by_cases hlt : key.data < k0.data
    · by_cases hk : k = key
      · simp [map_insert, map_find, hlt, hk]
      · have : ¬ key = k := fun e => hk e.symm
        simp [map_insert, map_find, hlt, hk, this]
    · by_cases hk : k = key
      · subst hk
        rw [map_insert, if_neg hlt]
        simp [map_find, hne, ih h2]
      · rw [map_insert, if_neg hlt]
        by_cases hk0 : k0 = k
        · simp [map_find, hk0, hk]
        · simp [map_find, hk0, hk, ih h2]

theorem map_mem_insert {α : Type} (m : List (String × α)) (key : String) (v : α)
    (x : String × α) : x ∈ map_insert m key v ↔ x = (key, v) ∨ x ∈ m := by
  induction m with
  | nil => simp [map_insert]
  | cons y m ih =>
    obtain ⟨k0, y⟩ := y
    by_cases hlt : key.data < k0.data
    · simp [map_insert, hlt]
    · simp only [map_insert, hlt, if_false, List.mem_cons, ih]
      tauto

theorem map_keys_insert {α : Type} (m : List (String × α)) (key : String) (v : α) :
    (map_keys (map_insert m key v)).Perm (key :: map_keys m) := by
  induction m with
  | nil => simp [map_insert, map_keys]
  | cons y m ih =>
    obtain ⟨k0, y⟩ := y
    by_cases hlt : key.data < k0.data
    · simp [map_insert, map_keys, hlt]
    · simp only [map_keys] at ih
      simp only [map_insert, hlt, if_false, map_keys, List.map_cons]
      exact (List.Perm.cons k0 ih).trans (List.Perm.swap key k0 _)

theorem map_keys_set {α : Type} (m : List (String × α)) (key : String) (v : α) :
    map_keys (map_set m key v) = map_keys m := by
  induction m with
  | nil => simp [map_set]
  | cons y m ih =>
    obtain ⟨k0, y⟩ := y
    by_cases hk : k0 = key
    · simp [map_set, map_keys, hk]
    · simp only [map_keys] at ih
      simp [map_set, map_keys, hk, ih]

theorem map_find_set {α : Type} (m : List (String × α)) (key k : String) (v : α) :
    map_find (map_set m key v) k
      = if k = key then (map_find m key).map (fun _ => v) else map_find m k := by
  induction m with
  | nil => simp [map_set, map_find]
  | cons y m ih =>
    obtain ⟨k0, y⟩ := y
    by_cases hk0 : k0 = key
    · by_cases hk : k = key
      · simp [map_set, map_find, hk0, hk]
      · have : ¬ key = k := fun e => hk e.symm
        simp [map_set, map_find, hk0, hk, this]
    · by_cases hk : k = key
      · subst hk
        simp [map_set, map_find, hk0, ih]
      · by_cases hkk : k0 = k
        · simp [map_set, map_find, hk0, hk, hkk]
        · simp [map_set, map_find, hk0, hk, hkk, ih]

theorem map_mem_set {α : Type} (m : List (String × α)) (key : String) (v : α)
    (x : String × α) (h : x ∈ map_set m key v) : x = (key, v) ∨ x ∈ m := by
  induction m with
  | nil => simp [map_set] at h
  | cons y m ih =>
    obtain ⟨k0, y⟩ := y
    by_cases hk0 : k0 = key
    · simp only [map_set, hk0, if_true, List.mem_cons] at h
      rcases h with h | h
      · exact Or.inl h
      · exact Or.inr (List.mem_cons_of_mem _ h)
    · simp only [map_set, hk0, if_false, List.mem_cons] at h
      rcases h with h | h
      · exact Or.inr (by simp [h])
      · rcases ih h with h1 | h1
        · exact Or.inl h1
        · exact Or.inr (List.mem_cons_of_mem _ h1)

/-! ## `poll_entry` -/

theorem poll_entry_new (F : filesystem) (snapshot : List (String × entry)) (path : String)
    (batch : List entry) (h : map_find snapshot path = none) :
    poll_entry F snapshot path batch =
      (map_insert snapshot path
          { path := path, last_path := path, status := entry_status.created,
            last_mod_time := F.last_write_time path, size := F.file_size path,
            type := F.status_type path },
        batch ++ [{ path := path, last_path := path, status := entry_status.created,
                    last_mod_time := F.last_write_time path, size := F.file_size path,
                    type := F.status_type path }]) := by
  simp [poll_entry, h]

theorem poll_entry_changed (F : filesystem) (snapshot : List (String × entry)) (path : String)
    (batch : List entry) (fi : entry) (h : map_find snapshot path = some fi)
    (hc : fi.last_mod_time ≠ F.last_write_time path ∨ fi.size ≠ F.file_size path ∨
      fi.type ≠ F.status_type path) :
    poll_entry F snapshot path batch =
      (map_set snapshot path
          { path := fi.path, last_path := fi.last_path, status := entry_status.modified,
            last_mod_time := F.last_write_time path, size := F.file_size path,
            type := F.status_type path },
        batch ++ [{ path := fi.path, last_path := fi.last_path, status := entry_status.modified,
                    last_mod_time := F.last_write_time path, size := F.file_size path,
                    type := F.status_type path }]) := by
  simp only [poll_entry, h]
  rw [if_pos hc]

theorem poll_entry_same (F : filesystem) (snapshot : List (String × entry)) (path : String)
    (batch : List entry) (fi : entry) (h : map_find snapshot path = some fi)
    (hc : fi.last_mod_time = F.last_write_time path ∧ fi.size = F.file_size path ∧
      fi.type = F.status_type path) :
    poll_entry F snapshot path batch =
      (map_set snapshot path { fi with status := entry_status.unmodified }, batch) := by
  have hn : ¬ (fi.last_mod_time ≠ F.last_write_time path ∨ fi.size ≠ F.file_size path ∨
      fi.type ≠ F.status_type path) := by
    simp [hc.1, hc.2.1, hc.2.2]
  simp only [poll_entry, h]
  rw [if_neg hn, ← hc.2.2]

theorem poll_entry_find_other (F : filesystem) (snapshot : List (String × entry))
    (path : String) (batch : List entry) (k : String) (hk : k ≠ path) :
    map_find (poll_entry F snapshot path batch).1 k = map_find snapshot k := by
  cases h : map_find snapshot path with
  | none =>
    rw [poll_entry_new F snapshot path batch h]
    simp [map_find_insert _ _ _ _ h, hk]
  | some fi =>
    by_cases hc : fi.last_mod_time ≠ F.last_write_time path ∨ fi.size ≠ F.file_size path ∨
        fi.type ≠ F.status_type path
    · rw [poll_entry_changed F snapshot path batch fi h hc]
      simp [map_find_set, hk]
    · have hc2 : fi.last_mod_time = F.last_write_time path ∧ fi.size = F.file_size path ∧
          fi.type = F.status_type path := by
        simp only [not_or, not_not] at hc
        exact hc
      rw [poll_entry_same F snapshot path batch fi h hc2]
      simp [map_find_set, hk]

/-- C3 (entry diffing): `poll_entry` on an observed path does exactly one of three things.
(a) The path is not a snapshot key: an entry with status `created`, `path = last_path` the
observed path and the observed time, size and kind is stored under the path and a copy
is appended to the batch. (b) The key is found and time, size or kind differs: the stored
time, size and kind are overwritten, the status becomes `modified`, `path` and `last_path`
are kept, and a copy is appended. (c) The key is found and nothing differs: the stored
status becomes `unmodified` and the batch is unchanged. In every case every other key
keeps its stored entry and the earlier batch is a prefix of the new batch. -/
theorem poll_entry_diff (F : filesystem) (snapshot : List (String × entry)) (path : String)
    (batch : List entry) :
    (map_find snapshot path = none →
      map_find (poll_entry F snapshot path batch).1 path =
          some { path := path, last_path := path, status := entry_status.created,
                 last_mod_time := F.last_write_time path, size := F.file_size path,
                 type := F.status_type path } ∧
      (poll_entry F snapshot path batch).2 =
          batch ++ [{ path := path, last_path := path, status := entry_status.created,
                      last_mod_time := F.last_write_time path, size := F.file_size path,
                      type := F.status_type path }] ∧
      (map_keys (poll_entry F snapshot path batch).1).Perm (path :: map_keys snapshot)) ∧
    (∀ fi, map_find snapshot path = some fi →
      (fi.last_mod_time ≠ F.last_write_time path ∨ fi.size ≠ F.file_size path ∨
        fi.type ≠ F.status_type path) →
      map_find (poll_entry F snapshot path batch).1 path =
          some { path := fi.path, last_path := fi.last_path, status := entry_status.modified,
                 last_mod_time := F.last_write_time path, size := F.file_size path,
                 type := F.status_type path } ∧
      (poll_entry F snapshot path batch).2 =
          batch ++ [{ path := fi.path, last_path := fi.last_path,
                      status := entry_status.modified,
                      last_mod_time := F.last_write_time path, size := F.file_size path,
                      type := F.status_type path }] ∧
      map_keys (poll_entry F snapshot path batch).1 = map_keys snapshot) ∧
    (∀ fi, map_find snapshot path = some fi →
      (fi.last_mod_time = F.last_write_time path ∧ fi.size = F.file_size path ∧
        fi.type = F.status_type path) →
      map_find (poll_entry F snapshot path batch).1 path =
          some { path := fi.path, last_path := fi.last_path, status := entry_status.unmodified,
                 last_mod_time := fi.last_mod_time, size := fi.size, type := fi.type } ∧
      (poll_entry F snapshot path batch).2 = batch ∧
      map_keys (poll_entry F snapshot path batch).1 = map_keys snapshot) ∧
    (∀ k, k ≠ path → map_find (poll_entry F snapshot path batch).1 k = map_find snapshot k) ∧
    batch <+: (poll_entry F snapshot path batch).2 := by
  refine ⟨?_, ?_, ?_, ?_, ?_⟩
  · intro h
    rw [poll_entry_new F snapshot path batch h]
    refine ⟨?_, rfl, map_keys_insert _ _ _⟩
    simp [map_find_insert _ _ _ _ h]
  · intro fi h hc
    rw [poll_entry_changed F snapshot path batch fi h hc]
    refine ⟨?_, rfl, map_keys_set _ _ _⟩
    simp [map_find_set, h]
  · intro fi h hc
    rw [poll_entry_same F snapshot path batch fi h hc]
    refine ⟨?_, rfl, map_keys_set _ _ _⟩
    simp [map_find_set, h]
  · intro k hk
    exact poll_entry_find_other F snapshot path batch k hk
  · cases h : map_find snapshot path with
    | none =>
      rw [poll_entry_new F snapshot path batch h]
      exact List.prefix_append _ _
    | some fi =>
      by_cases hc : fi.last_mod_time ≠ F.last_write_time path ∨ fi.size ≠ F.file_size path ∨
          fi.type ≠ F.status_type path
      · rw [poll_entry_changed F snapshot path batch fi h hc]
        exact List.prefix_append _ _
      · have hc2 : fi.last_mod_time = F.last_write_time path ∧ fi.size = F.file_size path ∧
            fi.type = F.status_type path := by
          simp only [not_or, not_not] at hc
          exact hc
        rw [poll_entry_same F snapshot path batch fi h hc2]

/-! ## The expansion with a visitor that never stops -/

theorem foldl_collect (L acc : List String) :
    L.foldl (fun a p => a ++ [p]) acc = acc ++ L := by
  induction L generalizing acc with
  | nil => simp
  | cons x L ih => simp [ih]

theorem visit_children_fold (F : filesystem) (filter before after : String)
    (recursive : Bool)
    (rec_paths : String → Option (List String))
    (cs : List String) :
    ∃ r : Option (List String),
      ∀ (σ : Type) (f : String → σ → σ) (recurse : String → σ → Option σ),
        (∀ p s, recurse p s = (rec_paths p).map (fun L => L.foldl (fun a q => f q a) s)) →
        ∀ s : σ,
          visit_children F recurse filter before after recursive (fun p s1 => (f p s1, false)) cs s
            = r.map (fun L => L.foldl (fun a q => f q a) s) := by
  induction cs with
  | nil => exact ⟨some [], fun σ f recurse _ s => by simp [visit_children]⟩
  | cons it rest ih =>
    obtain ⟨r_rest, hrest⟩ := ih
    by_cases hdir : F.status_type it = file_type.directory_file ∧ recursive = true
    · cases hrec : rec_paths (F.join it filter) with
      | none =>
        refine ⟨none, fun σ f recurse hr s => ?_⟩
        simp only [visit_children, if_pos hdir, hr, hrec, Option.map_none']
      | some L1 =>
        by_cases hm : (string_find it before ≠ npos ∨ before = "") ∧
            (string_find it after ≠ npos ∨ after = "")
        · refine ⟨r_rest.map (fun L2 => L1 ++ it :: L2), fun σ f recurse hr s => ?_⟩
          simp only [visit_children, if_pos hdir, hr, hrec, Option.map_some', if_pos hm]
          rw [hrest σ f recurse hr]
          cases r_rest <;> simp [List.foldl_append]
        · refine ⟨r_rest.map (fun L2 => L1 ++ L2), fun σ f recurse hr s => ?_⟩
          simp only [visit_children, if_pos hdir, hr, hrec, Option.map_some', if_neg hm]
          rw [hrest σ f recurse hr]
          cases r_rest <;> simp [List.foldl_append]
    · by_cases hm : (string_find it before ≠ npos ∨ before = "") ∧
          (string_find it after ≠ npos ∨ after = "")
      · refine ⟨r_rest.map (fun L2 => it :: L2), fun σ f recurse hr s => ?_⟩
        simp only [visit_children, if_neg hdir, if_pos hm]
        rw [hrest σ f recurse hr]
        cases r_rest <;> simp
      · refine ⟨r_rest, fun σ f recurse hr s => ?_⟩
        simp only [visit_children, if_neg hdir, if_neg hm]
        rw [hrest σ f recurse hr]

theorem visit_fold (fuel : Nat) (F : filesystem) (recursive visitEmpty : Bool) (path : String) :
    ∃ r : Option (List String),
      ∀ (σ : Type) (f : String → σ → σ) (s : σ),
        visit_wild_card_path fuel F path recursive visitEmpty (fun p s1 => (f p s1, false)) s
          = r.map (fun L => (L.foldl (fun a q => f q a) s, get_path_filter_pair F path)) := by
  induction fuel generalizing path with
  | zero => exact ⟨none, fun σ f s => by simp [visit_wild_card_path]⟩
  | succ fuel ih =>
    by_cases hf : (get_path_filter_pair F path).2 ≠ ""
    · by_cases he : visitEmpty = true ∧ F.is_empty (get_path_filter_pair F path).1 = true
      · refine ⟨some [(get_path_filter_pair F path).1], fun σ f s => ?_⟩
        simp only [visit_wild_card_path, if_pos hf, if_pos he]
        simp
      · by_cases hx : F.fs_exists (get_path_filter_pair F path).1 = true
        · choose rp hrp using ih
          obtain ⟨r, hr⟩ := visit_children_fold F (get_path_filter_pair F path).2
            (substr (F.join (get_path_filter_pair F path).1 (get_path_filter_pair F path).2) 0
              (string_find (F.join (get_path_filter_pair F path).1 (get_path_filter_pair F path).2) "*"))
            (substr (F.join (get_path_filter_pair F path).1 (get_path_filter_pair F path).2)
              ((string_find (F.join (get_path_filter_pair F path).1 (get_path_filter_pair F path).2) "*" + 1) % 2 ^ 64)
              npos)
            recursive rp (F.directory_iterator (get_path_filter_pair F path).1)
          refine ⟨r, fun σ f s => ?_⟩
          simp only [visit_wild_card_path, if_pos hf, if_neg he, if_pos hx]
          rw [hr σ f _ (fun p s1 => by rw [hrp p σ f s1]; cases rp p <;> simp)]
          cases r <;> simp
        · refine ⟨some [], fun σ f s => ?_⟩
          simp only [visit_wild_card_path, if_pos hf, if_neg he, if_neg hx]
          simp
    · refine ⟨some [], fun σ f s => ?_⟩
      simp only [visit_wild_card_path, if_neg hf]
      simp

/-- A poll over the expansion is the fold of `poll_entry` over the observed paths. -/
theorem poll_all_eq (fuel : Nat) (F : filesystem) (root filter : String) (recursive : Bool)
    (snapshot : List (String × entry)) :
    poll_all fuel F root filter recursive snapshot
      = (observed fuel F root filter recursive).map (fun L => poll_list F L (snapshot, [])) := by
  by_cases hf : filter ≠ ""
  · obtain ⟨r, hr⟩ := visit_fold fuel F recursive false (F.join root filter)
    have h1 := hr (List (String × entry) × List entry) (fun p st => poll_entry F st.1 p st.2)
      (snapshot, [])
    have h2 := hr (List String) (fun p acc => acc ++ [p]) []
    have h3 : poll_visitor F = fun p (st : List (String × entry) × List entry) =>
        (poll_entry F st.1 p st.2, false) := rfl
    simp only [poll_all, observed, if_pos hf]
    rw [h3, h1, h2]
    cases r <;> simp [foldl_collect, poll_list]
  · simp [poll_all, observed, hf, poll_list]

/-! ## Invariants of polling -/

theorem poll_list_nil (F : filesystem) (st : List (String × entry) × List entry) :
    poll_list F [] st = st := rfl

theorem poll_list_cons (F : filesystem) (p : String) (L : List String)
    (S : List (String × entry)) (E : List entry) :
    poll_list F (p :: L) (S, E)
      = poll_list F L ((poll_entry F S p E).1, (poll_entry F S p E).2) := rfl

/-- The three outcomes of `poll_entry`, as one case distinction. -/
theorem poll_entry_cases (F : filesystem) (S : List (String × entry)) (p : String)
    (E : List entry) :
    (map_find S p = none ∧
      poll_entry F S p E =
        (map_insert S p
            { path := p, last_path := p, status := entry_status.created,
              last_mod_time := F.last_write_time p, size := F.file_size p,
              type := F.status_type p },
          E ++ [{ path := p, last_path := p, status := entry_status.created,
                  last_mod_time := F.last_write_time p, size := F.file_size p,
                  type := F.status_type p }])) ∨
    (∃ fi, map_find S p = some fi ∧
      (fi.last_mod_time ≠ F.last_write_time p ∨ fi.size ≠ F.file_size p ∨
        fi.type ≠ F.status_type p) ∧
      poll_entry F S p E =
        (map_set S p
            { path := fi.path, last_path := fi.last_path, status := entry_status.modified,
              last_mod_time := F.last_write_time p, size := F.file_size p,
              type := F.status_type p },
          E ++ [{ path := fi.path, last_path := fi.last_path, status := entry_status.modified,
                  last_mod_time := F.last_write_time p, size := F.file_size p,
                  type := F.status_type p }])) ∨
    (∃ fi, map_find S p = some fi ∧
      (fi.last_mod_time = F.last_write_time p ∧ fi.size = F.file_size p ∧
        fi.type = F.status_type p) ∧
      poll_entry F S p E = (map_set S p { fi with status := entry_status.unmodified }, E)) := by
  cases h : map_find S p with
  | none => exact Or.inl ⟨rfl, poll_entry_new F S p E h⟩
  | some fi =>
    by_cases hc : fi.last_mod_time ≠ F.last_write_time p ∨ fi.size ≠ F.file_size p ∨
        fi.type ≠ F.status_type p
    · exact Or.inr (Or.inl ⟨fi, rfl, hc, poll_entry_changed F S p E fi h hc⟩)
    · have hc2 : fi.last_mod_time = F.last_write_time p ∧ fi.size = F.file_size p ∧
          fi.type = F.status_type p := by
        simp only [not_or, not_not] at hc
        exact hc
      exact Or.inr (Or.inr ⟨fi, rfl, hc2, poll_entry_same F S p E fi h hc2⟩)

theorem poll_entry_wf (F : filesystem) (S : List (String × entry)) (p : String)
    (E : List entry) (hwf : snapshot_wf S) : snapshot_wf (poll_entry F S p E).1 := by
  obtain ⟨hnd, hpath⟩ := hwf
  rcases poll_entry_cases F S p E with ⟨h, he⟩ | ⟨fi, h, _, he⟩ | ⟨fi, h, _, he⟩
  · rw [he]
    refine ⟨?_, ?_⟩
    · have hp := map_keys_insert S p
        { path := p, last_path := p, status := entry_status.created,
          last_mod_time := F.last_write_time p, size := F.file_size p,
          type := F.status_type p }
      rw [hp.nodup_iff, List.nodup_cons]
      exact ⟨(map_find_eq_none_iff S p).1 h, hnd⟩
    · intro x hx
      rcases (map_mem_insert S p _ x).1 hx with hx | hx
      · rw [hx]
      · exact hpath x hx
  · rw [he]
    refine ⟨by rw [map_keys_set]; exact hnd, ?_⟩
    intro x hx
    rcases map_mem_set S p _ x hx with hx | hx
    · rw [hx]
      exact hpath (p, fi) (map_find_mem S p fi h)
    · exact hpath x hx
  · rw [he]
    refine ⟨by rw [map_keys_set]; exact hnd, ?_⟩
    intro x hx
    rcases map_mem_set S p _ x hx with hx | hx
    · rw [hx]
      exact hpath (p, fi) (map_find_mem S p fi h)
    · exact hpath x hx

theorem poll_list_wf (F : filesystem) (L : List String) (S : List (String × entry))
    (E : List entry) (hwf : snapshot_wf S) : snapshot_wf (poll_list F L (S, E)).1 := by
  induction L generalizing S E with
  | nil => exact hwf
  | cons p L ih =>
    rw [poll_list_cons]
    exact ih _ _ (poll_entry_wf F S p E hwf)

theorem poll_entry_find_self (F : filesystem) (S : List (String × entry)) (p : String)
    (E : List entry) : map_find (poll_entry F S p E).1 p ≠ none := by
  rcases poll_entry_cases F S p E with ⟨h, he⟩ | ⟨fi, h, _, he⟩ | ⟨fi, h, _, he⟩
  · rw [he]
    simp [map_find_insert _ _ _ _ h]
  · rw [he]
    simp [map_find_set, h]
  · rw [he]
    simp [map_find_set, h]

theorem poll_entry_find_none (F : filesystem) (S : List (String × entry)) (p q : String)
    (E : List entry) (h : map_find (poll_entry F S p E).1 q = none) : map_find S q = none := by
  by_cases hq : q = p
  · rw [hq] at h
    exact absurd h (poll_entry_find_self F S p E)
  · rw [← poll_entry_find_other F S p E q hq]
    exact h

theorem poll_list_find_none (F : filesystem) (L : List String) (S : List (String × entry))
    (E : List entry) (q : String) (h : map_find (poll_list F L (S, E)).1 q = none) :
    map_find S q = none := by
  induction L generalizing S E with
  | nil => exact h
  | cons p L ih =>
    rw [poll_list_cons] at h
    exact poll_entry_find_none F S p q E (ih _ _ h)

theorem poll_list_find_other (F : filesystem) (L : List String) (S : List (String × entry))
    (E : List entry) (q : String) (hq : q ∉ L) :
    map_find (poll_list F L (S, E)).1 q = map_find S q := by
  induction L generalizing S E with
  | nil => rfl
  | cons p L ih =>
    rw [poll_list_cons]
    simp only [List.mem_cons, not_or] at hq
    rw [ih _ _ hq.2]
    exact poll_entry_find_other F S p E q hq.1

theorem poll_entry_key_mem (F : filesystem) (S : List (String × entry)) (p : String)
    (E : List entry) (k : String) (hk : k ∈ map_keys (poll_entry F S p E).1) :
    k = p ∨ k ∈ map_keys S := by
  rcases poll_entry_cases F S p E with ⟨h, he⟩ | ⟨fi, h, _, he⟩ | ⟨fi, h, _, he⟩
  · rw [he] at hk
    have := (map_keys_insert S p _).mem_iff.1 hk
    simpa using this
  · rw [he, map_keys_set] at hk
    exact Or.inr hk
  · rw [he, map_keys_set] at hk
    exact Or.inr hk

theorem poll_list_key_mem (F : filesystem) (L : List String) (S : List (String × entry))
    (E : List entry) (k : String) (hk : k ∈ map_keys (poll_list F L (S, E)).1) :
    k ∈ L ∨ k ∈ map_keys S := by
  induction L generalizing S E with
  | nil => exact Or.inr hk
  | cons p L ih =>
    rw [poll_list_cons] at hk
    rcases ih _ _ hk with h | h
    · exact Or.inl (List.mem_cons_of_mem _ h)
    · rcases poll_entry_key_mem F S p E k h with h | h
      · exact Or.inl (by simp [h])
      · exact Or.inr h

/-- Where the entries of the batch come from after a poll: each is an earlier batch entry,
a `modified` copy, or the `created` entry of an observed path that was not a key. -/
theorem poll_list_batch_mem (F : filesystem) (L : List String) (S : List (String × entry))
    (E : List entry) (e : entry) (he : e ∈ (poll_list F L (S, E)).2) :
    e ∈ E ∨ e.status = entry_status.modified ∨
      (e.status = entry_status.created ∧ e.last_path = e.path ∧ e.path ∈ L ∧
        map_find S e.path = none ∧ e.last_mod_time = F.last_write_time e.path ∧
        e.size = F.file_size e.path) := by
  induction L generalizing S E with
  | nil => exact Or.inl he
  | cons p L ih =>
    rw [poll_list_cons] at he
    rcases ih _ _ he with h | h | h
    · rcases poll_entry_cases F S p E with ⟨hf, hpe⟩ | ⟨fi, hf, _, hpe⟩ | ⟨fi, hf, _, hpe⟩
      · rw [hpe] at h
        simp only [List.mem_append, List.mem_singleton] at h
        rcases h with h | h
        · exact Or.inl h
        · refine Or.inr (Or.inr ?_)
          rw [h]
          simp [hf]
      · rw [hpe] at h
        simp only [List.mem_append, List.mem_singleton] at h
        rcases h with h | h
        · exact Or.inl h
        · refine Or.inr (Or.inl ?_)
          rw [h]
      · rw [hpe] at h
        exact Or.inl h
    · exact Or.inr (Or.inl h)
    · obtain ⟨h1, h2, h3, h4, h5, h6⟩ := h
      exact Or.inr (Or.inr ⟨h1, h2, List.mem_cons_of_mem _ h3,
        poll_entry_find_none F S p e.path E h4, h5, h6⟩)

/-! ## `process_modifications` -/

theorem process_modifications_snapshot (F : filesystem) (S : List (String × entry))
    (E : List entry) :
    (process_modifications F S E).1 = S.filter (fun x => F.fs_exists x.2.path) := by
  induction S generalizing E with
  | nil => rfl
  | cons x S ih =>
    obtain ⟨k, fi⟩ := x
    by_cases h : F.fs_exists fi.path = true
    · simp [process_modifications, h, ih]
    · simp only [Bool.not_eq_true] at h
      simp [process_modifications, h, ih]

theorem process_modifications_batch (F : filesystem) (S : List (String × entry))
    (E : List entry) :
    (process_modifications F S E).2 =
      (S.filter (fun x => !F.fs_exists x.2.path)).foldl (fun acc x => reconcile x.2 acc) E := by
  induction S generalizing E with
  | nil => rfl
  | cons x S ih =>
    obtain ⟨k, fi⟩ := x
    by_cases h : F.fs_exists fi.path = true
    · simp [process_modifications, h, ih]
    · simp only [Bool.not_eq_true] at h
      simp [process_modifications, h, ih]

theorem rename_match_none (fi : entry) (E : List entry)
    (h : ∀ e ∈ E, e.status = entry_status.created →
      ¬ (e.last_mod_time = fi.last_mod_time ∧ e.size = fi.size)) :
    rename_match fi E = none := by
  induction E with
  | nil => rfl
  | cons e E ih =>
    have h1 : ¬ (e.status = entry_status.created ∧ e.last_mod_time = fi.last_mod_time ∧
        e.size = fi.size) := fun hc => h e (List.mem_cons_self _ _) hc.1 hc.2
    simp only [rename_match, if_neg h1]
    rw [ih (fun e1 he1 => h e1 (List.mem_cons_of_mem _ he1))]
    rfl

theorem rename_match_mem (fi : entry) (E r : List entry) (h : rename_match fi E = some r)
    (e : entry) (he : e ∈ r) : e ∈ E ∨ e.status = entry_status.renamed := by
  induction E generalizing r with
  | nil => simp [rename_match] at h
  | cons e0 E ih =>
    by_cases hc : e0.status = entry_status.created ∧ e0.last_mod_time = fi.last_mod_time ∧
        e0.size = fi.size
    · simp only [rename_match, if_pos hc, Option.some.injEq] at h
      rw [← h] at he
      simp only [List.mem_cons] at he
      rcases he with he | he
      · right
        rw [he]
      · left
        exact List.mem_cons_of_mem _ he
    · simp only [rename_match, if_neg hc] at h
      cases hr : rename_match fi E with
      | none => simp [hr] at h
      | some r0 =>
        simp only [hr, Option.map_some', Option.some.injEq] at h
        rw [← h] at he
        simp only [List.mem_cons] at he
        rcases he with he | he
        · left
          simp [he]
        · rcases ih r0 hr he with h1 | h1
          · exact Or.inl (List.mem_cons_of_mem _ h1)
          · exact Or.inr h1

theorem rename_match_countP (fi : entry) (E r : List entry) (h : rename_match fi E = some r)
    (p : entry → Bool)
    (hp : ∀ e : entry, e.status = entry_status.created ∨ e.status = entry_status.renamed →
      p e = false) :
    r.countP p = E.countP p := by
  induction E generalizing r with
  | nil => simp [rename_match] at h
  | cons e0 E ih =>
    by_cases hc : e0.status = entry_status.created ∧ e0.last_mod_time = fi.last_mod_time ∧
        e0.size = fi.size
    · simp only [rename_match, if_pos hc, Option.some.injEq] at h
      rw [← h]
      have h1 : p e0 = false := hp e0 (Or.inl hc.1)
      have h2 : p { e0 with status := entry_status.renamed, last_path := fi.path } = false :=
        hp _ (Or.inr rfl)
      simp [List.countP_cons, h1, h2]
    · simp only [rename_match, if_neg hc] at h
      cases hr : rename_match fi E with
      | none => simp [hr] at h
      | some r0 =>
        simp only [hr, Option.map_some', Option.some.injEq] at h
        rw [← h]
        simp [List.countP_cons, ih r0 hr]

theorem reconcile_mem (fi : entry) (E : List entry) (e : entry) (he : e ∈ reconcile fi E) :
    e ∈ E ∨ e.status = entry_status.renamed ∨
      (e.status = entry_status.removed ∧ e.path = fi.path) := by
  cases hr : rename_match fi E with
  | none =>
    simp only [reconcile, hr, List.mem_append, List.mem_singleton] at he
    rcases he with he | he
    · exact Or.inl he
    · right; right
      rw [he]
      exact ⟨rfl, rfl⟩
  | some r =>
    simp only [reconcile, hr] at he
    rcases rename_match_mem fi E r hr e he with h | h
    · exact Or.inl h
    · exact Or.inr (Or.inl h)

/-- Where the entries of the final batch come from: each is an entry of the polled batch,
a `renamed` entry, or the `removed` copy of a snapshot entry whose path is gone. -/
theorem process_modifications_mem (F : filesystem) (S : List (String × entry))
    (E : List entry) (e : entry) (he : e ∈ (process_modifications F S E).2) :
    e ∈ E ∨ e.status = entry_status.renamed ∨
      (e.status = entry_status.removed ∧
        ∃ x ∈ S, F.fs_exists x.2.path = false ∧ e.path = x.2.path) := by
  induction S generalizing E with
  | nil => exact Or.inl he
  | cons x S ih =>
    obtain ⟨k, fi⟩ := x
    by_cases h : F.fs_exists fi.path = true
    · simp only [process_modifications, h, Bool.not_true, Bool.false_eq_true, if_false] at he
      rcases ih E he with h1 | h1 | ⟨h1, y, hy, h2⟩
      · exact Or.inl h1
      · exact Or.inr (Or.inl h1)
      · exact Or.inr (Or.inr ⟨h1, y, List.mem_cons_of_mem _ hy, h2⟩)
    · simp only [Bool.not_eq_true] at h
      simp only [process_modifications, h, Bool.not_false, if_true] at he
      rcases ih _ he with h1 | h1 | ⟨h1, y, hy, h2⟩
      · rcases reconcile_mem fi E e h1 with h3 | h3 | h3
        · exact Or.inl h3
        · exact Or.inr (Or.inl h3)
        · exact Or.inr (Or.inr ⟨h3.1, (k, fi), List.mem_cons_self _ _, h, h3.2⟩)
      · exact Or.inr (Or.inl h1)
      · exact Or.inr (Or.inr ⟨h1, y, List.mem_cons_of_mem _ hy, h2⟩)

/-- Counting the `removed` entries for `A` in the final batch: one more than in the polled
batch when `A` is a key whose path is gone and no `created` entry has its time and size. -/
theorem process_modifications_removed_count (F : filesystem) (A : String) (t : Int) (s : Nat)
    (S : List (String × entry)) (E : List entry) (hwf : snapshot_wf S)
    (hA : ∀ x ∈ S, x.1 = A →
      x.2.last_mod_time = t ∧ x.2.size = s ∧ F.fs_exists x.2.path = false)
    (hE : ∀ e ∈ E, e.status = entry_status.created → ¬ (e.last_mod_time = t ∧ e.size = s)) :
    (process_modifications F S E).2.countP
        (fun e => decide (e.status = entry_status.removed ∧ e.path = A))
      = E.countP (fun e => decide (e.status = entry_status.removed ∧ e.path = A))
        + (if A ∈ map_keys S then 1 else 0) := by
  induction S generalizing E with
  | nil => simp [process_modifications, map_keys]
  | cons x S ih =>
    obtain ⟨k, fi⟩ := x
    have hwf2 : snapshot_wf S := by
      refine ⟨?_, fun y hy => hwf.2 y (List.mem_cons_of_mem _ hy)⟩
      have := hwf.1
      simp only [map_keys, List.map_cons, List.nodup_cons] at this
      exact this.2
    have hk_notin : k ∉ map_keys S := by
      have := hwf.1
      simp only [map_keys, List.map_cons, List.nodup_cons] at this
      exact this.1
    have hfi : fi.path = k := hwf.2 (k, fi) (List.mem_cons_self _ _)
    have hA2 : ∀ x ∈ S, x.1 = A →
        x.2.last_mod_time = t ∧ x.2.size = s ∧ F.fs_exists x.2.path = false :=
      fun y hy => hA y (List.mem_cons_of_mem _ hy)
    by_cases h : F.fs_exists fi.path = true
    · have hkA : k ≠ A := by
        intro hkA
        have := (hA (k, fi) (List.mem_cons_self _ _) hkA).2.2
        rw [h] at this
        exact absurd this (by simp)
      have hkA2 : ¬ A = k := fun e => hkA e.symm
      simp only [process_modifications, h, Bool.not_true, Bool.false_eq_true, if_false]
      rw [ih E hwf2 hA2 hE]
      have hiff : A ∈ map_keys ((k, fi) :: S) ↔ A ∈ map_keys S := by
        simp [map_keys, hkA2]
      rw [if_congr hiff rfl rfl]
    · simp only [Bool.not_eq_true] at h
      simp only [process_modifications, h, Bool.not_false, if_true]
      have hE2 : ∀ e ∈ reconcile fi E, e.status = entry_status.created →
          ¬ (e.last_mod_time = t ∧ e.size = s) := by
        intro e he hc
        rcases reconcile_mem fi E e he with h1 | h1 | h1
        · exact hE e h1 hc
        · rw [h1] at hc
          exact absurd hc (by decide)
        · rw [h1.1] at hc
          exact absurd hc (by decide)
      rw [ih _ hwf2 hA2 hE2]
      by_cases hkA : k = A
      · have hfA := hA (k, fi) (List.mem_cons_self _ _) hkA
        have hnone : rename_match fi E = none := by
          apply rename_match_none
          intro e he hc
          rw [hfA.1, hfA.2.1]
          exact hE e he hc
        have hAS : A ∉ map_keys S := by
          rw [← hkA]
          exact hk_notin
        have hpA : fi.path = A := by rw [hfi, hkA]
        simp only [reconcile, hnone, List.countP_append, map_keys, List.map_cons, hkA,
          List.mem_cons, true_or, if_true]
        simp only [map_keys] at hAS
        simp [hAS, hpA]
      · have hkA2 : ¬ A = k := fun e => hkA e.symm
        have hpA : ¬ fi.path = A := by rw [hfi]; exact hkA
        have hcount : (reconcile fi E).countP
              (fun e => decide (e.status = entry_status.removed ∧ e.path = A))
            = E.countP (fun e => decide (e.status = entry_status.removed ∧ e.path = A)) := by
          cases hr : rename_match fi E with
          | none => simp [reconcile, hr, List.countP_append, hpA]
          | some r =>
            simp only [reconcile, hr]
            apply rename_match_countP fi E r hr
            intro e he
            rcases he with he | he <;> simp [he]
        rw [hcount]
        have hiff : A ∈ map_keys ((k, fi) :: S) ↔ A ∈ map_keys S := by
          simp [map_keys, hkA2]
        rw [if_congr hiff rfl rfl]

/-! ## One poll cycle -/

theorem watch_eq (fuel : Nat) (F : filesystem) (w : watcher_impl) (L : List String)
    (hobs : observed fuel F w._root w._filter w._recursive = some L) :
    w.watch fuel F =
      some ({ w with _entries :=
                (process_modifications F (poll_list F L (w._entries, [])).1
                  (poll_list F L (w._entries, [])).2).1 },
            invoke w._callback
              (process_modifications F (poll_list F L (w._entries, [])).1
                (poll_list F L (w._entries, [])).2).2 false) := by
  simp only [watcher_impl.watch, poll_all_eq, hobs, Option.map_some']

theorem watch_some_observed (fuel : Nat) (F : filesystem) (w : watcher_impl)
    (r : watcher_impl × List callback_call) (h : w.watch fuel F = some r) :
    ∃ L, observed fuel F w._root w._filter w._recursive = some L := by
  cases hobs : observed fuel F w._root w._filter w._recursive with
  | none => simp [watcher_impl.watch, poll_all_eq, hobs] at h
  | some L => exact ⟨L, rfl⟩

theorem polled_batch_status (F : filesystem) (L : List String) (S : List (String × entry))
    (e : entry) (he : e ∈ (poll_list F L (S, [])).2) :
    e.status = entry_status.created ∨ e.status = entry_status.modified := by
  rcases poll_list_batch_mem F L S [] e he with h | h | h
  · simp at h
  · exact Or.inr h
  · exact Or.inl h.1

/-- C2, amended (removal): a watch (bare root or wildcard) whose snapshot holds `A` runs
one poll cycle in which `A` no longer exists (for a wildcard watch the expansion does not
list it) and no path created in the cycle has both the last known time and size of `A`.
Then the callback receives one batch, that batch holds exactly one `removed` entry whose
path is `A`, and `A` is not a key of the snapshot afterwards. The batch holds one `removed`
entry for each missing path, so the entry for `A` is the only `removed` entry of the batch
when moreover every other snapshot path and every observed path exists. -/
theorem removal_reported (fuel : Nat) (F : filesystem) (w : watcher_impl) (cb : Nat)
    (A : String) (eA : entry) (L : List String)
    (hcb : w._callback = some cb)
    (hwf : snapshot_wf w._entries)
    (hA : map_find w._entries A = some eA)
    (hobs : observed fuel F w._root w._filter w._recursive = some L)
    (hgone : F.fs_exists A = false)
    (hlisted : w._filter ≠ "" → A ∉ L)
    (hnomatch : ∀ p ∈ L, map_find w._entries p = none →
      ¬ (F.last_write_time p = eA.last_mod_time ∧ F.file_size p = eA.size)) :
    ∃ w1 batch,
      w.watch fuel F = some (w1, [{ callback := cb, entries := batch, is_initial := false }]) ∧
      batch.countP (fun e => decide (e.status = entry_status.removed ∧ e.path = A)) = 1 ∧
      map_find w1._entries A = none ∧
      ((∀ k ∈ map_keys w._entries, k ≠ A → F.fs_exists k = true) →
        (∀ p ∈ L, p ≠ A → F.fs_exists p = true) →
        ∀ e ∈ batch, e.status = entry_status.removed → e.path = A) := by
  have hwf1 : snapshot_wf (poll_list F L (w._entries, [])).1 := poll_list_wf F L _ _ hwf
  -- the entry stored for `A` after polling
  have hsome : ∃ eA1, map_find (poll_list F L (w._entries, [])).1 A = some eA1 := by
    cases h : map_find (poll_list F L (w._entries, [])).1 A with
    | none =>
      have := poll_list_find_none F L _ _ A h
      rw [hA] at this
      exact absurd this (by simp)
    | some e => exact ⟨e, rfl⟩
  obtain ⟨eA1, hA1⟩ := hsome
  have hkey : A ∉ L ∨ ∀ p ∈ L, map_find w._entries p ≠ none := by
    by_cases hf : w._filter ≠ ""
    · exact Or.inl (hlisted hf)
    · have hL : L = [w._root] := by
        simp only [observed, if_neg hf, Option.some.injEq] at hobs
        exact hobs.symm
      by_cases hr : w._root = A
      · right
        intro p hp
        rw [hL] at hp
        simp only [List.mem_singleton] at hp
        rw [hp, hr, hA]
        simp
      · left
        rw [hL]
        simp only [List.mem_singleton]
        exact fun e => hr e.symm
  have hAx : ∀ x ∈ (poll_list F L (w._entries, [])).1, x.1 = A →
      x.2.last_mod_time = eA1.last_mod_time ∧ x.2.size = eA1.size ∧
        F.fs_exists x.2.path = false := by
    intro x hx hxA
    have h1 : map_find (poll_list F L (w._entries, [])).1 x.1 = some x.2 :=
      map_mem_find _ _ _ hwf1.1 hx
    rw [hxA, hA1] at h1
    have h2 : x.2 = eA1 := by
      simp only [Option.some.injEq] at h1
      exact h1.symm
    have h3 : x.2.path = A := by rw [hwf1.2 x hx, hxA]
    rw [h3, h2]
    exact ⟨rfl, rfl, hgone⟩
  have hE : ∀ e ∈ (poll_list F L (w._entries, [])).2, e.status = entry_status.created →
      ¬ (e.last_mod_time = eA1.last_mod_time ∧ e.size = eA1.size) := by
    intro e he hc
    rcases poll_list_batch_mem F L _ [] e he with h | h | h
    · simp at h
    · rw [h] at hc
      exact absurd hc (by decide)
    · obtain ⟨_, _, h3, h4, h5, h6⟩ := h
      rcases hkey with hk | hk
      · have h7 : eA1 = eA := by
          have := poll_list_find_other F L w._entries [] A hk
          rw [hA1, hA] at this
          simpa using this
        rw [h7, h5, h6]
        exact hnomatch e.path h3 h4
      · exact absurd h4 (hk e.path h3)
  have hAkeys : A ∈ map_keys (poll_list F L (w._entries, [])).1 := by
    by_contra hn
    have := (map_find_eq_none_iff _ A).2 hn
    rw [hA1] at this
    exact absurd this (by simp)
  have hcount := process_modifications_removed_count F A eA1.last_mod_time eA1.size
    (poll_list F L (w._entries, [])).1 (poll_list F L (w._entries, [])).2 hwf1 hAx hE
  have hzero : (poll_list F L (w._entries, [])).2.countP
      (fun e => decide (e.status = entry_status.removed ∧ e.path = A)) = 0 := by
    rw [List.countP_eq_zero]
    intro e he
    rcases polled_batch_status F L _ e he with h | h <;> simp [h]
  rw [hzero, if_pos hAkeys] at hcount
  have hlen : (process_modifications F (poll_list F L (w._entries, [])).1
      (poll_list F L (w._entries, [])).2).2.length > 0 := by
    have := List.countP_le_length
      (fun e => decide (e.status = entry_status.removed ∧ e.path = A))
      (l := (process_modifications F (poll_list F L (w._entries, [])).1
        (poll_list F L (w._entries, [])).2).2)
    omega
  refine ⟨{ w with _entries :=
      (process_modifications F (poll_list F L (w._entries, [])).1
        (poll_list F L (w._entries, [])).2).1 },
    (process_modifications F (poll_list F L (w._entries, [])).1
      (poll_list F L (w._entries, [])).2).2, ?_, hcount, ?_, ?_⟩
  · rw [watch_eq fuel F w L hobs, hcb]
    simp only [invoke, if_pos hlen]
  · rw [map_find_eq_none_iff]
    simp only [process_modifications_snapshot, map_keys, List.mem_map, List.mem_filter]
    rintro ⟨x, ⟨hx, hex⟩, hxA⟩
    have := (hAx x hx hxA).2.2
    rw [hex] at this
    exact absurd this (by simp)
  · intro hkeys hLex e he hrem
    rcases process_modifications_mem F _ _ e he with h | h | ⟨_, x, hx, hxgone, hpath⟩
    · rcases polled_batch_status F L _ e h with h1 | h1 <;>
        · rw [h1] at hrem
          exact absurd hrem (by decide)
    · rw [h] at hrem
      exact absurd hrem (by decide)
    · have hxp : x.2.path = x.1 := hwf1.2 x hx
      by_cases hxA : x.1 = A
      · rw [hpath, hxp, hxA]
      · exfalso
        have hxk : x.1 ∈ map_keys (poll_list F L (w._entries, [])).1 :=
          List.mem_map_of_mem Prod.fst hx
        rw [hxp] at hxgone
        rcases poll_list_key_mem F L _ _ x.1 hxk with h1 | h1
        · rw [hLex x.1 h1 hxA] at hxgone
          exact absurd hxgone (by simp)
        · rw [hkeys x.1 h1 hxA] at hxgone
          exact absurd hxgone (by simp)

theorem stored_same_poll_entry (F : filesystem) (S : List (String × entry)) (p q : String)
    (E : List entry) (h : stored_same F S q) : stored_same F (poll_entry F S p E).1 q := by
  by_cases hq : q = p
  · obtain ⟨fi, hf, ht, hs, hty⟩ := h
    rw [hq] at hf ht hs hty
    rw [hq, poll_entry_same F S p E fi hf ⟨ht, hs, hty⟩]
    exact ⟨{ fi with status := entry_status.unmodified }, by simp [map_find_set, hf], ht, hs, hty⟩
  · obtain ⟨fi, hf, ht, hs, hty⟩ := h
    exact ⟨fi, by rw [poll_entry_find_other F S p E q hq]; exact hf, ht, hs, hty⟩

theorem stored_same_after_poll (F : filesystem) (S : List (String × entry)) (p : String)
    (E : List entry) : stored_same F (poll_entry F S p E).1 p := by
  rcases poll_entry_cases F S p E with ⟨h, he⟩ | ⟨fi, h, _, he⟩ | ⟨fi, h, hc, he⟩
  · rw [he]
    exact ⟨{ path := p, last_path := p, status := entry_status.created,
             last_mod_time := F.last_write_time p, size := F.file_size p,
             type := F.status_type p },
      by simp [map_find_insert _ _ _ _ h], rfl, rfl, rfl⟩
  · rw [he]
    exact ⟨{ path := fi.path, last_path := fi.last_path, status := entry_status.modified,
             last_mod_time := F.last_write_time p, size := F.file_size p,
             type := F.status_type p },
      by simp [map_find_set, h], rfl, rfl, rfl⟩
  · rw [he]
    exact ⟨{ fi with status := entry_status.unmodified }, by simp [map_find_set, h],
      hc.1, hc.2.1, hc.2.2⟩

/-- Polling paths whose stored entries are all up to date adds nothing to the batch. -/
theorem poll_list_silent (F : filesystem) (L : List String) (S : List (String × entry))
    (E : List entry) (h : ∀ p ∈ L, stored_same F S p) : (poll_list F L (S, E)).2 = E := by
  induction L generalizing S E with
  | nil => rfl
  | cons p L ih =>
    rw [poll_list_cons]
    obtain ⟨fi, hf, hc⟩ := h p (List.mem_cons_self _ _)
    rw [ih _ _ (fun q hq => stored_same_poll_entry F S p q E (h q (List.mem_cons_of_mem _ hq)))]
    rw [poll_entry_same F S p E fi hf hc]

/-- Polling a list in which `B` is the only path that is not an up-to-date key adds exactly
the `created` entry of `B` to the batch. -/
theorem poll_list_one_new (F : filesystem) (B : String) (L : List String)
    (S : List (String × entry)) (E : List entry) (hB : B ∈ L) (hnew : map_find S B = none)
    (h : ∀ p ∈ L, p ≠ B → stored_same F S p) :
    (poll_list F L (S, E)).2 =
      E ++ [{ path := B, last_path := B, status := entry_status.created,
              last_mod_time := F.last_write_time B, size := F.file_size B,
              type := F.status_type B }] := by
  induction L generalizing S E with
  | nil => simp at hB
  | cons p L ih =>
    rw [poll_list_cons]
    by_cases hp : p = B
    · rw [poll_list_silent]
      · rw [hp, poll_entry_new F S B E hnew]
      · intro q hq
        by_cases hqp : q = p
        · rw [hqp]
          exact stored_same_after_poll F S p E
        · exact stored_same_poll_entry F S p q E
            (h q (List.mem_cons_of_mem _ hq) (by rw [← hp]; exact hqp))
    · have hBL : B ∈ L := by
        simp only [List.mem_cons] at hB
        rcases hB with hB | hB
        · exact absurd hB.symm hp
        · exact hB
      have hBp : B ≠ p := fun e => hp e.symm
      rw [ih _ _ hBL (by rw [poll_entry_find_other F S p E B hBp]; exact hnew)
        (fun q hq hqB => stored_same_poll_entry F S p q E (h q (List.mem_cons_of_mem _ hq) hqB))]
      obtain ⟨fi, hf, hc⟩ := h p (List.mem_cons_self _ _) hp
      rw [poll_entry_same F S p E fi hf hc]

theorem filter_singleton_of_nodup {α : Type} (l : List (String × α)) (A : String) (v : α)
    (p : String × α → Bool) (hnd : (map_keys l).Nodup) (hmem : (A, v) ∈ l)
    (hp : ∀ x ∈ l, p x = true ↔ x.1 = A) : l.filter p = [(A, v)] := by
  induction l with
  | nil => simp at hmem
  | cons y l ih =>
    simp only [map_keys, List.map_cons, List.nodup_cons] at hnd
    simp only [List.mem_cons] at hmem
    rcases hmem with hmem | hmem
    · have hy : p y = true := (hp y (List.mem_cons_self _ _)).2 (by rw [← hmem])
      have hrest : l.filter p = [] := by
        rw [List.filter_eq_nil_iff]
        intro x hx hpx
        have hxA := (hp x (List.mem_cons_of_mem _ hx)).1 hpx
        apply hnd.1
        rw [← hmem]
        simp only [List.mem_map]
        exact ⟨x, hx, hxA⟩
      rw [List.filter_cons_of_pos hy, hrest, hmem]
    · have hy : ¬ p y = true := by
        intro hpy
        have hyA := (hp y (List.mem_cons_self _ _)).1 hpy
        apply hnd.1
        rw [hyA]
        exact List.mem_map_of_mem Prod.fst hmem
      rw [List.filter_cons_of_neg hy]
      exact ih hnd.2 hmem (fun x hx => hp x (List.mem_cons_of_mem _ hx))

/-- C1, amended (rename heuristic): the snapshot of a watch holds `A` with time `m` and size
`s`. In one poll cycle `A` no longer exists (and the expansion does not list it), a path
`B` that is not in the snapshot is observed with time `m` and size `s`, every other
snapshot path exists with its stored time, size and kind, and no path other than `B` is
observed for the first time. Then the callback receives exactly one batch of exactly one
entry: status `renamed`, `path = B`, `last_path = A` (no `removed` and no `created` entry),
and `A` is no longer a key of the snapshot. -/
theorem rename_reported (fuel : Nat) (F : filesystem) (w : watcher_impl) (cb : Nat)
    (A B : String) (eA : entry) (L : List String)
    (hcb : w._callback = some cb)
    (hwf : snapshot_wf w._entries)
    (hA : map_find w._entries A = some eA)
    (hobs : observed fuel F w._root w._filter w._recursive = some L)
    (hgone : F.fs_exists A = false)
    (hAL : A ∉ L)
    (hB : B ∈ L)
    (hBnew : map_find w._entries B = none)
    (hBex : F.fs_exists B = true)
    (hBt : F.last_write_time B = eA.last_mod_time)
    (hBs : F.file_size B = eA.size)
    (hothers : ∀ k, map_find w._entries k ≠ none → k ≠ A →
      F.fs_exists k = true ∧ stored_same F w._entries k)
    (honly : ∀ p ∈ L, p ≠ B → map_find w._entries p ≠ none) :
    ∃ w1,
      w.watch fuel F =
        some (w1, [{ callback := cb,
                     entries := [{ path := B, last_path := A, status := entry_status.renamed,
                                   last_mod_time := eA.last_mod_time, size := eA.size,
                                   type := F.status_type B }],
                     is_initial := false }]) ∧
      map_find w1._entries A = none := by
  have hwf1 : snapshot_wf (poll_list F L (w._entries, [])).1 := poll_list_wf F L _ _ hwf
  have hApath : eA.path = A := hwf.2 (A, eA) (map_find_mem _ _ _ hA)
  have hLsame : ∀ p ∈ L, p ≠ B → stored_same F w._entries p := by
    intro p hp hpB
    have hpA : p ≠ A := fun e => hAL (by rw [← e]; exact hp)
    exact (hothers p (honly p hp hpB) hpA).2
  have hbatch := poll_list_one_new F B L w._entries [] hB hBnew hLsame
  have hA1 : map_find (poll_list F L (w._entries, [])).1 A = some eA := by
    rw [poll_list_find_other F L w._entries [] A hAL]
    exact hA
  have hmissing : (poll_list F L (w._entries, [])).1.filter
      (fun x => !F.fs_exists x.2.path) = [(A, eA)] := by
    apply filter_singleton_of_nodup _ A eA _ hwf1.1 (map_find_mem _ _ _ hA1)
    intro x hx
    have hxp : x.2.path = x.1 := hwf1.2 x hx
    rw [hxp]
    constructor
    · intro hne
      by_contra hxA
      have hxk : x.1 ∈ map_keys (poll_list F L (w._entries, [])).1 :=
        List.mem_map_of_mem Prod.fst hx
      have hex : F.fs_exists x.1 = true := by
        rcases poll_list_key_mem F L _ _ x.1 hxk with h1 | h1
        · by_cases hxB : x.1 = B
          · rw [hxB]
            exact hBex
          · exact (hothers x.1 (honly x.1 h1 hxB) hxA).1
        · have h2 : map_find w._entries x.1 ≠ none := by
            intro hn
            exact (map_find_eq_none_iff _ _).1 hn h1
          exact (hothers x.1 h2 hxA).1
      rw [hex] at hne
      exact absurd hne (by simp)
    · intro hxA
      rw [hxA, hgone]
      rfl
  have hkeep : map_find (process_modifications F (poll_list F L (w._entries, [])).1
      (poll_list F L (w._entries, [])).2).1 A = none := by
    rw [map_find_eq_none_iff]
    simp only [process_modifications_snapshot, map_keys, List.mem_map, List.mem_filter]
    rintro ⟨x, ⟨hx, hex⟩, hxA⟩
    rw [hwf1.2 x hx, hxA, hgone] at hex
    exact absurd hex (by simp)
  refine ⟨{ w with _entries :=
      (process_modifications F (poll_list F L (w._entries, [])).1
        (poll_list F L (w._entries, [])).2).1 }, ?_, hkeep⟩
  rw [watch_eq fuel F w L hobs, hcb, process_modifications_batch, hmissing, hbatch]
  simp [reconcile, rename_match, hBt, hBs, hApath, invoke]

/-! ## Construction and emitted statuses -/

theorem create_eq (fuel : Nat) (F : filesystem) (path filter : String)
    (recursive initialList : Bool) (cb : Option Nat) (L : List String)
    (hobs : observed fuel F path filter recursive = some L) :
    watcher_impl.create fuel F path filter recursive initialList cb =
      some ({ _recursive := recursive, _root := path, _filter := filter, _callback := cb,
              _entries := (poll_list F L ([], [])).1 },
            if initialList = true then invoke cb (poll_list F L ([], [])).2 true else []) := by
  simp only [watcher_impl.create, poll_all_eq, hobs, Option.map_some']

theorem create_some_observed (fuel : Nat) (F : filesystem) (path filter : String)
    (recursive initialList : Bool) (cb : Option Nat) (r : watcher_impl × List callback_call)
    (h : watcher_impl.create fuel F path filter recursive initialList cb = some r) :
    ∃ L, observed fuel F path filter recursive = some L := by
  cases hobs : observed fuel F path filter recursive with
  | none => simp [watcher_impl.create, poll_all_eq, hobs] at h
  | some L => exact ⟨L, rfl⟩

theorem invoke_entries (cb : Option Nat) (entries : List entry) (flag : Bool)
    (c : callback_call) (hc : c ∈ invoke cb entries flag) :
    c.entries = entries ∧ c.is_initial = flag ∧ cb = some c.callback ∧ entries ≠ [] := by
  cases cb with
  | none => simp [invoke] at hc
  | some n =>
    by_cases hl : entries.length > 0
    · simp only [invoke, if_pos hl, List.mem_singleton] at hc
      rw [hc]
      exact ⟨rfl, rfl, rfl, List.ne_nil_of_length_pos hl⟩
    · simp [invoke, hl] at hc

theorem watch_status (fuel : Nat) (F : filesystem) (w : watcher_impl)
    (r : watcher_impl × List callback_call) (h : w.watch fuel F = some r)
    (c : callback_call) (hc : c ∈ r.2) (e : entry) (he : e ∈ c.entries) :
    e.status = entry_status.created ∨ e.status = entry_status.modified ∨
      e.status = entry_status.removed ∨ e.status = entry_status.renamed := by
  obtain ⟨L, hobs⟩ := watch_some_observed fuel F w r h
  rw [watch_eq fuel F w L hobs] at h
  simp only [Option.some.injEq] at h
  rw [← h] at hc
  rw [(invoke_entries _ _ _ c hc).1] at he
  rcases process_modifications_mem F _ _ e he with h1 | h1 | h1
  · rcases polled_batch_status F L _ e h1 with h2 | h2
    · exact Or.inl h2
    · exact Or.inr (Or.inl h2)
  · exact Or.inr (Or.inr (Or.inr h1))
  · exact Or.inr (Or.inr (Or.inl h1.1))

theorem poll_cycles_status (fuel : Nat) (states : List filesystem) (w : watcher_impl)
    (r : watcher_impl × List callback_call) (h : poll_cycles fuel states w = some r)
    (c : callback_call) (hc : c ∈ r.2) (e : entry) (he : e ∈ c.entries) :
    e.status = entry_status.created ∨ e.status = entry_status.modified ∨
      e.status = entry_status.removed ∨ e.status = entry_status.renamed := by
  induction states generalizing w r with
  | nil =>
    simp only [poll_cycles, Option.some.injEq] at h
    rw [← h] at hc
    simp at hc
  | cons F rest ih =>
    cases hw : w.watch fuel F with
    | none => simp [poll_cycles, hw] at h
    | some r1 =>
      cases hr : poll_cycles fuel rest r1.1 with
      | none => simp [poll_cycles, hw, hr] at h
      | some r2 =>
        simp only [poll_cycles, hw, hr, Option.map_some', Option.some.injEq] at h
        rw [← h] at hc
        simp only [List.mem_append] at hc
        rcases hc with hc | hc
        · exact watch_status fuel F w r1 hw c hc e he
        · exact ih r1.1 r2 hr hc

/-- C7 (no `unmodified` entry is emitted): every entry of the batch handed to the callback
by the constructor, and every entry of every batch handed to it along any sequence of poll
cycles from any watch state over any filesystem states, has status `created`,
`modified`, `removed` or `renamed`, hence never `unmodified`. -/
theorem emitted_never_unmodified (fuel : Nat) :
    (∀ (F : filesystem) (path filter : String) (recursive initialList : Bool)
        (cb : Option Nat) (r : watcher_impl × List callback_call),
        watcher_impl.create fuel F path filter recursive initialList cb = some r →
        ∀ c ∈ r.2, ∀ e ∈ c.entries,
          (e.status = entry_status.created ∨ e.status = entry_status.modified ∨
            e.status = entry_status.removed ∨ e.status = entry_status.renamed) ∧
          e.status ≠ entry_status.unmodified) ∧
    (∀ (states : List filesystem) (w : watcher_impl) (r : watcher_impl × List callback_call),
        poll_cycles fuel states w = some r →
        ∀ c ∈ r.2, ∀ e ∈ c.entries,
          (e.status = entry_status.created ∨ e.status = entry_status.modified ∨
            e.status = entry_status.removed ∨ e.status = entry_status.renamed) ∧
          e.status ≠ entry_status.unmodified) := by
  have hne : ∀ e : entry,
      (e.status = entry_status.created ∨ e.status = entry_status.modified ∨
        e.status = entry_status.removed ∨ e.status = entry_status.renamed) →
      e.status ≠ entry_status.unmodified := by
    intro e h hu
    rw [hu] at h
    revert h
    decide
  constructor
  · intro F path filter recursive initialList cb r h c hc e he
    obtain ⟨L, hobs⟩ := create_some_observed fuel F path filter recursive initialList cb r h
    rw [create_eq fuel F path filter recursive initialList cb L hobs] at h
    simp only [Option.some.injEq] at h
    rw [← h] at hc
    have hst : e.status = entry_status.created ∨ e.status = entry_status.modified := by
      by_cases hi : initialList = true
      · simp only [if_pos hi] at hc
        rw [(invoke_entries _ _ _ c hc).1] at he
        exact polled_batch_status F L _ e he
      · simp [hi] at hc
    have h4 : e.status = entry_status.created ∨ e.status = entry_status.modified ∨
        e.status = entry_status.removed ∨ e.status = entry_status.renamed := by
      rcases hst with h1 | h1
      · exact Or.inl h1
      · exact Or.inr (Or.inl h1)
    exact ⟨h4, hne e h4⟩
  · intro states w r h c hc e he
    have h4 := poll_cycles_status fuel states w r h c hc e he
    exact ⟨h4, hne e h4⟩

/-- Polling from a snapshot whose entries are all up to date and which the batch lists
once each keeps these properties. -/
theorem poll_list_fresh (F : filesystem) (L : List String) (S : List (String × entry))
    (E : List entry) (hS : ∀ q ∈ map_keys S, stored_same F S q)
    (hperm : (E.map entry.path).Perm (map_keys S))
    (hE : ∀ e ∈ E, e.status = entry_status.created ∧ e.last_path = e.path) :
    (∀ q ∈ map_keys (poll_list F L (S, E)).1, stored_same F (poll_list F L (S, E)).1 q) ∧
    (((poll_list F L (S, E)).2).map entry.path).Perm (map_keys (poll_list F L (S, E)).1) ∧
    (∀ e ∈ (poll_list F L (S, E)).2, e.status = entry_status.created ∧ e.last_path = e.path) := by
  induction L generalizing S E with
  | nil => exact ⟨hS, hperm, hE⟩
  | cons p L ih =>
    rw [poll_list_cons]
    apply ih
    · intro q hq
      rcases poll_entry_key_mem F S p E q hq with h | h
      · rw [h]
        exact stored_same_after_poll F S p E
      · exact stored_same_poll_entry F S p q E (hS q h)
    · cases hf : map_find S p with
      | none =>
        rw [poll_entry_new F S p E hf]
        simp only [List.map_append, List.map_cons, List.map_nil]
        refine List.Perm.trans ?_ (map_keys_insert S p _).symm
        exact (List.perm_append_singleton p _).trans (List.Perm.cons p hperm)
      | some fi =>
        have hk : p ∈ map_keys S := by
          by_contra hn
          rw [(map_find_eq_none_iff S p).2 hn] at hf
          exact absurd hf (by simp)
        obtain ⟨fi1, hf1, hc⟩ := hS p hk
        rw [poll_entry_same F S p E fi1 hf1 hc, map_keys_set]
        exact hperm
    · intro e he
      cases hf : map_find S p with
      | none =>
        rw [poll_entry_new F S p E hf] at he
        simp only [List.mem_append, List.mem_singleton] at he
        rcases he with he | he
        · exact hE e he
        · rw [he]
          exact ⟨rfl, rfl⟩
      | some fi =>
        have hk : p ∈ map_keys S := by
          by_contra hn
          rw [(map_find_eq_none_iff S p).2 hn] at hf
          exact absurd hf (by simp)
        obtain ⟨fi1, hf1, hc⟩ := hS p hk
        rw [poll_entry_same F S p E fi1 hf1 hc] at he
        exact hE e he

/-- C8 (initial callback): when a watch is constructed with a callback, the callback is
invoked during construction if and only if `initialList` is true and the initial snapshot is
non-empty; it is then invoked exactly once, with `is_initial = true` and a batch that holds
exactly one entry per path of the initial snapshot, each with status `created` and
`last_path` equal to its `path`. -/
theorem initial_callback (fuel : Nat) (F : filesystem) (path filter : String)
    (recursive initialList : Bool) (cb : Nat) (w : watcher_impl) (calls : List callback_call)
    (h : watcher_impl.create fuel F path filter recursive initialList (some cb) = some (w, calls)) :
    (calls ≠ [] ↔ initialList = true ∧ w._entries ≠ []) ∧
    (calls ≠ [] →
      ∃ batch, calls = [{ callback := cb, entries := batch, is_initial := true }] ∧
        (batch.map entry.path).Perm (map_keys w._entries) ∧
        (batch.map entry.path).Nodup ∧
        ∀ e ∈ batch, e.status = entry_status.created ∧ e.last_path = e.path) := by
  obtain ⟨L, hobs⟩ := create_some_observed fuel F path filter recursive initialList _ _ h
  rw [create_eq fuel F path filter recursive initialList _ L hobs] at h
  simp only [Option.some.injEq, Prod.mk.injEq] at h
  obtain ⟨hw, hcalls⟩ := h
  have hfresh := poll_list_fresh F L [] [] (by simp [map_keys]) (by simp [map_keys]) (by simp)
  have hwf : snapshot_wf (poll_list F L ([], [])).1 :=
    poll_list_wf F L [] [] ⟨by simp [map_keys], by simp⟩
  have hent : w._entries = (poll_list F L ([], [])).1 := by rw [← hw]
  have hnil : (poll_list F L ([], [])).2 = [] ↔ (poll_list F L ([], [])).1 = [] := by
    constructor
    · intro h0
      have := hfresh.2.1
      rw [h0] at this
      have h1 := this.symm.eq_nil
      simpa [map_keys] using h1
    · intro h0
      have := hfresh.2.1
      rw [h0] at this
      have h1 := this.eq_nil
      simpa [map_keys] using h1
  by_cases hi : initialList = true
  · by_cases hb : (poll_list F L ([], [])).2 = []
    · have hcn : calls = [] := by
        rw [← hcalls]
        simp [hi, invoke, hb]
      have hen : w._entries = [] := by rw [hent]; exact hnil.1 hb
      simp [hcn, hen]
    · have hlen : (poll_list F L ([], [])).2.length > 0 := List.length_pos.2 hb
      have hcn : calls =
          [{ callback := cb, entries := (poll_list F L ([], [])).2, is_initial := true }] := by
        rw [← hcalls]
        simp only [if_pos hi, invoke, if_pos hlen]
      have hen : w._entries ≠ [] := by
        rw [hent]
        exact fun h0 => hb (hnil.2 h0)
      refine ⟨by simp [hcn, hi, hen], fun _ => ⟨_, hcn, ?_, ?_, hfresh.2.2⟩⟩
      · rw [hent]
        exact hfresh.2.1
      · rw [hfresh.2.1.nodup_iff]
        exact hwf.1
  · have hcn : calls = [] := by
      rw [← hcalls]
      simp [hi]
    simp [hcn, hi]

/-! ## The registry -/

theorem visit_children_nonrecursive {σ : Type} (F : filesystem)
    (recurse : String → σ → Option σ) (filter before after : String)
    (visitor : String → σ → σ × Bool) (cs : List String) (s : σ) :
    ∃ s1, visit_children F recurse filter before after false visitor cs s = some s1 := by
  induction cs generalizing s with
  | nil => exact ⟨s, rfl⟩
  | cons it rest ih =>
    have hdir : ¬ (F.status_type it = file_type.directory_file ∧ false = true) := by simp
    by_cases hm : (string_find it before ≠ npos ∨ before = "") ∧
        (string_find it after ≠ npos ∨ after = "")
    · by_cases hstop : (visitor it s).2 = true
      · exact ⟨(visitor it s).1, by simp only [visit_children, if_neg hdir, if_pos hm, if_pos hstop]⟩
      · obtain ⟨s1, hs1⟩ := ih (visitor it s).1
        exact ⟨s1, by simp only [visit_children, if_neg hdir, if_pos hm, if_neg hstop, hs1]⟩
    · obtain ⟨s1, hs1⟩ := ih s
      exact ⟨s1, by simp only [visit_children, if_neg hdir, if_neg hm, hs1]⟩

/-- Without recursion into subdirectories the expansion returns for any positive budget. -/
theorem visit_nonrecursive_returns {σ : Type} (fuel : Nat) (F : filesystem) (path : String)
    (visitEmpty : Bool) (visitor : String → σ → σ × Bool) (s : σ) :
    ∃ r, visit_wild_card_path (fuel + 1) F path false visitEmpty visitor s = some r := by
  by_cases hf : (get_path_filter_pair F path).2 ≠ ""
  · by_cases he : visitEmpty = true ∧ F.is_empty (get_path_filter_pair F path).1 = true
    · refine ⟨((visitor (get_path_filter_pair F path).1 s).1, get_path_filter_pair F path), ?_⟩
      simp only [visit_wild_card_path, if_pos hf, if_pos he]
    · by_cases hx : F.fs_exists (get_path_filter_pair F path).1 = true
      · obtain ⟨s1, hs1⟩ := visit_children_nonrecursive F
          (fun p s1 => (visit_wild_card_path fuel F p false visitEmpty visitor s1).map Prod.fst)
          (get_path_filter_pair F path).2
          (substr (F.join (get_path_filter_pair F path).1 (get_path_filter_pair F path).2) 0
            (string_find (F.join (get_path_filter_pair F path).1 (get_path_filter_pair F path).2) "*"))
          (substr (F.join (get_path_filter_pair F path).1 (get_path_filter_pair F path).2)
            ((string_find (F.join (get_path_filter_pair F path).1 (get_path_filter_pair F path).2) "*" + 1) % 2 ^ 64)
            npos)
          visitor (F.directory_iterator (get_path_filter_pair F path).1) s
        exact ⟨(s1, get_path_filter_pair F path), by
          simp only [visit_wild_card_path, if_pos hf, if_neg he, if_pos hx, hs1, Option.map_some']⟩
      · refine ⟨(s, get_path_filter_pair F path), ?_⟩
        simp only [visit_wild_card_path, if_pos hf, if_neg he, if_neg hx]
  · refine ⟨(s, get_path_filter_pair F path), ?_⟩
    simp only [visit_wild_card_path, if_neg hf]

theorem register_present (fuel : Nat) (F : filesystem) (wd : watcher) (key p filter : String)
    (recursive initialList : Bool) (cb : Option Nat) (w0 : watcher_impl)
    (h : map_find wd._watchers key = some w0) :
    register fuel F wd key p filter recursive initialList cb = some (wd, []) := by
  simp only [register, h]

/-- C4 (idempotent registration): when the registry already holds a watch under key `P`, a
second `watch(P, recursive, initial_list, cb2)` that returns leaves the registered watches
unchanged (the one watch for `P` keeps its callback and snapshot) and invokes no callback,
so `cb2` is never invoked, not even with an initial list. The call does return whenever
`P` has no wildcard marker or `recursive` is false. -/
theorem watch_duplicate_ignored (fuel : Nat) (F : filesystem) (wd : watcher) (P : String)
    (recursive initialList : Bool) (cb2 : Option Nat) (w0 : watcher_impl)
    (hreg : map_find wd._watchers P = some w0) :
    (∀ r, watch_impl fuel F wd P recursive initialList cb2 = some r →
      r.1._watchers = wd._watchers ∧ map_find r.1._watchers P = some w0 ∧ r.2 = []) ∧
    ((string_find P "*" = npos ∨ recursive = false) →
      ∃ r, watch_impl (fuel + 1) F wd P recursive initialList cb2 = some r) := by
  have hstart : (if wd._watching = false then wd.start else wd)._watchers = wd._watchers := by
    by_cases hw : wd._watching = false
    · simp [hw, watcher.start]
    · simp [hw]
  have hreg2 : map_find (if wd._watching = false then wd.start else wd)._watchers P = some w0 := by
    rw [hstart]
    exact hreg
  constructor
  · intro r h
    cases cb2 with
    | none =>
      simp only [watch_impl, Option.some.injEq] at h
      rw [← h]
      exact ⟨hstart, hreg2, rfl⟩
    | some cb =>
      by_cases hs : string_find P "*" ≠ npos
      · simp only [watch_impl, if_pos hs] at h
        cases hv : visit_wild_card_path fuel F P recursive true
            (fun (_ : String) (_ : Bool) => (true, true)) false with
        | none => simp [hv] at h
        | some v =>
          simp only [hv] at h
          rw [register_present fuel F _ P _ _ recursive initialList (some cb) w0 hreg2] at h
          simp only [Option.some.injEq] at h
          rw [← h]
          exact ⟨hstart, hreg2, rfl⟩
      · by_cases hx : F.fs_exists P = false
        · simp only [watch_impl, if_neg hs, if_pos hx, Option.some.injEq] at h
          rw [← h]
          exact ⟨hstart, hreg2, rfl⟩
        · simp only [watch_impl, if_neg hs, if_neg hx] at h
          rw [register_present fuel F _ P _ _ recursive initialList (some cb) w0 hreg2] at h
          simp only [Option.some.injEq] at h
          rw [← h]
          exact ⟨hstart, hreg2, rfl⟩
  · intro hor
    cases cb2 with
    | none =>
      refine ⟨(if wd._watching = false then wd.start else wd, []), ?_⟩
      simp only [watch_impl]
    | some cb =>
      by_cases hs : string_find P "*" ≠ npos
      · have hrec : recursive = false := by
          rcases hor with h1 | h1
          · exact absurd h1 hs
          · exact h1
        rw [hrec]
        obtain ⟨v, hv⟩ := visit_nonrecursive_returns fuel F P true
          (fun (_ : String) (_ : Bool) => (true, true)) false
        refine ⟨(if wd._watching = false then wd.start else wd, []), ?_⟩
        simp only [watch_impl, if_pos hs, hv]
        exact register_present (fuel + 1) F _ P _ _ false initialList (some cb) w0 hreg2
      · by_cases hx : F.fs_exists P = false
        · refine ⟨(if wd._watching = false then wd.start else wd, []), ?_⟩
          simp only [watch_impl, if_neg hs, if_pos hx]
        · refine ⟨(if wd._watching = false then wd.start else wd, []), ?_⟩
          simp only [watch_impl, if_neg hs, if_neg hx]
          exact register_present (fuel + 1) F _ P _ _ recursive initialList (some cb) w0 hreg2

/-- C5 (path-not-found is a no-op): for a path `P` with no wildcard marker that does not
exist, `watch(P, recursive, initial_list, cb)` returns, registers no watch (the registered
watches after the call are those before it) and invokes no callback. -/
theorem watch_missing_path (fuel : Nat) (F : filesystem) (wd : watcher) (P : String)
    (recursive initialList : Bool) (cb : Option Nat)
    (hstar : string_find P "*" = npos) (hmiss : F.fs_exists P = false) :
    ∃ wd1, watch_impl fuel F wd P recursive initialList cb = some (wd1, []) ∧
      wd1._watchers = wd._watchers := by
  have hstart : (if wd._watching = false then wd.start else wd)._watchers = wd._watchers := by
    by_cases hw : wd._watching = false
    · simp [hw, watcher.start]
    · simp [hw]
  have hs : ¬ string_find P "*" ≠ npos := by simp [hstar]
  cases cb with
  | none =>
    refine ⟨if wd._watching = false then wd.start else wd, ?_, hstart⟩
    simp only [watch_impl]
  | some c =>
    refine ⟨if wd._watching = false then wd.start else wd, ?_, hstart⟩
    simp only [watch_impl, if_neg hs, if_pos hmiss]

theorem map_find_erase {α : Type} (m : List (String × α)) (key k : String)
    (hnd : (map_keys m).Nodup) :
    map_find (map_erase m key) k = if k = key then none else map_find m k := by
  induction m with
  | nil => simp [map_erase, map_find]
  | cons y m ih =>
    obtain ⟨k0, y⟩ := y
    simp only [map_keys, List.map_cons, List.nodup_cons] at hnd
    by_cases hk0 : k0 = key
    · by_cases hk : k = key
      · have hn : key ∉ map_keys m := by
          rw [← hk0]
          exact hnd.1
        simp only [map_erase, hk0, if_true, hk]
        exact (map_find_eq_none_iff m key).2 hn
      · have : ¬ key = k := fun e => hk e.symm
        simp [map_erase, map_find, hk0, hk, this]
    · by_cases hk : k = key
      · subst hk
        simp [map_erase, map_find, hk0, ih hnd.2]
      · by_cases hkk : k0 = k
        · simp [map_erase, map_find, hk0, hk, hkk]
        · simp [map_erase, map_find, hk0, hk, hkk, ih hnd.2]

theorem watch_calls_shape (fuel : Nat) (F : filesystem) (w : watcher_impl)
    (r : watcher_impl × List callback_call) (h : w.watch fuel F = some r) :
    r.2.length ≤ 1 ∧ ∀ c ∈ r.2, c.is_initial = false ∧ c.entries ≠ [] ∧
      w._callback = some c.callback := by
  obtain ⟨L, hobs⟩ := watch_some_observed fuel F w r h
  rw [watch_eq fuel F w L hobs] at h
  simp only [Option.some.injEq] at h
  rw [← h]
  constructor
  · cases w._callback with
    | none => simp [invoke]
    | some cb =>
      simp only [invoke]
      split <;> simp
  · intro c hc
    have := invoke_entries _ _ _ c hc
    exact ⟨this.2.1, by rw [this.1]; exact this.2.2.2, this.2.2.1⟩

/-- C9 (single-key unwatch): for a non-empty path `P`, `unwatch(P, recursive = false)` on a
registry with distinct keys does the following. If a watch `w` is registered under `P`,
the call runs exactly one poll cycle on `w` (its callback invocations are those of that
cycle: at most one, with a non-empty batch and `is_initial = false`) and then erases the
key `P`; every other key keeps its watch and no other watch is polled. If no watch has
key `P`, the registry is unchanged and no poll cycle runs. -/
theorem unwatch_single (fuel : Nat) (F : filesystem) (wd : watcher) (P : String)
    (hP : P ≠ "") (hnd : (map_keys wd._watchers).Nodup) :
    (∀ w, map_find wd._watchers P = some w →
      unwatch_impl fuel F wd P false =
        (w.watch fuel F).map
          (fun r => ({ wd with _watchers := map_erase wd._watchers P }, r.2)) ∧
      (∀ r, unwatch_impl fuel F wd P false = some r →
        map_find r.1._watchers P = none ∧
        (∀ k, k ≠ P → map_find r.1._watchers k = map_find wd._watchers k) ∧
        r.1._watching = wd._watching ∧
        r.2.length ≤ 1 ∧
        ∀ c ∈ r.2, c.is_initial = false ∧ c.entries ≠ [] ∧ w._callback = some c.callback)) ∧
    (map_find wd._watchers P = none → unwatch_impl fuel F wd P false = some (wd, [])) := by
  have hrec : ¬ (false = true ∧ wd._watchers.length > 0) := by simp
  constructor
  · intro w hw
    have heq : unwatch_impl fuel F wd P false =
        (w.watch fuel F).map
          (fun r => ({ wd with _watchers := map_erase wd._watchers P }, r.2)) := by
      simp only [unwatch_impl, if_neg hP, if_neg hrec, hw]
      cases w.watch fuel F <;> rfl
    refine ⟨heq, ?_⟩
    intro r hr
    rw [heq] at hr
    cases hwatch : w.watch fuel F with
    | none => simp [hwatch] at hr
    | some r1 =>
      simp only [hwatch, Option.map_some', Option.some.injEq] at hr
      rw [← hr]
      have hshape := watch_calls_shape fuel F w r1 hwatch
      refine ⟨?_, ?_, rfl, hshape.1, hshape.2⟩
      · simp [map_find_erase _ _ _ hnd]
      · intro k hk
        simp [map_find_erase _ _ _ hnd, hk]
  · intro hnone
    simp only [unwatch_impl, if_neg hP, if_neg hrec, hnone]

theorem map_find_filter_key {α : Type} (m : List (String × α)) (q : String → Bool)
    (k : String) :
    map_find (m.filter (fun x => q x.1)) k = if q k = true then map_find m k else none := by
  induction m with
  | nil => simp [map_find]
  | cons y m ih =>
    obtain ⟨k0, y⟩ := y
    by_cases hq0 : q k0 = true
    · rw [List.filter_cons_of_pos (by simpa using hq0)]
      by_cases hk : k0 = k
      · subst hk
        simp [map_find, hq0]
      · simp only [map_find, hk, if_false]
        exact ih
    · rw [List.filter_cons_of_neg (by simpa using hq0)]
      by_cases hk : k0 = k
      · subst hk
        rw [ih]
        simp [hq0]
      · simp only [map_find, hk, if_false]
        exact ih

theorem unwatch_siblings_eq (fuel : Nat) (F : filesystem) (dir : String)
    (ws : List (String × watcher_impl)) :
    unwatch_siblings fuel F dir ws =
      (sweep fuel F (ws.filter (fun x => decide (F.parent_path x.1 = dir)))).map
        (fun s => (ws.filter (fun x => decide (F.parent_path x.1 ≠ dir)), s.2)) := by
  induction ws with
  | nil => simp [unwatch_siblings, sweep]
  | cons y ws ih =>
    obtain ⟨k, w⟩ := y
    by_cases hk : F.parent_path k = dir
    · have h1 : List.filter (fun x => decide (F.parent_path x.1 = dir)) ((k, w) :: ws)
          = (k, w) :: List.filter (fun x => decide (F.parent_path x.1 = dir)) ws := by
        simp [List.filter_cons, hk]
      have h2 : List.filter (fun x => decide (F.parent_path x.1 ≠ dir)) ((k, w) :: ws)
          = List.filter (fun x => decide (F.parent_path x.1 ≠ dir)) ws := by
        simp [List.filter_cons, hk]
      rw [h1, h2]
      simp only [unwatch_siblings, if_pos hk, sweep]
      cases hw : w.watch fuel F with
      | none => rfl
      | some r1 =>
        simp only [ih]
        cases sweep fuel F (ws.filter (fun x => decide (F.parent_path x.1 = dir))) <;> rfl
    · have h1 : List.filter (fun x => decide (F.parent_path x.1 = dir)) ((k, w) :: ws)
          = List.filter (fun x => decide (F.parent_path x.1 = dir)) ws := by
        simp [List.filter_cons, hk]
      have h2 : List.filter (fun x => decide (F.parent_path x.1 ≠ dir)) ((k, w) :: ws)
          = (k, w) :: List.filter (fun x => decide (F.parent_path x.1 ≠ dir)) ws := by
        simp [List.filter_cons, hk]
      rw [h1, h2]
      simp only [unwatch_siblings, if_neg hk, ih]
      cases sweep fuel F (ws.filter (fun x => decide (F.parent_path x.1 = dir))) <;> rfl

/-- C10 (sibling-scoped recursive unwatch): for a non-empty path `P`,
`unwatch(P, recursive = true)` runs one poll cycle on each watch whose registration key has
the same parent directory as `P`, in key order, and removes exactly those watches; every
other watch stays registered, unchanged and unpolled. Hence a key whose parent directory
differs from that of `P` (a key deeper in the subtree, or the directory itself whenever it
is not its own parent) keeps its watch. -/
theorem unwatch_recursive_siblings (fuel : Nat) (F : filesystem) (wd : watcher) (P : String)
    (hP : P ≠ "") :
    unwatch_impl fuel F wd P true =
      (sweep fuel F
          (wd._watchers.filter (fun x => decide (F.parent_path x.1 = F.parent_path P)))).map
        (fun s =>
          ({ wd with _watchers :=
              wd._watchers.filter (fun x => decide (F.parent_path x.1 ≠ F.parent_path P)) },
            s.2)) ∧
    (∀ r, unwatch_impl fuel F wd P true = some r →
      (∀ K, F.parent_path K = F.parent_path P → map_find r.1._watchers K = none) ∧
      (∀ K, F.parent_path K ≠ F.parent_path P →
        map_find r.1._watchers K = map_find wd._watchers K) ∧
      (F.parent_path (F.parent_path P) ≠ F.parent_path P →
        map_find r.1._watchers (F.parent_path P) = map_find wd._watchers (F.parent_path P))) := by
  have heq : unwatch_impl fuel F wd P true =
      (sweep fuel F
          (wd._watchers.filter (fun x => decide (F.parent_path x.1 = F.parent_path P)))).map
        (fun s =>
          ({ wd with _watchers :=
              wd._watchers.filter (fun x => decide (F.parent_path x.1 ≠ F.parent_path P)) },
            s.2)) := by
    by_cases hlen : wd._watchers.length > 0
    · simp only [unwatch_impl, if_neg hP, hlen, and_self, if_true, unwatch_siblings_eq,
        Option.map_map]
      rfl
    · have hc : ¬ (true = true ∧ wd._watchers.length > 0) := fun h => hlen h.2
      have hnil : wd._watchers = [] := by
        cases hws : wd._watchers with
        | nil => rfl
        | cons y ys => simp [hws] at hlen
      simp only [unwatch_impl, if_neg hP, if_neg hc, hnil, map_find, List.filter_nil, sweep,
        Option.map_some']
      cases wd
      simp only at hnil
      simp [hnil]
  refine ⟨heq, ?_⟩
  intro r hr
  rw [heq] at hr
  cases hs : sweep fuel F
      (wd._watchers.filter (fun x => decide (F.parent_path x.1 = F.parent_path P))) with
  | none => simp [hs] at hr
  | some s =>
    simp only [hs, Option.map_some', Option.some.injEq] at hr
    rw [← hr]
    have hfind : ∀ K, map_find
        (wd._watchers.filter (fun x => decide (F.parent_path x.1 ≠ F.parent_path P))) K =
        if F.parent_path K ≠ F.parent_path P then map_find wd._watchers K else none := by
      intro K
      have := map_find_filter_key wd._watchers
        (fun k => decide (F.parent_path k ≠ F.parent_path P)) K
      simpa using this
    refine ⟨?_, ?_, ?_⟩
    · intro K hK
      simp only [hfind]
      simp [hK]
    · intro K hK
      simp only [hfind]
      simp [hK]
    · intro hD
      simp only [hfind]
      simp [hD]

/-- C6, amended (first poll tick after registration): for an existing path `P` with no
wildcard marker that is not yet registered, `watch(P, recursive, initial_list, cb)`
registers a watch for `P`; its one `created` entry for `P` is handed to the callback during
registration, with `is_initial = true`, exactly when `initial_list` is true; and the poll
cycle of that watch that follows with the filesystem unchanged produces an empty batch
and does not invoke the callback. -/
theorem first_tick_silent (fuel : Nat) (F : filesystem) (wd : watcher) (P : String)
    (recursive initialList : Bool) (cb : Nat)
    (hstar : string_find P "*" = npos) (hex : F.fs_exists P = true)
    (hnew : map_find wd._watchers P = none) :
    ∃ wd1 w w1,
      watch_impl fuel F wd P recursive initialList (some cb) =
        some (wd1,
          if initialList = true then
            [{ callback := cb,
               entries := [{ path := P, last_path := P, status := entry_status.created,
                             last_mod_time := F.last_write_time P, size := F.file_size P,
                             type := F.status_type P }],
               is_initial := true }]
          else []) ∧
      map_find wd1._watchers P = some w ∧
      w.watch fuel F = some (w1, []) := by
  have hstart : (if wd._watching = false then wd.start else wd)._watchers = wd._watchers := by
    by_cases hw : wd._watching = false
    · simp [hw, watcher.start]
    · simp [hw]
  have hs : ¬ string_find P "*" ≠ npos := by simp [hstar]
  have hx : ¬ F.fs_exists P = false := by simp [hex]
  have hnew2 : map_find (if wd._watching = false then wd.start else wd)._watchers P = none := by
    rw [hstart]
    exact hnew
  have hcreate : watcher_impl.create fuel F P "" recursive initialList (some cb) =
      some ({ _recursive := recursive, _root := P, _filter := "", _callback := some cb,
              _entries := [(P, { path := P, last_path := P, status := entry_status.created,
                                 last_mod_time := F.last_write_time P, size := F.file_size P,
                                 type := F.status_type P })] },
            if initialList = true then
              [{ callback := cb,
                 entries := [{ path := P, last_path := P, status := entry_status.created,
                               last_mod_time := F.last_write_time P, size := F.file_size P,
                               type := F.status_type P }],
                 is_initial := true }]
            else []) := by
    simp [watcher_impl.create, poll_all, poll_entry, map_find, map_insert, invoke]
  refine ⟨{ (if wd._watching = false then wd.start else wd) with
      _watchers := map_insert (if wd._watching = false then wd.start else wd)._watchers P
        { _recursive := recursive, _root := P, _filter := "", _callback := some cb,
          _entries := [(P, { path := P, last_path := P, status := entry_status.created,
                             last_mod_time := F.last_write_time P, size := F.file_size P,
                             type := F.status_type P })] } },
    { _recursive := recursive, _root := P, _filter := "", _callback := some cb,
      _entries := [(P, { path := P, last_path := P, status := entry_status.created,
                         last_mod_time := F.last_write_time P, size := F.file_size P,
                         type := F.status_type P })] },
    { _recursive := recursive, _root := P, _filter := "", _callback := some cb,
      _entries := [(P, { path := P, last_path := P, status := entry_status.unmodified,
                         last_mod_time := F.last_write_time P, size := F.file_size P,
                         type := F.status_type P })] }, ?_, ?_, ?_⟩
  · simp only [watch_impl, if_neg hs, if_neg hx, register, hnew2, hcreate]
  · simp [map_find_insert _ _ _ _ hnew2]
  · simp [watcher_impl.watch, poll_all, poll_entry, map_find, map_set, process_modifications,
      hex, invoke]

/-! ## Independence of the recursion budget and reachable snapshots -/

theorem visit_children_mono {σ : Type} (F : filesystem)
    (rec1 rec2 : String → σ → Option σ) (filter before after : String) (recursive : Bool)
    (visitor : String → σ → σ × Bool)
    (hrec : ∀ p s r, rec1 p s = some r → rec2 p s = some r)
    (cs : List String) (s r : σ)
    (h : visit_children F rec1 filter before after recursive visitor cs s = some r) :
    visit_children F rec2 filter before after recursive visitor cs s = some r := by
  induction cs generalizing s with
  | nil => exact h
  | cons it rest ih =>
    by_cases hdir : F.status_type it = file_type.directory_file ∧ recursive = true
    · cases h1 : rec1 (F.join it filter) s with
      | none => simp [visit_children, hdir, h1] at h
      | some s1 =>
        have h2 := hrec _ _ _ h1
        simp only [visit_children, if_pos hdir, h1] at h
        simp only [visit_children, if_pos hdir, h2]
        by_cases hm : (string_find it before ≠ npos ∨ before = "") ∧
            (string_find it after ≠ npos ∨ after = "")
        · simp only [if_pos hm] at h ⊢
          by_cases hstop : (visitor it s1).2 = true
          · simp only [if_pos hstop] at h ⊢
            exact h
          · simp only [if_neg hstop] at h ⊢
            exact ih _ h
        · simp only [if_neg hm] at h ⊢
          exact ih _ h
    · simp only [visit_children, if_neg hdir] at h ⊢
      by_cases hm : (string_find it before ≠ npos ∨ before = "") ∧
          (string_find it after ≠ npos ∨ after = "")
      · simp only [if_pos hm] at h ⊢
        by_cases hstop : (visitor it s).2 = true
        · simp only [if_pos hstop] at h ⊢
          exact h
        · simp only [if_neg hstop] at h ⊢
          exact ih _ h
      · simp only [if_neg hm] at h ⊢
        exact ih _ h

/-- A result of the expansion does not depend on the recursion budget: once the budget
suffices, every larger budget gives the same result. -/
theorem visit_fuel_mono {σ : Type} (fuel : Nat) (F : filesystem) (path : String)
    (recursive visitEmpty : Bool) (visitor : String → σ → σ × Bool) (s : σ)
    (r : σ × (String × String))
    (h : visit_wild_card_path fuel F path recursive visitEmpty visitor s = some r) :
    visit_wild_card_path (fuel + 1) F path recursive visitEmpty visitor s = some r := by
  induction fuel generalizing path s r with
  | zero => simp [visit_wild_card_path] at h
  | succ fuel ih =>
    by_cases hf : (get_path_filter_pair F path).2 ≠ ""
    · by_cases he : visitEmpty = true ∧ F.is_empty (get_path_filter_pair F path).1 = true
      · simp only [visit_wild_card_path, if_pos hf, if_pos he] at h ⊢
        exact h
      · by_cases hx : F.fs_exists (get_path_filter_pair F path).1 = true
        · rw [visit_wild_card_path] at h ⊢
          simp only [if_pos hf, if_neg he, if_pos hx] at h ⊢
          cases hc : visit_children F
              (fun p s1 => (visit_wild_card_path fuel F p recursive visitEmpty visitor s1).map
                Prod.fst)
              (get_path_filter_pair F path).2
              (substr (F.join (get_path_filter_pair F path).1 (get_path_filter_pair F path).2) 0
                (string_find (F.join (get_path_filter_pair F path).1 (get_path_filter_pair F path).2) "*"))
              (substr (F.join (get_path_filter_pair F path).1 (get_path_filter_pair F path).2)
                ((string_find (F.join (get_path_filter_pair F path).1 (get_path_filter_pair F path).2) "*" + 1) % 2 ^ 64)
                npos)
              recursive visitor (F.directory_iterator (get_path_filter_pair F path).1) s with
          | none =>
            rw [hc] at h
            simp at h
          | some s1 =>
            rw [hc] at h
            rw [visit_children_mono F _
              (fun p s1 => (visit_wild_card_path (fuel + 1) F p recursive visitEmpty visitor
                s1).map Prod.fst) _ _ _ _ _ ?_ _ _ _ hc]
            · exact h
            · intro p s0 r0 hr0
              cases hv : visit_wild_card_path fuel F p recursive visitEmpty visitor s0 with
              | none => simp [hv] at hr0
              | some v =>
                simp only [hv, Option.map_some', Option.some.injEq] at hr0
                simp only [ih p s0 v hv, Option.map_some', hr0]
        · simp only [visit_wild_card_path, if_pos hf, if_neg he, if_neg hx] at h ⊢
          exact h
    · simp only [visit_wild_card_path, if_neg hf] at h ⊢
      exact h

/-- A bare-root watch and a non-recursive wildcard watch observe their paths within any
positive budget. -/
theorem observed_returns (fuel : Nat) (F : filesystem) (root filter : String)
    (recursive : Bool) (h : filter = "" ∨ recursive = false) :
    ∃ L, observed (fuel + 1) F root filter recursive = some L := by
  by_cases hf : filter ≠ ""
  · have hr : recursive = false := by
      rcases h with h | h
      · exact absurd h hf
      · exact h
    obtain ⟨r, hr2⟩ := visit_nonrecursive_returns fuel F (F.join root filter) false
      (fun p (acc : List String) => (acc ++ [p], false)) []
    refine ⟨r.1, ?_⟩
    simp only [observed, if_pos hf, hr, hr2, Option.map_some']
  · exact ⟨[root], by simp only [observed, if_neg hf]⟩

theorem process_modifications_wf (F : filesystem) (S : List (String × entry))
    (E : List entry) (hwf : snapshot_wf S) : snapshot_wf (process_modifications F S E).1 := by
  rw [process_modifications_snapshot]
  refine ⟨?_, fun x hx => hwf.2 x (List.mem_of_mem_filter hx)⟩
  exact List.Nodup.sublist (List.Sublist.map Prod.fst (List.filter_sublist S)) hwf.1

/-- The snapshot of a newly constructed watch is well formed. -/
theorem create_wf (fuel : Nat) (F : filesystem) (path filter : String)
    (recursive initialList : Bool) (cb : Option Nat) (r : watcher_impl × List callback_call)
    (h : watcher_impl.create fuel F path filter recursive initialList cb = some r) :
    snapshot_wf r.1._entries := by
  obtain ⟨L, hobs⟩ := create_some_observed fuel F path filter recursive initialList cb r h
  rw [create_eq fuel F path filter recursive initialList cb L hobs] at h
  simp only [Option.some.injEq] at h
  rw [← h]
  exact poll_list_wf F L [] [] ⟨by simp [map_keys], by simp⟩

/-- A poll cycle keeps the snapshot well formed. -/
theorem watch_wf (fuel : Nat) (F : filesystem) (w : watcher_impl)
    (r : watcher_impl × List callback_call) (h : w.watch fuel F = some r)
    (hwf : snapshot_wf w._entries) : snapshot_wf r.1._entries := by
  obtain ⟨L, hobs⟩ := watch_some_observed fuel F w r h
  rw [watch_eq fuel F w L hobs] at h
  simp only [Option.some.injEq] at h
  rw [← h]
  exact process_modifications_wf F _ _ (poll_list_wf F L _ _ hwf)

/-! ## Evaluation on the sample filesystem -/

theorem sample_watch_wf : snapshot_wf sample_watch._entries := by
  unfold snapshot_wf
  decide

/-- C1 as stated fails when another new path shows up in the same cycle: the snapshot
holds `/d/a.txt` (time 5, size 10) and `/d/c.txt`; `/d/a.txt` no longer exists, `/d/b.txt`
is new with time 5 and size 10, `/d/c.txt` is observed unchanged, and `/d/e.txt` is new as
well. The batch then has two entries: `/d/b.txt` renamed from `/d/a.txt`, and `/d/e.txt`
created. -/
theorem rename_single_entry_counterexample :
    map_find sample_watch._entries "/d/a.txt"
        = some (file_entry "/d/a.txt" 5 10 entry_status.created) ∧
    fs_renamed_extra.fs_exists "/d/a.txt" = false ∧
    observed 1 fs_renamed_extra "/d" "*.txt" false
        = some ["/d/b.txt", "/d/c.txt", "/d/e.txt"] ∧
    map_find sample_watch._entries "/d/b.txt" = none ∧
    fs_renamed_extra.last_write_time "/d/b.txt" = 5 ∧
    fs_renamed_extra.file_size "/d/b.txt" = 10 ∧
    map_find sample_watch._entries "/d/c.txt"
        = some { path := "/d/c.txt", last_path := "/d/c.txt", status := entry_status.created,
                 last_mod_time := fs_renamed_extra.last_write_time "/d/c.txt",
                 size := fs_renamed_extra.file_size "/d/c.txt",
                 type := fs_renamed_extra.status_type "/d/c.txt" } ∧
    (sample_watch.watch 1 fs_renamed_extra).map Prod.snd
        = some [{ callback := 7,
                  entries := [{ path := "/d/b.txt", last_path := "/d/a.txt",
                                status := entry_status.renamed, last_mod_time := 5,
                                size := 10, type := file_type.regular_file },
                              file_entry "/d/e.txt" 9 99 entry_status.created],
                  is_initial := false }] := by
  decide

/-- Witness for the amended C1 on the sample directory: `/d/a.txt` becomes `/d/b.txt`. -/
theorem rename_reported_witness :
    ∃ w1,
      sample_watch.watch 1 fs_renamed =
        some (w1, [{ callback := 7,
                     entries := [{ path := "/d/b.txt", last_path := "/d/a.txt",
                                   status := entry_status.renamed, last_mod_time := 5,
                                   size := 10, type := file_type.regular_file }],
                     is_initial := false }]) ∧
      map_find w1._entries "/d/a.txt" = none :=
  rename_reported 1 fs_renamed sample_watch 7 "/d/a.txt" "/d/b.txt"
    (file_entry "/d/a.txt" 5 10 entry_status.created) ["/d/b.txt", "/d/c.txt"]
    rfl sample_watch_wf (by decide) (by decide) (by decide) (by decide) (by decide) (by decide)
    (by decide) (by decide) (by decide)
    (by
      intro k hk hkA
      have hkc : k = "/d/c.txt" := by
        by_contra hne
        apply hk
        have h1 : ¬ "/d/a.txt" = k := fun e => hkA e.symm
        have h2 : ¬ "/d/c.txt" = k := fun e => hne e.symm
        simp [sample_watch, map_find, h1, h2]
      subst hkc
      exact ⟨by decide, file_entry "/d/c.txt" 6 20 entry_status.created, by decide, by decide,
        by decide, by decide⟩)
    (by decide)

/-- C2 as stated fails when a second snapshot path disappears in the same cycle: the
snapshot holds `/d/a.txt` (time 5, size 10) and `/d/c.txt`; neither exists any more and the
expansion lists no path, so no entry is created in the cycle. The batch handed to the
callback then has two entries with status `removed`, one for `/d/a.txt` and one for
`/d/c.txt`, and not exactly one. -/
theorem removal_single_entry_counterexample :
    map_find sample_watch._entries "/d/a.txt"
        = some (file_entry "/d/a.txt" 5 10 entry_status.created) ∧
    fs_both_removed.fs_exists "/d/a.txt" = false ∧
    observed 1 fs_both_removed "/d" "*.txt" false = some [] ∧
    (sample_watch.watch 1 fs_both_removed).map Prod.snd
        = some [{ callback := 7,
                  entries := [file_entry "/d/a.txt" 5 10 entry_status.removed,
                              file_entry "/d/c.txt" 6 20 entry_status.removed],
                  is_initial := false }] ∧
    (sample_watch.watch 1 fs_both_removed).map
        (fun r => r.2.map (fun c => count_status entry_status.removed c.entries)) = some [2] ∧
    (sample_watch.watch 1 fs_both_removed).map (fun r => map_keys r.1._entries) = some [] := by
  decide

/-- Witness for the amended C2 on the sample directory: `/d/a.txt` is deleted. -/
theorem removal_reported_witness :
    ∃ w1 batch,
      sample_watch.watch 1 fs_removed =
        some (w1, [{ callback := 7, entries := batch, is_initial := false }]) ∧
      batch.countP (fun e => decide (e.status = entry_status.removed ∧ e.path = "/d/a.txt")) = 1 ∧
      map_find w1._entries "/d/a.txt" = none ∧
      ((∀ k ∈ map_keys sample_watch._entries, k ≠ "/d/a.txt" → fs_removed.fs_exists k = true) →
        (∀ p ∈ ["/d/c.txt"], p ≠ "/d/a.txt" → fs_removed.fs_exists p = true) →
        ∀ e ∈ batch, e.status = entry_status.removed → e.path = "/d/a.txt") :=
  removal_reported 1 fs_removed sample_watch 7 "/d/a.txt"
    (file_entry "/d/a.txt" 5 10 entry_status.created) ["/d/c.txt"]
    rfl sample_watch_wf (by decide) (by decide) (by decide) (fun _ => by decide) (by decide)

/-- Witness for C3: the three outcomes of `poll_entry` on `/d/c.txt`. -/
theorem poll_entry_diff_witness :
    (poll_entry fs_before [] "/d/c.txt" []).2
        = [file_entry "/d/c.txt" 6 20 entry_status.created] ∧
    (poll_entry fs_before [("/d/c.txt", file_entry "/d/c.txt" 4 20 entry_status.created)]
        "/d/c.txt" []).2 = [file_entry "/d/c.txt" 6 20 entry_status.modified] ∧
    (poll_entry fs_before sample_watch._entries "/d/c.txt" []).2 = [] ∧
    map_find (poll_entry fs_before sample_watch._entries "/d/c.txt" []).1 "/d/c.txt"
        = some (file_entry "/d/c.txt" 6 20 entry_status.unmodified) ∧
    map_find (poll_entry fs_before sample_watch._entries "/d/c.txt" []).1 "/d/a.txt"
        = map_find sample_watch._entries "/d/a.txt" :=
  ⟨((poll_entry_diff fs_before [] "/d/c.txt" []).1 rfl).2.1,
   ((poll_entry_diff fs_before
      [("/d/c.txt", file_entry "/d/c.txt" 4 20 entry_status.created)] "/d/c.txt" []).2.1
      (file_entry "/d/c.txt" 4 20 entry_status.created) rfl (Or.inl (by decide))).2.1,
   ((poll_entry_diff fs_before sample_watch._entries "/d/c.txt" []).2.2.1
      (file_entry "/d/c.txt" 6 20 entry_status.created) rfl
      ⟨by decide, by decide, by decide⟩).2.1,
   ((poll_entry_diff fs_before sample_watch._entries "/d/c.txt" []).2.2.1
      (file_entry "/d/c.txt" 6 20 entry_status.created) rfl
      ⟨by decide, by decide, by decide⟩).1,
   (poll_entry_diff fs_before sample_watch._entries "/d/c.txt" []).2.2.2.1 "/d/a.txt"
      (by decide)⟩

/-- Witness for C4: a second `watch("/d/c.txt", ...)` with another callback. -/
theorem watch_duplicate_ignored_witness :
    ∃ r, watch_impl 1 fs_before sample_registry "/d/c.txt" false true (some 9) = some r ∧
      r.1._watchers = sample_registry._watchers ∧
      map_find r.1._watchers "/d/c.txt" = some (file_watch "/d/c.txt" 6 20 3) ∧ r.2 = [] :=
  ⟨(sample_registry, []), rfl,
    (watch_duplicate_ignored 1 fs_before sample_registry "/d/c.txt" false true (some 9)
      (file_watch "/d/c.txt" 6 20 3) rfl).1 (sample_registry, []) rfl⟩

/-- Witness for C5: watching the missing path `/d/none.txt`. -/
theorem watch_missing_path_witness :
    ∃ wd1, watch_impl 1 fs_before sample_registry "/d/none.txt" false true (some 9)
        = some (wd1, []) ∧ wd1._watchers = sample_registry._watchers :=
  watch_missing_path 1 fs_before sample_registry "/d/none.txt" false true (some 9)
    (by decide) (by decide)

/-- C6 as stated fails: after `watch("/d/c.txt", false, initial_list, cb 9)` on an empty
registry, the sweep that follows on the same filesystem invokes no callback, for either
value of `initial_list`; no batch with a `created` entry is produced. -/
theorem first_tick_created_counterexample :
    ((watch_impl 1 fs_before { _watching := false, _watchers := [] } "/d/c.txt" false true
        (some 9)).bind (fun r => (sweep 1 fs_before r.1._watchers).map Prod.snd) = some []) ∧
    ((watch_impl 1 fs_before { _watching := false, _watchers := [] } "/d/c.txt" false false
        (some 9)).bind (fun r => (sweep 1 fs_before r.1._watchers).map Prod.snd) = some []) := by
  decide

/-- Witness for the amended C6 on `/d/c.txt`. -/
theorem first_tick_silent_witness :
    ∃ wd1 w w1,
      watch_impl 1 fs_before { _watching := false, _watchers := [] } "/d/c.txt" false true
          (some 9) =
        some (wd1, [{ callback := 9,
                      entries := [file_entry "/d/c.txt" 6 20 entry_status.created],
                      is_initial := true }]) ∧
      map_find wd1._watchers "/d/c.txt" = some w ∧
      w.watch 1 fs_before = some (w1, []) :=
  first_tick_silent 1 fs_before { _watching := false, _watchers := [] } "/d/c.txt" false true 9
    (by decide) (by decide) rfl

/-- Witness for C7: two poll cycles of the sample watch, a rename and then no change. -/
theorem emitted_never_unmodified_witness :
    ∃ r, poll_cycles 1 [fs_renamed, fs_renamed] sample_watch = some r ∧
      r.2.length = 1 ∧
      ∀ c ∈ r.2, ∀ e ∈ c.entries, e.status ≠ entry_status.unmodified :=
  ⟨_, rfl, rfl, fun c hc e he =>
    ((emitted_never_unmodified 1).2 [fs_renamed, fs_renamed] sample_watch _ rfl c hc e he).2⟩

/-- Witness for C8: constructing the sample watch with an initial list. -/
theorem initial_callback_witness :
    ∃ batch,
      [({ callback := 7,
          entries := [file_entry "/d/a.txt" 5 10 entry_status.created,
                      file_entry "/d/c.txt" 6 20 entry_status.created],
          is_initial := true } : callback_call)]
        = [{ callback := 7, entries := batch, is_initial := true }] ∧
      (batch.map entry.path).Perm (map_keys sample_watch._entries) ∧
      (batch.map entry.path).Nodup ∧
      ∀ e ∈ batch, e.status = entry_status.created ∧ e.last_path = e.path :=
  (initial_callback 1 fs_before "/d" "*.txt" false true 7 sample_watch
    [{ callback := 7,
       entries := [file_entry "/d/a.txt" 5 10 entry_status.created,
                   file_entry "/d/c.txt" 6 20 entry_status.created],
       is_initial := true }]
    rfl).2 (by decide)

/-- Witness for C9: `unwatch("/d/a.txt")` after the file was deleted; the final poll cycle
of that watch runs and the other watches stay. -/
theorem unwatch_single_witness :
    ∃ r, unwatch_impl 1 fs_removed sample_registry "/d/a.txt" false = some r ∧
      map_find r.1._watchers "/d/a.txt" = none ∧
      map_find r.1._watchers "/d/c.txt" = map_find sample_registry._watchers "/d/c.txt" ∧
      map_keys r.1._watchers = ["/d", "/d/c.txt", "/d/sub/x.txt"] ∧
      r.2.length = 1 ∧
      unwatch_impl 1 fs_removed sample_registry "/d/none.txt" false
        = some (sample_registry, []) :=
  ⟨_, rfl,
    (((unwatch_single 1 fs_removed sample_registry "/d/a.txt" (by decide) (by decide)).1
      (file_watch "/d/a.txt" 5 10 2) rfl).2 _ rfl).1,
    (((unwatch_single 1 fs_removed sample_registry "/d/a.txt" (by decide) (by decide)).1
      (file_watch "/d/a.txt" 5 10 2) rfl).2 _ rfl).2.1 "/d/c.txt" (by decide),
    by decide, by decide,
    (unwatch_single 1 fs_removed sample_registry "/d/none.txt" (by decide) (by decide)).2 rfl⟩

/-- Witness for C10: `unwatch("/d/a.txt", true)` removes the watches keyed `/d/a.txt` and
`/d/c.txt`; the watch keyed by the directory `/d` and the watch keyed `/d/sub/x.txt`
below it stay. -/
theorem unwatch_recursive_siblings_witness :
    ∃ r, unwatch_impl 1 fs_before sample_registry "/d/a.txt" true = some r ∧
      map_find r.1._watchers "/d/a.txt" = none ∧
      map_find r.1._watchers "/d/c.txt" = none ∧
      map_find r.1._watchers "/d/sub/x.txt" = map_find sample_registry._watchers "/d/sub/x.txt" ∧
      map_find r.1._watchers "/d" = map_find sample_registry._watchers "/d" ∧
      map_keys r.1._watchers = ["/d", "/d/sub/x.txt"] ∧ r.2 = [] :=
  ⟨_, rfl,
    ((unwatch_recursive_siblings 1 fs_before sample_registry "/d/a.txt" (by decide)).2 _ rfl).1
      "/d/a.txt" (by decide),
    ((unwatch_recursive_siblings 1 fs_before sample_registry "/d/a.txt" (by decide)).2 _ rfl).1
      "/d/c.txt" (by decide),
    ((unwatch_recursive_siblings 1 fs_before sample_registry "/d/a.txt" (by decide)).2 _ rfl).2.1
      "/d/sub/x.txt" (by decide),
    ((unwatch_recursive_siblings 1 fs_before sample_registry "/d/a.txt" (by decide)).2 _ rfl).2.2
      (by decide),
    by decide, by decide⟩

/-! ## `std::string::find` and `substr` -/

theorem find_from_ne_npos_iff (pat l : List Char) (i : Nat) (h : i + l.length < npos) :
    find_from pat l i ≠ npos ↔ pat <:+: l := by
  induction l generalizing i with
  | nil =>
    have hi : i ≠ npos := by
      simp only [List.length_nil, Nat.add_zero] at h
      omega
    by_cases hp : pat = []
    · simp [find_from, hp, hi]
    · simp [find_from, hp]
  | cons c cs ih =>
    have hi : i ≠ npos := by
      simp only [List.length_cons] at h
      omega
    by_cases hp : pat.isPrefixOf (c :: cs) = true
    · simp only [find_from, if_pos hp]
      exact ⟨fun _ => (List.isPrefixOf_iff_prefix.1 hp).isInfix, fun _ => hi⟩
    · simp only [find_from, if_neg hp]
      rw [ih (i + 1) (by simp only [List.length_cons] at h; omega), List.infix_cons_iff]
      constructor
      · exact fun h1 => Or.inr h1
      · rintro (h1 | h1)
        · exact absurd (List.isPrefixOf_iff_prefix.2 h1) hp
        · exact h1

/-- On strings shorter than `npos`, `s.find(pat) != npos` says that `pat` occurs in `s`. -/
theorem string_find_ne_npos_iff (s pat : String) (h : s.length < npos) :
    string_find s pat ≠ npos ↔ pat.data <:+: s.data := by
  unfold string_find
  have h0 : 0 + s.data.length < npos := by
    rw [Nat.zero_add]
    exact h
  exact find_from_ne_npos_iff pat.data s.data 0 h0

theorem star_data : "*".data = ['*'] := rfl

theorem string_length_data (s : String) : s.length = s.data.length := rfl

theorem find_from_star (pre post : List Char) (i : Nat) (hpre : '*' ∉ pre) :
    find_from ['*'] (pre ++ '*' :: post) i = i + pre.length := by
  induction pre generalizing i with
  | nil =>
    have hp : List.isPrefixOf ['*'] ('*' :: post) = true :=
      List.isPrefixOf_iff_prefix.2 ⟨post, rfl⟩
    show find_from ['*'] ('*' :: post) i = i + 0
    rw [find_from, if_pos hp]
    rfl
  | cons c cs ih =>
    have hc : ¬ c = '*' := fun e => hpre (by rw [e]; exact List.mem_cons_self _ _)
    have hcs : '*' ∉ cs := fun h => hpre (List.mem_cons_of_mem _ h)
    have hne : ¬ (List.isPrefixOf ['*'] (c :: (cs ++ '*' :: post)) = true) := by
      intro h
      obtain ⟨t, ht⟩ := List.isPrefixOf_iff_prefix.1 h
      injection ht with h1 _
      exact hc h1.symm
    show find_from ['*'] (c :: (cs ++ '*' :: post)) i = i + (cs.length + 1)
    rw [find_from, if_neg hne, ih (i + 1) hcs]
    omega

theorem star_append_data (pre post : String) :
    (pre ++ "*" ++ post).data = pre.data ++ '*' :: post.data := by
  rw [String.data_append, String.data_append, star_data, List.append_assoc]
  rfl

/-- In `pre ++ "*" ++ post` with no marker in `pre`, `find("*")` is the length of `pre`. -/
theorem string_find_star (pre post : String) (hpre : '*' ∉ pre.data) :
    string_find (pre ++ "*" ++ post) "*" = pre.length := by
  unfold string_find
  rw [star_append_data, star_data, find_from_star pre.data post.data 0 hpre,
    string_length_data]
  omega

theorem substr_before (pre post : String) :
    substr (pre ++ "*" ++ post) 0 pre.length = pre := by
  apply String.ext
  unfold substr
  rw [star_append_data, string_length_data]
  show List.take pre.data.length (List.drop 0 (pre.data ++ '*' :: post.data)) = pre.data
  rw [List.drop_zero, List.take_left']
  rfl

theorem substr_after (pre post : String) (hlen : (pre ++ "*" ++ post).length < npos) :
    substr (pre ++ "*" ++ post) ((pre.length + 1) % 2 ^ 64) npos = post := by
  have h0 : (pre ++ "*" ++ post).length = pre.data.length + (post.data.length + 1) := by
    rw [string_length_data, star_append_data, List.length_append, List.length_cons]
  rw [h0] at hlen
  have h2 : (pre.length + 1) % 2 ^ 64 = pre.data.length + 1 := by
    rw [string_length_data]
    apply Nat.mod_eq_of_lt
    unfold npos at hlen
    omega
  rw [h2]
  apply String.ext
  have h4 : List.drop (pre.data.length + 1) (pre.data ++ '*' :: post.data) = post.data := by
    rw [List.drop_append_eq_append_drop]
    have h5 : List.drop (pre.data.length + 1) pre.data = [] :=
      List.drop_eq_nil_of_le (by omega)
    have h6 : pre.data.length + 1 - pre.data.length = 1 := by omega
    rw [h5, h6]
    rfl
  unfold substr
  rw [star_append_data]
  show List.take npos (List.drop (pre.data.length + 1) (pre.data ++ '*' :: post.data))
    = post.data
  rw [h4]
  apply List.take_of_length_le
  omega

theorem star_mem_iff_find (s : String) (h : s.length < npos) :
    string_find s "*" ≠ npos ↔ '*' ∈ s.data := by
  rw [string_find_ne_npos_iff s "*" h, star_data]
  constructor
  · rintro ⟨a, b, hab⟩
    rw [← hab]
    exact List.mem_append_left _ (List.mem_append_right _ (List.mem_singleton_self _))
  · intro hm
    obtain ⟨a, b, hab⟩ := List.append_of_mem hm
    exact ⟨a, b, by rw [hab, List.append_assoc]; rfl⟩

/-! ## Clearing the registry and the running flag -/

/-- C11 (unwatch_all): for every registry, `unwatch_all()` and `unwatch(P, recursive)` with
an empty `P`, for either value of `recursive`, return with an empty registry and without
any callback invocation (no poll cycle runs), and a sweep of the poller that follows
invokes no callback, whatever the filesystem state is. -/
theorem unwatch_all_clears (fuel fuel2 : Nat) (F F2 : filesystem) (wd : watcher)
    (recursive : Bool) :
    unwatch_all fuel F wd = some ({ wd with _watchers := [] }, []) ∧
    unwatch_impl fuel F wd "" recursive = some ({ wd with _watchers := [] }, []) ∧
    sweep fuel2 F2 ({ wd with _watchers := [] } : watcher)._watchers = some ([], []) := by
  refine ⟨?_, ?_, ?_⟩
  · simp only [unwatch_all, unwatch_impl, if_true]
  · simp only [unwatch_impl, if_true]
  · simp only [sweep]

theorem unwatch_impl_watching (fuel : Nat) (F : filesystem) (wd : watcher) (P : String)
    (recursive : Bool) (r : watcher × List callback_call)
    (h : unwatch_impl fuel F wd P recursive = some r) : r.1._watching = wd._watching := by
  by_cases hP : P = ""
  · simp only [unwatch_impl, if_pos hP, Option.some.injEq] at h
    rw [← h]
  · by_cases hc : recursive = true ∧ wd._watchers.length > 0
    · simp only [unwatch_impl, if_neg hP, if_pos hc] at h
      cases hs : unwatch_siblings fuel F (F.parent_path P) wd._watchers with
      | none => simp [hs] at h
      | some s =>
        simp only [hs, Option.map_some', Option.some.injEq] at h
        rw [← h]
    · simp only [unwatch_impl, if_neg hP, if_neg hc] at h
      cases hf : map_find wd._watchers P with
      | none =>
        simp only [hf, Option.some.injEq] at h
        rw [← h]
      | some w =>
        simp only [hf] at h
        cases hw : w.watch fuel F with
        | none => simp [hw] at h
        | some r1 =>
          simp only [hw, Option.some.injEq] at h
          rw [← h]

/-- C14, amended (the poller and an emptied registry): no call of `unwatch` or
`unwatch_all` changes the running flag, so a poller that was running is still running when
the call returns, also when the call leaves the registry empty; the flag is cleared by
`close()`, which also empties the registry. -/
theorem unwatch_keeps_poller_running (fuel : Nat) (F : filesystem) (wd : watcher) :
    (∀ (P : String) (recursive : Bool) (r : watcher × List callback_call),
      unwatch_impl fuel F wd P recursive = some r → r.1._watching = wd._watching) ∧
    (∀ r : watcher × List callback_call,
      unwatch_all fuel F wd = some r → r.1._watching = wd._watching) ∧
    (∃ calls, close fuel F wd = some ({ _watching := false, _watchers := [] }, calls) ∧
      calls = []) := by
  refine ⟨fun P recursive r h => unwatch_impl_watching fuel F wd P recursive r h,
    fun r h => unwatch_impl_watching fuel F wd "" false r h, [], ?_, rfl⟩
  simp only [close, unwatch_all, unwatch_impl, if_true, Option.map_some']

/-- C14 as stated fails: on a running engine whose registry holds one watch,
`unwatch("/d/c.txt")` and `unwatch_all()` both leave the registry empty and the running
flag still set. -/
theorem poller_not_stopped_counterexample :
    single_registry._watching = true ∧
    (unwatch_impl 1 fs_before single_registry "/d/c.txt" false).map
        (fun r => (r.1._watchers, r.1._watching)) = some ([], true) ∧
    (unwatch_all 1 fs_before single_registry).map
        (fun r => (r.1._watchers, r.1._watching)) = some ([], true) := by
  decide

/-- Witness for the amended C14 on the single-watch registry. -/
theorem unwatch_keeps_poller_running_witness :
    ∃ r, unwatch_impl 1 fs_before single_registry "/d/c.txt" false = some r ∧
      r.1._watchers = [] ∧ r.1._watching = single_registry._watching :=
  ⟨_, rfl, rfl,
    (unwatch_keeps_poller_running 1 fs_before single_registry).1 "/d/c.txt" false _ rfl⟩

/-! ## Accounting of disappearances -/

theorem count_status_cons (st : entry_status) (e : entry) (L : List entry) :
    count_status st (e :: L) = count_status st L + (if e.status = st then 1 else 0) := by
  unfold count_status
  rw [List.countP_cons]
  by_cases h : e.status = st <;> simp [h]

theorem count_status_append (st : entry_status) (L1 L2 : List entry) :
    count_status st (L1 ++ L2) = count_status st L1 + count_status st L2 := by
  unfold count_status
  exact List.countP_append _ _ _

/-- A successful rename match turns exactly one `created` entry into a `renamed` entry with
`last_path = fi.path` and leaves every other entry as it is. -/
theorem rename_match_shape (fi : entry) (E r : List entry) (h : rename_match fi E = some r) :
    ∃ pre e post, E = pre ++ e :: post ∧ e.status = entry_status.created ∧
      e.last_mod_time = fi.last_mod_time ∧ e.size = fi.size ∧
      (∀ x ∈ pre, ¬ (x.status = entry_status.created ∧ x.last_mod_time = fi.last_mod_time ∧
        x.size = fi.size)) ∧
      r = pre ++ { e with status := entry_status.renamed, last_path := fi.path } :: post := by
  induction E generalizing r with
  | nil => simp [rename_match] at h
  | cons e0 E ih =>
    by_cases hc : e0.status = entry_status.created ∧ e0.last_mod_time = fi.last_mod_time ∧
        e0.size = fi.size
    · simp only [rename_match, if_pos hc, Option.some.injEq] at h
      exact ⟨[], e0, E, rfl, hc.1, hc.2.1, hc.2.2, by simp, by rw [← h]; rfl⟩
    · simp only [rename_match, if_neg hc] at h
      cases hr : rename_match fi E with
      | none => simp [hr] at h
      | some r0 =>
        simp only [hr, Option.map_some', Option.some.injEq] at h
        obtain ⟨pre, e, post, h1, h2, h3, h4, h5, h6⟩ := ih r0 hr
        refine ⟨e0 :: pre, e, post, by rw [h1]; rfl, h2, h3, h4, ?_, by rw [← h, h6]; rfl⟩
        intro x hx
        simp only [List.mem_cons] at hx
        rcases hx with hx | hx
        · rw [hx]
          exact hc
        · exact h5 x hx

theorem rename_match_some_of_mem (fi : entry) (E : List entry) (e : entry) (he : e ∈ E)
    (hc : e.status = entry_status.created ∧ e.last_mod_time = fi.last_mod_time ∧
      e.size = fi.size) : ∃ r, rename_match fi E = some r := by
  induction E with
  | nil => simp at he
  | cons e0 E ih =>
    by_cases hc0 : e0.status = entry_status.created ∧ e0.last_mod_time = fi.last_mod_time ∧
        e0.size = fi.size
    · refine ⟨{ e0 with status := entry_status.renamed, last_path := fi.path } :: E, ?_⟩
      simp only [rename_match, if_pos hc0]
    · simp only [List.mem_cons] at he
      rcases he with he | he
      · rw [he] at hc
        exact absurd hc hc0
      · obtain ⟨r, hr⟩ := ih he
        exact ⟨e0 :: r, by simp only [rename_match, if_neg hc0, hr, Option.map_some']⟩

/-- The effect of one missing key on the four status counts and on the batch length. -/
theorem reconcile_counts (fi : entry) (E : List entry) :
    (count_status entry_status.renamed (reconcile fi E)
        + count_status entry_status.removed (reconcile fi E)
      = count_status entry_status.renamed E + count_status entry_status.removed E + 1) ∧
    (count_status entry_status.created (reconcile fi E)
        + count_status entry_status.renamed (reconcile fi E)
      = count_status entry_status.created E + count_status entry_status.renamed E) ∧
    count_status entry_status.modified (reconcile fi E)
      = count_status entry_status.modified E ∧
    (reconcile fi E).length + count_status entry_status.removed E
      = E.length + count_status entry_status.removed (reconcile fi E) := by
  cases hr : rename_match fi E with
  | none =>
    simp only [reconcile, hr, count_status_append, List.length_append]
    simp only [count_status, List.countP_cons, List.countP_nil, List.length_cons,
      List.length_nil]
    simp
    omega
  | some r =>
    obtain ⟨pre, e, post, h1, h2, _, _, _, h6⟩ := rename_match_shape fi E r hr
    simp only [reconcile, hr]
    rw [h6, h1]
    simp only [count_status_append, count_status_cons, List.length_append, List.length_cons, h2]
    simp
    omega

theorem process_modifications_counts (F : filesystem) (S : List (String × entry))
    (E : List entry) :
    (count_status entry_status.renamed (process_modifications F S E).2
        + count_status entry_status.removed (process_modifications F S E).2
      = count_status entry_status.renamed E + count_status entry_status.removed E
        + (S.filter (fun x => !F.fs_exists x.2.path)).length) ∧
    (count_status entry_status.created (process_modifications F S E).2
        + count_status entry_status.renamed (process_modifications F S E).2
      = count_status entry_status.created E + count_status entry_status.renamed E) ∧
    count_status entry_status.modified (process_modifications F S E).2
      = count_status entry_status.modified E ∧
    (process_modifications F S E).2.length + count_status entry_status.removed E
      = E.length + count_status entry_status.removed (process_modifications F S E).2 := by
  induction S generalizing E with
  | nil => simp [process_modifications]
  | cons x S ih =>
    obtain ⟨k, fi⟩ := x
    by_cases h : F.fs_exists fi.path = true
    · have hf : List.filter (fun x => !F.fs_exists x.2.path) ((k, fi) :: S)
          = List.filter (fun x => !F.fs_exists x.2.path) S := by
        simp [List.filter_cons, h]
      simp only [process_modifications, h, Bool.not_true, Bool.false_eq_true, if_false]
      rw [hf]
      exact ih E
    · simp only [Bool.not_eq_true] at h
      have hf : List.filter (fun x => !F.fs_exists x.2.path) ((k, fi) :: S)
          = (k, fi) :: List.filter (fun x => !F.fs_exists x.2.path) S := by
        simp [List.filter_cons, h]
      simp only [process_modifications, h, Bool.not_false, if_true]
      rw [hf, List.length_cons]
      have h1 := ih (reconcile fi E)
      have h2 := reconcile_counts fi E
      omega

/-- C20 (every disappearance is accounted for exactly once): for every snapshot `S` and
every polled batch `E` that holds only `created` and `modified` entries,
`process_modifications` keeps exactly the snapshot entries whose stored path still exists,
unchanged and in order, and erases the others; the resulting batch has as many `renamed`
plus `removed` entries as there are erased keys; every `renamed` entry comes from one
`created` entry of `E` (the `created` and `renamed` entries of the result together are as
many as the `created` entries of `E`), the `modified` entries are untouched, and the batch
grows by exactly the `removed` entries. For each missing key the step either turns one
`created` entry into `renamed` or appends one `removed` entry. -/
theorem disappearances_accounted (F : filesystem) (S : List (String × entry))
    (E : List entry)
    (hE : ∀ e ∈ E, e.status = entry_status.created ∨ e.status = entry_status.modified) :
    (process_modifications F S E).1 = S.filter (fun x => F.fs_exists x.2.path) ∧
    (count_status entry_status.renamed (process_modifications F S E).2
        + count_status entry_status.removed (process_modifications F S E).2
      = (S.filter (fun x => !F.fs_exists x.2.path)).length) ∧
    (count_status entry_status.created (process_modifications F S E).2
        + count_status entry_status.renamed (process_modifications F S E).2
      = count_status entry_status.created E) ∧
    count_status entry_status.modified (process_modifications F S E).2
      = count_status entry_status.modified E ∧
    (process_modifications F S E).2.length
      = E.length + count_status entry_status.removed (process_modifications F S E).2 ∧
    (∀ (fi : entry) (B : List entry),
      (∃ pre e post, B = pre ++ e :: post ∧ e.status = entry_status.created ∧
        reconcile fi B
          = pre ++ { e with status := entry_status.renamed, last_path := fi.path } :: post) ∨
      reconcile fi B = B ++ [{ fi with status := entry_status.removed }]) := by
  have hren : count_status entry_status.renamed E = 0 := by
    unfold count_status
    rw [List.countP_eq_zero]
    intro e he
    rcases hE e he with h | h <;> simp [h]
  have hrem : count_status entry_status.removed E = 0 := by
    unfold count_status
    rw [List.countP_eq_zero]
    intro e he
    rcases hE e he with h | h <;> simp [h]
  have hc := process_modifications_counts F S E
  refine ⟨process_modifications_snapshot F S E, by omega, by omega, hc.2.2.1, by omega, ?_⟩
  intro fi B
  cases hr : rename_match fi B with
  | none =>
    right
    simp only [reconcile, hr]
  | some r =>
    left
    obtain ⟨pre, e, post, h1, h2, _, _, _, h6⟩ := rename_match_shape fi B r hr
    exact ⟨pre, e, post, h1, h2, by simp only [reconcile, hr, h6]⟩

/-! ## What the expansion visits -/

theorem child_matches_iff (before after current : String) :
    child_matches before after current = true ↔
      (string_find current before ≠ npos ∨ before = "") ∧
        (string_find current after ≠ npos ∨ after = "") := by
  simp only [child_matches, decide_eq_true_eq]

theorem visit_second (fuel : Nat) {σ : Type} (F : filesystem) (path : String)
    (recursive visitEmpty : Bool) (visitor : String → σ → σ × Bool) (s : σ)
    (r : σ × (String × String))
    (h : visit_wild_card_path fuel F path recursive visitEmpty visitor s = some r) :
    r.2 = get_path_filter_pair F path := by
  cases fuel with
  | zero => simp [visit_wild_card_path] at h
  | succ fuel =>
    by_cases hf : (get_path_filter_pair F path).2 ≠ ""
    · by_cases he : visitEmpty = true ∧ F.is_empty (get_path_filter_pair F path).1 = true
      · simp only [visit_wild_card_path, if_pos hf, if_pos he, Option.some.injEq] at h
        rw [← h]
      · by_cases hx : F.fs_exists (get_path_filter_pair F path).1 = true
        · rw [visit_wild_card_path] at h
          simp only [if_pos hf, if_neg he, if_pos hx] at h
          rw [Option.map_eq_some'] at h
          obtain ⟨a, _, ha⟩ := h
          rw [← ha]
        · simp only [visit_wild_card_path, if_pos hf, if_neg he, if_neg hx,
            Option.some.injEq] at h
          rw [← h]
    · simp only [visit_wild_card_path, if_neg hf, Option.some.injEq] at h
      rw [← h]

/-- Without recursion the listing loop hands over exactly the listed paths that pass the
test, in listing order. -/
theorem visit_children_nonrecursive_collect (F : filesystem)
    (recurse : String → List String → Option (List String)) (filter before after : String)
    (cs acc : List String) :
    visit_children F recurse filter before after false (fun p a => (a ++ [p], false)) cs acc
      = some (acc ++ cs.filter (child_matches before after)) := by
  induction cs generalizing acc with
  | nil => simp [visit_children]
  | cons it rest ih =>
    have hdir : ¬ (F.status_type it = file_type.directory_file ∧ false = true) := by simp
    by_cases hm : (string_find it before ≠ npos ∨ before = "") ∧
        (string_find it after ≠ npos ∨ after = "")
    · have hcm : child_matches before after it = true := (child_matches_iff _ _ _).2 hm
      have hstop : ¬ ((fun (p : String) (a : List String) => (a ++ [p], false)) it acc).2
          = true := by simp
      simp only [visit_children, if_neg hdir, if_pos hm, if_neg hstop, ih]
      rw [List.filter_cons_of_pos hcm, List.append_assoc]
      rfl
    · have hcm : ¬ child_matches before after it = true :=
        fun h => hm ((child_matches_iff _ _ _).1 h)
      simp only [visit_children, if_neg hdir, if_neg hm, ih]
      rw [List.filter_cons_of_neg hcm]

/-- The non-recursive expansion of a pattern path whose directory exists (and is not
reported empty when `visitEmpty` is set) visits the listed children that pass the test
against the two parts of the full pattern path. -/
theorem visited_nonrecursive (fuel : Nat) (F : filesystem) (path : String)
    (visitEmpty : Bool)
    (hf : (get_path_filter_pair F path).2 ≠ "")
    (he : ¬ (visitEmpty = true ∧ F.is_empty (get_path_filter_pair F path).1 = true))
    (hx : F.fs_exists (get_path_filter_pair F path).1 = true) :
    visited (fuel + 1) F path false visitEmpty =
      some ((F.directory_iterator (get_path_filter_pair F path).1).filter
        (child_matches
          (substr (F.join (get_path_filter_pair F path).1 (get_path_filter_pair F path).2) 0
            (string_find
              (F.join (get_path_filter_pair F path).1 (get_path_filter_pair F path).2) "*"))
          (substr (F.join (get_path_filter_pair F path).1 (get_path_filter_pair F path).2)
            ((string_find
              (F.join (get_path_filter_pair F path).1 (get_path_filter_pair F path).2) "*"
                + 1) % 2 ^ 64) npos))) := by
  unfold visited
  rw [visit_wild_card_path]
  simp only [if_pos hf, if_neg he, if_pos hx, visit_children_nonrecursive_collect,
    Option.map_some', List.nil_append]

theorem visit_collect_extends (fuel : Nat) (F : filesystem) (path : String)
    (recursive visitEmpty : Bool) (acc : List String) (r : List String × (String × String))
    (h : visit_wild_card_path fuel F path recursive visitEmpty
      (fun p a => (a ++ [p], false)) acc = some r) : ∃ L, r.1 = acc ++ L := by
  obtain ⟨ro, hro⟩ := visit_fold fuel F recursive visitEmpty path
  have h1 := hro (List String) (fun p a => a ++ [p]) acc
  rw [h1] at h
  cases ro with
  | none => simp at h
  | some L =>
    simp only [Option.map_some', Option.some.injEq] at h
    exact ⟨L, by rw [← h, foldl_collect]⟩

theorem visit_children_collect_mem (F : filesystem)
    (recurse : String → List String → Option (List String)) (filter before after : String)
    (recursive : Bool)
    (hrec : ∀ p acc acc2, recurse p acc = some acc2 → ∃ L, acc2 = acc ++ L)
    (cs acc acc1 : List String)
    (h : visit_children F recurse filter before after recursive
      (fun p a => (a ++ [p], false)) cs acc = some acc1) :
    (∃ L, acc1 = acc ++ L) ∧ ∀ c ∈ cs, child_matches before after c = true → c ∈ acc1 := by
  induction cs generalizing acc with
  | nil =>
    simp only [visit_children, Option.some.injEq] at h
    exact ⟨⟨[], by rw [← h, List.append_nil]⟩, by simp⟩
  | cons it rest ih =>
    have key : ∀ s1, (∃ L1, s1 = acc ++ L1) →
        (if (string_find it before ≠ npos ∨ before = "") ∧
            (string_find it after ≠ npos ∨ after = "") then
          visit_children F recurse filter before after recursive
            (fun p a => (a ++ [p], false)) rest (s1 ++ [it])
        else
          visit_children F recurse filter before after recursive
            (fun p a => (a ++ [p], false)) rest s1) = some acc1 →
        (∃ L, acc1 = acc ++ L) ∧
          ∀ c ∈ it :: rest, child_matches before after c = true → c ∈ acc1 := by
      intro s1 hs1 h2
      obtain ⟨L1, hL1⟩ := hs1
      by_cases hm : (string_find it before ≠ npos ∨ before = "") ∧
          (string_find it after ≠ npos ∨ after = "")
      · rw [if_pos hm] at h2
        obtain ⟨⟨L2, hL2⟩, hmem⟩ := ih _ h2
        refine ⟨⟨L1 ++ [it] ++ L2, by rw [hL2, hL1]; simp [List.append_assoc]⟩, ?_⟩
        intro c hc hcm
        simp only [List.mem_cons] at hc
        rcases hc with hc | hc
        · rw [hL2, hc]
          simp
        · exact hmem c hc hcm
      · rw [if_neg hm] at h2
        obtain ⟨⟨L2, hL2⟩, hmem⟩ := ih _ h2
        refine ⟨⟨L1 ++ L2, by rw [hL2, hL1, List.append_assoc]⟩, ?_⟩
        intro c hc hcm
        simp only [List.mem_cons] at hc
        rcases hc with hc | hc
        · rw [hc] at hcm
          exact absurd ((child_matches_iff _ _ _).1 hcm) hm
        · exact hmem c hc hcm
    by_cases hdir : F.status_type it = file_type.directory_file ∧ recursive = true
    · cases hn : recurse (F.join it filter) acc with
      | none => simp [visit_children, hdir, hn] at h
      | some s1 =>
        simp only [visit_children, if_pos hdir, hn, Bool.false_eq_true, if_false] at h
        exact key s1 (hrec _ _ _ hn) h
    · simp only [visit_children, if_neg hdir, Bool.false_eq_true, if_false] at h
      exact key acc ⟨[], by rw [List.append_nil]⟩ h

/-- With or without recursion, every listed child of the pattern's directory that passes
the test is visited. -/
theorem visited_contains_matches (fuel : Nat) (F : filesystem) (path : String)
    (recursive visitEmpty : Bool) (L : List String)
    (hf : (get_path_filter_pair F path).2 ≠ "")
    (he : ¬ (visitEmpty = true ∧ F.is_empty (get_path_filter_pair F path).1 = true))
    (hx : F.fs_exists (get_path_filter_pair F path).1 = true)
    (h : visited fuel F path recursive visitEmpty = some L) :
    ∀ c ∈ F.directory_iterator (get_path_filter_pair F path).1,
      child_matches
        (substr (F.join (get_path_filter_pair F path).1 (get_path_filter_pair F path).2) 0
          (string_find
            (F.join (get_path_filter_pair F path).1 (get_path_filter_pair F path).2) "*"))
        (substr (F.join (get_path_filter_pair F path).1 (get_path_filter_pair F path).2)
          ((string_find
            (F.join (get_path_filter_pair F path).1 (get_path_filter_pair F path).2) "*"
              + 1) % 2 ^ 64) npos) c = true → c ∈ L := by
  cases fuel with
  | zero => simp [visited, visit_wild_card_path] at h
  | succ fuel =>
    unfold visited at h
    rw [visit_wild_card_path] at h
    simp only [if_pos hf, if_neg he, if_pos hx, Option.map_map] at h
    rw [Option.map_eq_some'] at h
    obtain ⟨acc1, hacc, hL⟩ := h
    have hL2 : acc1 = L := hL
    rw [← hL2]
    refine (visit_children_collect_mem F _ _ _ _ recursive ?_ _ [] acc1 hacc).2
    intro p acc acc2 hr
    rw [Option.map_eq_some'] at hr
    obtain ⟨r, hr1, hr2⟩ := hr
    obtain ⟨L1, hL1⟩ := visit_collect_extends fuel F p recursive visitEmpty acc r hr1
    exact ⟨L1, by rw [← hr2, hL1]⟩

theorem visit_collect_visited (fuel : Nat) (F : filesystem) (path : String)
    (recursive visitEmpty : Bool) (acc : List String) (r : List String × (String × String))
    (h : visit_wild_card_path fuel F path recursive visitEmpty
      (fun p a => (a ++ [p], false)) acc = some r) :
    ∃ L, visited fuel F path recursive visitEmpty = some L ∧ r.1 = acc ++ L := by
  obtain ⟨ro, hro⟩ := visit_fold fuel F recursive visitEmpty path
  have h1 := hro (List String) (fun p a => a ++ [p]) acc
  have h2 := hro (List String) (fun p a => a ++ [p]) []
  rw [h1] at h
  cases ro with
  | none => simp at h
  | some L =>
    simp only [Option.map_some', Option.some.injEq] at h
    refine ⟨L, ?_, by rw [← h, foldl_collect]⟩
    unfold visited
    rw [h2]
    simp [foldl_collect]

theorem visit_children_collect_origin (F : filesystem)
    (recurse : String → List String → Option (List String)) (filter before after : String)
    (recursive : Bool) (rec_visited : String → Option (List String))
    (hrec : ∀ p acc acc2, recurse p acc = some acc2 →
      ∃ L, rec_visited p = some L ∧ acc2 = acc ++ L)
    (cs acc acc1 : List String)
    (h : visit_children F recurse filter before after recursive
      (fun p a => (a ++ [p], false)) cs acc = some acc1) :
    ∀ c ∈ acc1, c ∈ acc ∨ (c ∈ cs ∧ child_matches before after c = true) ∨
      ∃ it ∈ cs, F.status_type it = file_type.directory_file ∧ recursive = true ∧
        ∃ L, rec_visited (F.join it filter) = some L ∧ c ∈ L := by
  induction cs generalizing acc with
  | nil =>
    simp only [visit_children, Option.some.injEq] at h
    intro c hc
    rw [← h] at hc
    exact Or.inl hc
  | cons it rest ih =>
    have key : ∀ s1,
        (∀ c ∈ s1, c ∈ acc ∨
          ∃ it0 ∈ it :: rest, F.status_type it0 = file_type.directory_file ∧
            recursive = true ∧ ∃ L, rec_visited (F.join it0 filter) = some L ∧ c ∈ L) →
        (if (string_find it before ≠ npos ∨ before = "") ∧
            (string_find it after ≠ npos ∨ after = "") then
          visit_children F recurse filter before after recursive
            (fun p a => (a ++ [p], false)) rest (s1 ++ [it])
        else
          visit_children F recurse filter before after recursive
            (fun p a => (a ++ [p], false)) rest s1) = some acc1 →
        ∀ c ∈ acc1, c ∈ acc ∨ (c ∈ it :: rest ∧ child_matches before after c = true) ∨
          ∃ it0 ∈ it :: rest, F.status_type it0 = file_type.directory_file ∧
            recursive = true ∧ ∃ L, rec_visited (F.join it0 filter) = some L ∧ c ∈ L := by
      intro s1 hs1 h2 c hc
      have lift : (c ∈ rest ∧ child_matches before after c = true) ∨
          (∃ it0 ∈ rest, F.status_type it0 = file_type.directory_file ∧
            recursive = true ∧ ∃ L, rec_visited (F.join it0 filter) = some L ∧ c ∈ L) →
          c ∈ acc ∨ (c ∈ it :: rest ∧ child_matches before after c = true) ∨
          ∃ it0 ∈ it :: rest, F.status_type it0 = file_type.directory_file ∧
            recursive = true ∧ ∃ L, rec_visited (F.join it0 filter) = some L ∧ c ∈ L := by
        rintro (⟨h3, h4⟩ | ⟨it0, h3, h4⟩)
        · exact Or.inr (Or.inl ⟨List.mem_cons_of_mem _ h3, h4⟩)
        · exact Or.inr (Or.inr ⟨it0, List.mem_cons_of_mem _ h3, h4⟩)
      have from_s1 : c ∈ s1 →
          c ∈ acc ∨ (c ∈ it :: rest ∧ child_matches before after c = true) ∨
          ∃ it0 ∈ it :: rest, F.status_type it0 = file_type.directory_file ∧
            recursive = true ∧ ∃ L, rec_visited (F.join it0 filter) = some L ∧ c ∈ L := by
        intro h3
        rcases hs1 c h3 with h4 | h4
        · exact Or.inl h4
        · exact Or.inr (Or.inr h4)
      by_cases hm : (string_find it before ≠ npos ∨ before = "") ∧
          (string_find it after ≠ npos ∨ after = "")
      · rw [if_pos hm] at h2
        rcases ih _ h2 c hc with h3 | h3
        · simp only [List.mem_append, List.mem_singleton] at h3
          rcases h3 with h3 | h3
          · exact from_s1 h3
          · refine Or.inr (Or.inl ⟨by rw [h3]; exact List.mem_cons_self _ _, ?_⟩)
            rw [h3]
            exact (child_matches_iff _ _ _).2 hm
        · exact lift h3
      · rw [if_neg hm] at h2
        rcases ih _ h2 c hc with h3 | h3
        · exact from_s1 h3
        · exact lift h3
    by_cases hdir : F.status_type it = file_type.directory_file ∧ recursive = true
    · cases hn : recurse (F.join it filter) acc with
      | none => simp [visit_children, hdir, hn] at h
      | some s1 =>
        simp only [visit_children, if_pos hdir, hn, Bool.false_eq_true, if_false] at h
        obtain ⟨L1, hL1, hs1⟩ := hrec _ _ _ hn
        refine key s1 ?_ h
        intro c hc
        rw [hs1] at hc
        simp only [List.mem_append] at hc
        rcases hc with hc | hc
        · exact Or.inl hc
        · exact Or.inr ⟨it, List.mem_cons_self _ _, hdir.1, hdir.2, L1, hL1, hc⟩
    · simp only [visit_children, if_neg hdir, Bool.false_eq_true, if_false] at h
      exact key acc (fun c hc => Or.inl hc) h

theorem pattern_pair (F : filesystem) (base filter : String)
    (hstar : string_find (F.join base filter) "*" ≠ npos)
    (hparent : F.parent_path (F.join base filter) = base)
    (hfile : F.filename (F.join base filter) = filter) :
    get_path_filter_pair F (F.join base filter) = (base, filter) := by
  simp only [get_path_filter_pair, if_pos hstar, hparent, hfile]

/-- C13, amended (matching rule): for an existing, non-empty directory `base` and a filter
whose pattern path `base / filter` contains a wildcard marker, let `before` and `after` be
the parts of the full pattern path `base / filter` (not of the filter alone) that precede
and follow its first marker. Every listed child of `base` whose path contains `before` (or
`before` is empty) and contains `after` (or `after` is empty) is visited; every visited
path is such a child or comes from the nested expansion of a listed subdirectory when
`recursive` is set; so a listed child that no nested expansion hands over is visited if and
only if it passes the test, and without recursion the visited paths are exactly the listed
children that pass it. -/
theorem expansion_matching_rule (fuel : Nat) (F : filesystem) (base filter : String)
    (recursive visitEmpty : Bool) (L : List String)
    (hstar : string_find (F.join base filter) "*" ≠ npos)
    (hparent : F.parent_path (F.join base filter) = base)
    (hfile : F.filename (F.join base filter) = filter)
    (hfilter : filter ≠ "")
    (hex : F.fs_exists base = true) (hne : F.is_empty base = false)
    (hvis : visited fuel F (F.join base filter) recursive visitEmpty = some L) :
    (∀ c ∈ F.directory_iterator base,
      child_matches (substr (F.join base filter) 0 (string_find (F.join base filter) "*"))
        (substr (F.join base filter) ((string_find (F.join base filter) "*" + 1) % 2 ^ 64)
          npos) c = true → c ∈ L) ∧
    (∀ c ∈ L,
      (c ∈ F.directory_iterator base ∧
        child_matches (substr (F.join base filter) 0 (string_find (F.join base filter) "*"))
          (substr (F.join base filter) ((string_find (F.join base filter) "*" + 1) % 2 ^ 64)
            npos) c = true) ∨
      ∃ it ∈ F.directory_iterator base, F.status_type it = file_type.directory_file ∧
        recursive = true ∧
        ∃ L1, visited (fuel - 1) F (F.join it filter) recursive visitEmpty = some L1 ∧
          c ∈ L1) ∧
    (∀ c ∈ F.directory_iterator base,
      (∀ it ∈ F.directory_iterator base, ∀ L1,
        visited (fuel - 1) F (F.join it filter) recursive visitEmpty = some L1 → c ∉ L1) →
      (c ∈ L ↔
        child_matches (substr (F.join base filter) 0 (string_find (F.join base filter) "*"))
          (substr (F.join base filter) ((string_find (F.join base filter) "*" + 1) % 2 ^ 64)
            npos) c = true)) ∧
    (recursive = false →
      L = (F.directory_iterator base).filter
        (child_matches (substr (F.join base filter) 0 (string_find (F.join base filter) "*"))
          (substr (F.join base filter) ((string_find (F.join base filter) "*" + 1) % 2 ^ 64)
            npos))) := by
  have hpair := pattern_pair F base filter hstar hparent hfile
  have hf : (get_path_filter_pair F (F.join base filter)).2 ≠ "" := by
    rw [hpair]
    exact hfilter
  have he : ¬ (visitEmpty = true ∧
      F.is_empty (get_path_filter_pair F (F.join base filter)).1 = true) := by
    rw [hpair]
    simp [hne]
  have hx : F.fs_exists (get_path_filter_pair F (F.join base filter)).1 = true := by
    rw [hpair]
    exact hex
  have h1 := visited_contains_matches fuel F (F.join base filter) recursive visitEmpty L
    hf he hx hvis
  rw [hpair] at h1
  have h2 : ∀ c ∈ L,
      (c ∈ F.directory_iterator base ∧
        child_matches (substr (F.join base filter) 0 (string_find (F.join base filter) "*"))
          (substr (F.join base filter) ((string_find (F.join base filter) "*" + 1) % 2 ^ 64)
            npos) c = true) ∨
      ∃ it ∈ F.directory_iterator base, F.status_type it = file_type.directory_file ∧
        recursive = true ∧
        ∃ L1, visited (fuel - 1) F (F.join it filter) recursive visitEmpty = some L1 ∧
          c ∈ L1 := by
    cases fuel with
    | zero => simp [visited, visit_wild_card_path] at hvis
    | succ fuel =>
      intro c hc
      unfold visited at hvis
      rw [visit_wild_card_path] at hvis
      simp only [if_pos hf, if_neg he, if_pos hx, Option.map_map] at hvis
      rw [Option.map_eq_some'] at hvis
      obtain ⟨acc1, hacc, hL⟩ := hvis
      have hL2 : acc1 = L := hL
      rw [← hL2] at hc
      have h3 := visit_children_collect_origin F _ _ _ _ recursive
        (fun p => visited fuel F p recursive visitEmpty) ?_ _ [] acc1 hacc c hc
      · rw [hpair] at h3
        rcases h3 with h3 | h3 | h3
        · simp at h3
        · exact Or.inl h3
        · exact Or.inr h3
      · intro p acc acc2 hr
        rw [Option.map_eq_some'] at hr
        obtain ⟨r, hr1, hr2⟩ := hr
        obtain ⟨L1, hL1, hL1b⟩ := visit_collect_visited fuel F p recursive visitEmpty acc r hr1
        exact ⟨L1, hL1, by rw [← hr2, hL1b]⟩
  refine ⟨h1, h2, ?_, ?_⟩
  · intro c hc hnest
    constructor
    · intro hcL
      rcases h2 c hcL with h3 | ⟨it, hit, _, _, L1, hL1, hcL1⟩
      · exact h3.2
      · exact absurd hcL1 (hnest it hit L1 hL1)
    · exact h1 c hc
  · intro hrec
    cases fuel with
    | zero => simp [visited, visit_wild_card_path] at hvis
    | succ fuel =>
      rw [hrec] at hvis
      rw [visited_nonrecursive fuel F (F.join base filter) visitEmpty hf he hx, hpair] at hvis
      simp only [Option.some.injEq] at hvis
      exact hvis.symm

/-- C13 as stated fails: `/d` holds `c.txt` and `abc.txt` and the filter is `c*`, whose part
before the marker is `c`. Both children contain `c`, yet the expansion of `/d/c*` visits
only `/d/c.txt`: the code tests against `/d/c`, the part of the full pattern path. -/
theorem filter_parts_counterexample :
    fs_abc.fs_exists "/d" = true ∧ fs_abc.is_empty "/d" = false ∧
    fs_abc.directory_iterator "/d" = ["/d/c.txt", "/d/abc.txt"] ∧
    substr "c*" 0 (string_find "c*" "*") = "c" ∧
    substr "c*" ((string_find "c*" "*" + 1) % 2 ^ 64) npos = "" ∧
    string_find "/d/abc.txt" "c" ≠ npos ∧
    visited 1 fs_abc (fs_abc.join "/d" "c*") false false = some ["/d/c.txt"] ∧
    visited 1 fs_abc (fs_abc.join "/d" "c*") true false = some ["/d/c.txt"] := by
  decide

/-! ## The initial snapshot of a wildcard watch -/

theorem poll_entry_new_entry (F : filesystem) (S : List (String × entry)) (p : String)
    (E : List entry) (h : map_find S p = none) :
    poll_entry F S p E = (map_insert S p (new_entry F p), E ++ [new_entry F p]) :=
  poll_entry_new F S p E h

/-- Polling distinct paths that are not keys yet stores and reports the `created` entry of
each of them. -/
theorem poll_list_new (F : filesystem) (M : List String) (S : List (String × entry))
    (E : List entry) (hnd : M.Nodup) (hnew : ∀ p ∈ M, map_find S p = none) :
    (poll_list F M (S, E)).2 = E ++ M.map (new_entry F) ∧
    (∀ k, map_find (poll_list F M (S, E)).1 k
      = if k ∈ M then some (new_entry F k) else map_find S k) ∧
    (map_keys (poll_list F M (S, E)).1).Perm (M ++ map_keys S) := by
  induction M generalizing S E with
  | nil => simp [poll_list_nil]
  | cons p M ih =>
    rw [List.nodup_cons] at hnd
    have hp : map_find S p = none := hnew p (List.mem_cons_self _ _)
    have hnew2 : ∀ q ∈ M, map_find (map_insert S p (new_entry F p)) q = none := by
      intro q hq
      have hqp : q ≠ p := fun e => hnd.1 (by rw [← e]; exact hq)
      rw [map_find_insert _ _ _ _ hp, if_neg hqp]
      exact hnew q (List.mem_cons_of_mem _ hq)
    rw [poll_list_cons, poll_entry_new_entry F S p E hp]
    obtain ⟨h1, h2, h3⟩ := ih (map_insert S p (new_entry F p)) (E ++ [new_entry F p])
      hnd.2 hnew2
    refine ⟨?_, ?_, ?_⟩
    · rw [h1]
      simp [List.append_assoc]
    · intro k
      rw [h2 k]
      by_cases hkM : k ∈ M
      · simp [hkM]
      · by_cases hkp : k = p
        · rw [if_neg hkM, map_find_insert _ _ _ _ hp, if_pos hkp, hkp]
          simp
        · have hk : k ∉ p :: M := by
            simp only [List.mem_cons, not_or]
            exact ⟨hkp, hkM⟩
          rw [if_neg hkM, map_find_insert _ _ _ _ hp, if_neg hkp, if_neg hk]
    · refine h3.trans ?_
      have h4 := map_keys_insert S p (new_entry F p)
      refine (List.Perm.append_left M h4).trans ?_
      exact (List.perm_middle).trans (List.Perm.refl _)

theorem string_find_empty (c : String) : string_find c "" ≠ npos := by
  unfold string_find
  have h0 : (0 : Nat) ≠ npos := by decide
  cases hc : c.data with
  | nil => simpa [find_from] using h0
  | cons x xs =>
    have hp : List.isPrefixOf ([] : List Char) (x :: xs) = true := rfl
    show find_from [] (x :: xs) 0 ≠ npos
    rw [find_from, if_pos hp]
    exact h0

/-- C12 (wildcard-first filter): `base` is an existing directory whose listing names each
child once, the pattern path `base / "*S"` reads `pre ++ "*" ++ S` with no marker in `pre`
(for POSIX paths `pre` is `base` and the separator), resolves back into `(base, "*S")`, and
every listed child's path contains `pre`. Then a non-recursive watch on `base / "*S"` is
constructed with a snapshot that holds exactly one entry, with status `created`, for each
listed child of `base` whose full path contains `S` as a substring anywhere, and no other
entry; with `initialList` these entries are the initial batch; and `watch_impl` registers
exactly this watch under the pattern path. -/
theorem wildcard_first_snapshot (fuel : Nat) (F : filesystem) (base pre S : String)
    (initialList : Bool) (cb : Nat)
    (hjoin : F.join base ("*" ++ S) = pre ++ "*" ++ S)
    (hpre : '*' ∉ pre.data)
    (hparent : F.parent_path (F.join base ("*" ++ S)) = base)
    (hfile : F.filename (F.join base ("*" ++ S)) = "*" ++ S)
    (hex : F.fs_exists base = true)
    (hlen : (pre ++ "*" ++ S).length < npos)
    (hchild : ∀ c ∈ F.directory_iterator base, pre.data <:+: c.data ∧ c.length < npos)
    (hnodup : (F.directory_iterator base).Nodup) :
    ∃ w,
      watcher_impl.create (fuel + 1) F base ("*" ++ S) false initialList (some cb)
        = some (w,
            if initialList = true then
              invoke (some cb)
                (((F.directory_iterator base).filter
                  (fun c => decide (string_find c S ≠ npos))).map (new_entry F)) true
            else []) ∧
      w._root = base ∧ w._filter = "*" ++ S ∧ w._recursive = false ∧
      (map_keys w._entries).Perm
        ((F.directory_iterator base).filter (fun c => decide (string_find c S ≠ npos))) ∧
      (∀ k, map_find w._entries k
        = if k ∈ (F.directory_iterator base).filter (fun c => decide (string_find c S ≠ npos))
          then some (new_entry F k) else none) ∧
      (∀ c, c ∈ (F.directory_iterator base).filter (fun c => decide (string_find c S ≠ npos))
        ↔ c ∈ F.directory_iterator base ∧ S.data <:+: c.data) ∧
      (∀ wd : watcher, map_find wd._watchers (F.join base ("*" ++ S)) = none →
        ∃ wd1,
          watch_impl (fuel + 1) F wd (F.join base ("*" ++ S)) false initialList (some cb)
            = some (wd1,
                if initialList = true then
                  invoke (some cb)
                    (((F.directory_iterator base).filter
                      (fun c => decide (string_find c S ≠ npos))).map (new_entry F)) true
                else []) ∧
          map_find wd1._watchers (F.join base ("*" ++ S)) = some w) := by
  have hpos : string_find (F.join base ("*" ++ S)) "*" = pre.length := by
    rw [hjoin]
    exact string_find_star pre S hpre
  have hprelen : pre.length < npos := by
    have h0 : (pre ++ "*" ++ S).length = pre.data.length + (S.data.length + 1) := by
      rw [string_length_data, star_append_data, List.length_append, List.length_cons]
    rw [h0] at hlen
    rw [string_length_data]
    omega
  have hstar : string_find (F.join base ("*" ++ S)) "*" ≠ npos := by
    rw [hpos]
    omega
  have hfilter : ("*" ++ S) ≠ "" := by
    intro h
    have h1 := congrArg String.data h
    rw [String.data_append, star_data] at h1
    simp at h1
  have hpair := pattern_pair F base ("*" ++ S) hstar hparent hfile
  have hbefore : substr (F.join base ("*" ++ S)) 0
      (string_find (F.join base ("*" ++ S)) "*") = pre := by
    rw [hpos, hjoin]
    exact substr_before pre S
  have hafter : substr (F.join base ("*" ++ S))
      ((string_find (F.join base ("*" ++ S)) "*" + 1) % 2 ^ 64) npos = S := by
    rw [hpos, hjoin]
    exact substr_after pre S hlen
  have hfilt : (F.directory_iterator base).filter (child_matches pre S)
      = (F.directory_iterator base).filter (fun c => decide (string_find c S ≠ npos)) := by
    apply List.filter_congr
    intro c hc
    have h1 : string_find c pre ≠ npos :=
      (string_find_ne_npos_iff c pre (hchild c hc).2).2 (hchild c hc).1
    by_cases h2 : string_find c S ≠ npos
    · simp only [child_matches, h1, h2, ne_eq, not_false_eq_true, true_or, and_self,
        decide_True]
    · have hS : S ≠ "" := by
        intro e
        rw [e] at h2
        exact h2 (string_find_empty c)
      simp only [ne_eq, not_not] at h2
      simp [child_matches, h2, hS]
  have hobs : observed (fuel + 1) F base ("*" ++ S) false
      = some ((F.directory_iterator base).filter
          (fun c => decide (string_find c S ≠ npos))) := by
    have hv := visited_nonrecursive fuel F (F.join base ("*" ++ S)) false
      (by rw [hpair]; exact hfilter) (by simp) (by rw [hpair]; exact hex)
    rw [hpair] at hv
    simp only [hbefore, hafter, hfilt] at hv
    simp only [observed, if_pos hfilter]
    exact hv
  have hMnd : ((F.directory_iterator base).filter
      (fun c => decide (string_find c S ≠ npos))).Nodup :=
    List.Nodup.sublist (List.filter_sublist _) hnodup
  obtain ⟨hb, hfind, hperm⟩ := poll_list_new F _ [] [] hMnd (fun p _ => rfl)
  have hcreate := create_eq (fuel + 1) F base ("*" ++ S) false initialList (some cb) _ hobs
  rw [hb, List.nil_append] at hcreate
  refine ⟨_, hcreate, rfl, rfl, rfl, ?_, ?_, ?_, ?_⟩
  · simpa [map_keys] using hperm
  · intro k
    rw [hfind k]
    simp [map_find]
  · intro c
    rw [List.mem_filter]
    constructor
    · rintro ⟨h1, h2⟩
      simp only [decide_eq_true_eq] at h2
      exact ⟨h1, (string_find_ne_npos_iff c S (hchild c h1).2).1 h2⟩
    · rintro ⟨h1, h2⟩
      refine ⟨h1, ?_⟩
      simp only [decide_eq_true_eq]
      exact (string_find_ne_npos_iff c S (hchild c h1).2).2 h2
  · intro wd hnone
    have hstart : (if wd._watching = false then wd.start else wd)._watchers
        = wd._watchers := by
      by_cases hw : wd._watching = false
      · simp [hw, watcher.start]
      · simp [hw]
    have hnone2 : map_find (if wd._watching = false then wd.start else wd)._watchers
        (F.join base ("*" ++ S)) = none := by
      rw [hstart]
      exact hnone
    obtain ⟨v, hv⟩ := visit_nonrecursive_returns fuel F (F.join base ("*" ++ S)) true
      (fun (_ : String) (_ : Bool) => (true, true)) false
    have hv2 := visit_second (fuel + 1) F _ false true _ false v hv
    rw [hpair] at hv2
    refine ⟨{ (if wd._watching = false then wd.start else wd) with
      _watchers := map_insert (if wd._watching = false then wd.start else wd)._watchers
        (F.join base ("*" ++ S))
        { _recursive := false, _root := base, _filter := "*" ++ S, _callback := some cb,
          _entries := (poll_list F
            ((F.directory_iterator base).filter (fun c => decide (string_find c S ≠ npos)))
            ([], [])).1 } }, ?_, ?_⟩
    · simp only [watch_impl, if_pos hstar, hv, hv2, register, hnone2, hcreate]
    · simp [map_find_insert _ _ _ _ hnone2]

/-! ## Early termination and the resolved pair -/

theorem visit_children_probe_once (F : filesystem) (recurse : String → Nat → Option Nat)
    (filter before after : String) (cs : List String) (n m : Nat)
    (h : visit_children F recurse filter before after false counting_probe cs n = some m) :
    m ≤ n + 1 := by
  induction cs generalizing n with
  | nil =>
    simp only [visit_children, Option.some.injEq] at h
    omega
  | cons it rest ih =>
    have hdir : ¬ (F.status_type it = file_type.directory_file ∧ false = true) := by simp
    by_cases hm : (string_find it before ≠ npos ∨ before = "") ∧
        (string_find it after ≠ npos ∨ after = "")
    · have hstop : (counting_probe it n).2 = true := rfl
      simp only [visit_children, if_neg hdir, if_pos hm, if_pos hstop, Option.some.injEq] at h
      rw [← h]
      exact Nat.le_refl _
    · simp only [visit_children, if_neg hdir, if_neg hm] at h
      exact ih n h

/-- Without recursion a visitor that always asks to stop is invoked at most once. -/
theorem probe_once_nonrecursive (fuel : Nat) (F : filesystem) (path : String)
    (visitEmpty : Bool) (n : Nat) (r : Nat × (String × String))
    (h : visit_wild_card_path fuel F path false visitEmpty counting_probe n = some r) :
    r.1 ≤ n + 1 := by
  cases fuel with
  | zero => simp [visit_wild_card_path] at h
  | succ fuel =>
    by_cases hf : (get_path_filter_pair F path).2 ≠ ""
    · by_cases he : visitEmpty = true ∧ F.is_empty (get_path_filter_pair F path).1 = true
      · simp only [visit_wild_card_path, if_pos hf, if_pos he, Option.some.injEq] at h
        rw [← h]
        exact Nat.le_refl _
      · by_cases hx : F.fs_exists (get_path_filter_pair F path).1 = true
        · rw [visit_wild_card_path] at h
          simp only [if_pos hf, if_neg he, if_pos hx] at h
          rw [Option.map_eq_some'] at h
          obtain ⟨m, hm, hr⟩ := h
          rw [← hr]
          exact visit_children_probe_once F _ _ _ _ _ n m hm
        · simp only [visit_wild_card_path, if_pos hf, if_neg he, if_neg hx,
            Option.some.injEq] at h
          rw [← h]
          exact Nat.le_succ _
    · simp only [visit_wild_card_path, if_neg hf, Option.some.injEq] at h
      rw [← h]
      exact Nat.le_succ _

/-- C16 at the failing input: `/d` lists the subdirectory `sub` (holding `x.txt`) before
`a.txt`. The recursive expansion of `/d/*.txt` with a visitor that always returns true
invokes the visitor twice, on `/d/sub/x.txt` and then on `/d/a.txt`: the `break` after the
first `true` leaves only the listing loop of `/d/sub`, and the loop over `/d` goes on. -/
theorem probe_invoked_twice :
    fs_sub_first.directory_iterator "/d" = ["/d/sub", "/d/a.txt"] ∧
    fs_sub_first.directory_iterator "/d/sub" = ["/d/sub/x.txt"] ∧
    (visit_wild_card_path 2 fs_sub_first "/d/*.txt" true true counting_probe 0).map Prod.fst
      = some 2 ∧
    (visit_wild_card_path 2 fs_sub_first "/d/*.txt" true true
        (fun p (acc : List String) => (acc ++ [p], true)) []).map Prod.fst
      = some ["/d/sub/x.txt", "/d/a.txt"] ∧
    (visit_wild_card_path 2 fs_sub_first "/d/*.txt" false true counting_probe 0).map Prod.fst
      = some 1 := by
  decide

/-- C17, amended (the resolved pair): a path with exactly one wildcard marker, made of its
parent path, a separator without marker and its final segment, resolves into the pair
(parent path, final segment). When the marker lies in the final segment, the root contains
no marker and the filter contains it; when the marker lies in an earlier segment, the root
keeps the marker and the filter contains none. -/
theorem path_filter_pair_final_segment (F : filesystem) (path sep : String)
    (hone : path.data.count '*' = 1)
    (hsplit : path = F.parent_path path ++ sep ++ F.filename path)
    (hsep : '*' ∉ sep.data)
    (hlen : path.length < npos) :
    get_path_filter_pair F path = (F.parent_path path, F.filename path) ∧
    ('*' ∈ (F.filename path).data →
      '*' ∉ (get_path_filter_pair F path).1.data ∧
        '*' ∈ (get_path_filter_pair F path).2.data) ∧
    ('*' ∉ (F.filename path).data →
      '*' ∈ (get_path_filter_pair F path).1.data ∧
        '*' ∉ (get_path_filter_pair F path).2.data) := by
  have hmem : '*' ∈ path.data := List.count_pos_iff.1 (by omega)
  have hstar : string_find path "*" ≠ npos := (star_mem_iff_find path hlen).2 hmem
  have hpair : get_path_filter_pair F path = (F.parent_path path, F.filename path) := by
    simp only [get_path_filter_pair, if_pos hstar]
  have hcount : (F.parent_path path).data.count '*' + (F.filename path).data.count '*'
      = 1 := by
    have h1 := congrArg (fun s => s.data.count '*') hsplit
    simp only [String.data_append, List.count_append] at h1
    have h2 : sep.data.count '*' = 0 := List.count_eq_zero.2 hsep
    omega
  refine ⟨hpair, ?_, ?_⟩
  · intro hfin
    rw [hpair]
    have h3 : 0 < (F.filename path).data.count '*' := List.count_pos_iff.2 hfin
    refine ⟨?_, hfin⟩
    apply List.count_eq_zero.1
    show (F.parent_path path).data.count '*' = 0
    omega
  · intro hfin
    rw [hpair]
    have h3 : (F.filename path).data.count '*' = 0 := List.count_eq_zero.2 hfin
    refine ⟨?_, hfin⟩
    apply List.count_pos_iff.1
    show 0 < (F.parent_path path).data.count '*'
    omega

/-- C17 as stated fails: `/a*/b.txt` contains exactly one marker, in its first segment. It
resolves into the root `/a*`, which contains the marker, and the filter `b.txt`, which
contains none. -/
theorem marker_in_directory_counterexample :
    "/a*/b.txt".data.count '*' = 1 ∧
    get_path_filter_pair fs_before "/a*/b.txt" = ("/a*", "b.txt") ∧
    '*' ∈ (get_path_filter_pair fs_before "/a*/b.txt").1.data ∧
    '*' ∉ (get_path_filter_pair fs_before "/a*/b.txt").2.data := by
  decide

/-! ## A deleted bare root -/

/-- C18 at the failing input: the bare-root watch of `/d/a.txt` (callback 2) polls after the
file was deleted. The first cycle reports the removal and erases the key; the second and
the third cycle, on the same filesystem state, each store a new entry for the missing file,
match it against itself and hand the callback a batch with one `renamed` entry whose
`last_path` is its own `path`. -/
theorem deleted_root_not_silent :
    fs_removed.fs_exists "/d/a.txt" = false ∧
    ((file_watch "/d/a.txt" 5 10 2).watch 0 fs_removed).map (fun r => map_keys r.1._entries)
      = some [] ∧
    (((file_watch "/d/a.txt" 5 10 2).watch 0 fs_removed).bind
        (fun r => (r.1.watch 0 fs_removed).map Prod.snd))
      = some [{ callback := 2,
                entries := [{ path := "/d/a.txt", last_path := "/d/a.txt",
                              status := entry_status.renamed, last_mod_time := -1,
                              size := 2 ^ 64 - 1, type := file_type.file_not_found }],
                is_initial := false }] ∧
    ((poll_cycles 0 [fs_removed, fs_removed, fs_removed] (file_watch "/d/a.txt" 5 10 2)).map
        (fun r => r.2.map (fun c => c.entries.map (fun e => (e.path, e.status)))))
      = some [[("/d/a.txt", entry_status.modified), ("/d/a.txt", entry_status.removed)],
              [("/d/a.txt", entry_status.renamed)],
              [("/d/a.txt", entry_status.renamed)]] := by
  decide

/-- C19 at the failing input: the bare-root watch of `/d/a.txt` polls once after the file
was deleted, while the listing of `/d` names each child once. The batch handed to the
callback holds two entries with the path `/d/a.txt`: a `modified` entry carrying the error
time and size, and the `removed` entry. -/
theorem deleted_root_reported_twice :
    (fs_removed.directory_iterator "/d").Nodup ∧
    fs_removed.fs_exists "/d/a.txt" = false ∧
    ((file_watch "/d/a.txt" 5 10 2).watch 0 fs_removed).map Prod.snd
      = some [{ callback := 2,
                entries := [{ path := "/d/a.txt", last_path := "/d/a.txt",
                              status := entry_status.modified, last_mod_time := -1,
                              size := 2 ^ 64 - 1, type := file_type.file_not_found },
                            { path := "/d/a.txt", last_path := "/d/a.txt",
                              status := entry_status.removed, last_mod_time := -1,
                              size := 2 ^ 64 - 1, type := file_type.file_not_found }],
                is_initial := false }] := by
  decide

/-! ## Repeated polls when every observed path exists -/

theorem stored_same_poll_list (F : filesystem) (L : List String) (S : List (String × entry))
    (E : List entry) (q : String) (h : stored_same F S q) :
    stored_same F (poll_list F L (S, E)).1 q := by
  induction L generalizing S E with
  | nil => exact h
  | cons p L ih =>
    rw [poll_list_cons]
    exact ih _ _ (stored_same_poll_entry F S p q E h)

theorem poll_list_stored_same (F : filesystem) (L : List String) (S : List (String × entry))
    (E : List entry) : ∀ p ∈ L, stored_same F (poll_list F L (S, E)).1 p := by
  induction L generalizing S E with
  | nil => simp
  | cons p0 L ih =>
    intro p hp
    rw [poll_list_cons]
    simp only [List.mem_cons] at hp
    by_cases hpL : p ∈ L
    · exact ih _ _ p hpL
    · rcases hp with hp | hp
      · rw [hp]
        exact stored_same_poll_list F L _ _ p0 (stored_same_after_poll F S p0 E)
      · exact absurd hp hpL

theorem map_find_filter_of {α : Type} (m : List (String × α)) (q : String × α → Bool)
    (k : String) (v : α) (hnd : (map_keys m).Nodup) (hf : map_find m k = some v)
    (hq : q (k, v) = true) : map_find (m.filter q) k = some v := by
  apply map_mem_find
  · exact List.Nodup.sublist (List.Sublist.map Prod.fst (List.filter_sublist m)) hnd
  · exact List.mem_filter.2 ⟨map_find_mem m k v hf, hq⟩

/-- Supporting fact for C18: when every path a watch observes exists, a second poll cycle on
the same filesystem state computes an empty batch and invokes no callback. -/
theorem second_poll_silent (fuel : Nat) (F : filesystem) (w : watcher_impl)
    (L : List String) (r1 : watcher_impl × List callback_call)
    (hwf : snapshot_wf w._entries)
    (hobs : observed fuel F w._root w._filter w._recursive = some L)
    (hex : ∀ p ∈ L, F.fs_exists p = true)
    (h1 : w.watch fuel F = some r1) :
    ∃ w2, r1.1.watch fuel F = some (w2, []) := by
  rw [watch_eq fuel F w L hobs] at h1
  simp only [Option.some.injEq] at h1
  have hwf1 : snapshot_wf (poll_list F L (w._entries, [])).1 := poll_list_wf F L _ _ hwf
  have hwfS1 : snapshot_wf (process_modifications F (poll_list F L (w._entries, [])).1
      (poll_list F L (w._entries, [])).2).1 := process_modifications_wf F _ _ hwf1
  have hsame : ∀ p ∈ L, stored_same F (process_modifications F
      (poll_list F L (w._entries, [])).1 (poll_list F L (w._entries, [])).2).1 p := by
    intro p hp
    obtain ⟨fi, hf, hc⟩ := poll_list_stored_same F L w._entries [] p hp
    refine ⟨fi, ?_, hc⟩
    rw [process_modifications_snapshot]
    apply map_find_filter_of _ _ _ _ hwf1.1 hf
    have hpath : fi.path = p := hwf1.2 (p, fi) (map_find_mem _ _ _ hf)
    show F.fs_exists fi.path = true
    rw [hpath]
    exact hex p hp
  have hobs2 : observed fuel F r1.1._root r1.1._filter r1.1._recursive = some L := by
    rw [← h1]
    exact hobs
  have hent : r1.1._entries = (process_modifications F (poll_list F L (w._entries, [])).1
      (poll_list F L (w._entries, [])).2).1 := by
    rw [← h1]
  have hw2 := watch_eq fuel F r1.1 L hobs2
  rw [hent] at hw2
  have hsilent := poll_list_silent F L _ [] hsame
  have hwf2 : snapshot_wf (poll_list F L ((process_modifications F
      (poll_list F L (w._entries, [])).1 (poll_list F L (w._entries, [])).2).1, [])).1 :=
    poll_list_wf F L _ _ hwfS1
  have hnomiss : (poll_list F L ((process_modifications F
      (poll_list F L (w._entries, [])).1 (poll_list F L (w._entries, [])).2).1, [])).1.filter
      (fun x => !F.fs_exists x.2.path) = [] := by
    rw [List.filter_eq_nil_iff]
    intro x hx
    have hxp : x.2.path = x.1 := hwf2.2 x hx
    have hxk := List.mem_map_of_mem Prod.fst hx
    have hexx : F.fs_exists x.1 = true := by
      rcases poll_list_key_mem F L _ _ x.1 hxk with h3 | h3
      · exact hex x.1 h3
      · rw [process_modifications_snapshot] at h3
        simp only [map_keys, List.mem_map, List.mem_filter] at h3
        obtain ⟨y, ⟨hy, hye⟩, hyx⟩ := h3
        rw [hwf1.2 y hy, hyx] at hye
        exact hye
    rw [hxp, hexx]
    simp
  have hbatch : (process_modifications F
      (poll_list F L ((process_modifications F (poll_list F L (w._entries, [])).1
        (poll_list F L (w._entries, [])).2).1, [])).1
      (poll_list F L ((process_modifications F (poll_list F L (w._entries, [])).1
        (poll_list F L (w._entries, [])).2).1, [])).2).2 = [] := by
    rw [process_modifications_batch, hnomiss, hsilent]
    rfl
  have hinv : invoke r1.1._callback [] false = [] := by
    cases r1.1._callback <;> rfl
  rw [hbatch, hinv] at hw2
  exact ⟨_, hw2⟩

theorem poll_list_paths (F : filesystem) (L : List String) (S : List (String × entry))
    (E : List entry) (hwf : snapshot_wf S) :
    ∃ X, X.Sublist L ∧ (poll_list F L (S, E)).2.map entry.path = E.map entry.path ++ X := by
  induction L generalizing S E with
  | nil => exact ⟨[], List.Sublist.refl _, by simp [poll_list_nil]⟩
  | cons p L ih =>
    rw [poll_list_cons]
    obtain ⟨X, hX, hXe⟩ := ih (poll_entry F S p E).1 (poll_entry F S p E).2
      (poll_entry_wf F S p E hwf)
    rcases poll_entry_cases F S p E with ⟨_, he⟩ | ⟨fi, hf, _, he⟩ | ⟨fi, _, _, he⟩
    · refine ⟨p :: X, List.Sublist.cons₂ p hX, ?_⟩
      rw [hXe, he]
      simp
    · have hpath : fi.path = p := hwf.2 (p, fi) (map_find_mem _ _ _ hf)
      refine ⟨p :: X, List.Sublist.cons₂ p hX, ?_⟩
      rw [hXe, he]
      simp [hpath]
    · refine ⟨X, List.Sublist.cons p hX, ?_⟩
      rw [hXe, he]

theorem rename_match_paths (fi : entry) (E r : List entry) (h : rename_match fi E = some r) :
    r.map entry.path = E.map entry.path := by
  obtain ⟨pre, e, post, h1, _, _, _, _, h6⟩ := rename_match_shape fi E r h
  rw [h6, h1]
  simp

theorem process_modifications_paths (F : filesystem) (S : List (String × entry))
    (E : List entry) :
    ((process_modifications F S E).2.map entry.path).Sublist
      (E.map entry.path ++ (S.filter (fun x => !F.fs_exists x.2.path)).map
        (fun x => x.2.path)) := by
  induction S generalizing E with
  | nil => simp [process_modifications]
  | cons x S ih =>
    obtain ⟨k, fi⟩ := x
    by_cases h : F.fs_exists fi.path = true
    · have hf : List.filter (fun x => !F.fs_exists x.2.path) ((k, fi) :: S)
          = List.filter (fun x => !F.fs_exists x.2.path) S := by
        simp [List.filter_cons, h]
      simp only [process_modifications, h, Bool.not_true, Bool.false_eq_true, if_false]
      rw [hf]
      exact ih E
    · simp only [Bool.not_eq_true] at h
      have hf : List.filter (fun x => !F.fs_exists x.2.path) ((k, fi) :: S)
          = (k, fi) :: List.filter (fun x => !F.fs_exists x.2.path) S := by
        simp [List.filter_cons, h]
      simp only [process_modifications, h, Bool.not_false, if_true]
      rw [hf]
      refine (ih (reconcile fi E)).trans ?_
      have hrec : ((reconcile fi E).map entry.path).Sublist (E.map entry.path ++ [fi.path]) := by
        cases hr : rename_match fi E with
        | none =>
          simp only [reconcile, hr]
          simp
        | some r =>
          simp only [reconcile, hr]
          rw [rename_match_paths fi E r hr]
          exact List.sublist_append_left _ _
      have := List.Sublist.append hrec
        (List.Sublist.refl ((S.filter (fun x => !F.fs_exists x.2.path)).map
          (fun x => x.2.path)))
      simpa [List.append_assoc] using this

/-- Supporting fact for C19: when the observed paths are distinct and all exist, no batch
handed to the callback by a poll cycle holds two entries with the same path. -/
theorem batch_paths_distinct (fuel : Nat) (F : filesystem) (w : watcher_impl)
    (L : List String) (r : watcher_impl × List callback_call)
    (hwf : snapshot_wf w._entries)
    (hobs : observed fuel F w._root w._filter w._recursive = some L)
    (hnd : L.Nodup)
    (hex : ∀ p ∈ L, F.fs_exists p = true)
    (h : w.watch fuel F = some r) :
    ∀ c ∈ r.2, (c.entries.map entry.path).Nodup := by
  rw [watch_eq fuel F w L hobs] at h
  simp only [Option.some.injEq] at h
  intro c hc
  rw [← h] at hc
  rw [(invoke_entries _ _ _ c hc).1]
  have hwf1 : snapshot_wf (poll_list F L (w._entries, [])).1 := poll_list_wf F L _ _ hwf
  obtain ⟨X, hX, hXe⟩ := poll_list_paths F L w._entries [] hwf
  simp only [List.map_nil, List.nil_append] at hXe
  refine List.Nodup.sublist (process_modifications_paths F _ _) ?_
  rw [hXe, List.nodup_append]
  refine ⟨List.Nodup.sublist hX hnd, ?_, ?_⟩
  · have hsub : ((poll_list F L (w._entries, [])).1.filter
        (fun x => !F.fs_exists x.2.path)).map (fun x => x.2.path)
        = ((poll_list F L (w._entries, [])).1.filter
          (fun x => !F.fs_exists x.2.path)).map Prod.fst := by
      apply List.map_congr_left
      intro x hx
      exact hwf1.2 x (List.mem_of_mem_filter hx)
    rw [hsub]
    exact List.Nodup.sublist (List.Sublist.map Prod.fst (List.filter_sublist _)) hwf1.1
  · intro a ha1 ha2
    have hae : F.fs_exists a = true := hex a (hX.subset ha1)
    simp only [List.mem_map, List.mem_filter] at ha2
    obtain ⟨x, ⟨_, hxe⟩, hxa⟩ := ha2
    rw [hxa, hae] at hxe
    simp at hxe

/-! ## Evaluation of the expansion claims on the sample filesystem -/

/-- Witness for C12, the scenario of the claim: `/d` holds `a.txt` and `b.log`;
`watch("/d/*.txt", false, true, cb 7)` registers a watch whose snapshot holds only
`/d/a.txt` and hands the callback the initial batch with its one `created` entry. -/
theorem wildcard_first_snapshot_witness :
    ∃ w,
      watcher_impl.create 1 fs_txt_log "/d" "*.txt" false true (some 7)
        = some (w, [{ callback := 7,
                      entries := [file_entry "/d/a.txt" 5 10 entry_status.created],
                      is_initial := true }]) ∧
      map_keys w._entries = ["/d/a.txt"] ∧
      map_find w._entries "/d/a.txt" = some (file_entry "/d/a.txt" 5 10 entry_status.created) ∧
      map_find w._entries "/d/b.log" = none ∧
      ∃ wd1,
        watch_impl 1 fs_txt_log { _watching := false, _watchers := [] } "/d/*.txt" false true
            (some 7)
          = some (wd1, [{ callback := 7,
                          entries := [file_entry "/d/a.txt" 5 10 entry_status.created],
                          is_initial := true }]) ∧
        map_find wd1._watchers "/d/*.txt" = some w := by
  obtain ⟨w, h1, _, _, _, h2, h3, _, h4⟩ :=
    wildcard_first_snapshot 0 fs_txt_log "/d" "/d/" ".txt" true 7
      (by decide) (by decide) (by decide) (by decide) (by decide) (by decide)
      (by decide) (by decide)
  refine ⟨w, h1, ?_, ?_, ?_, h4 { _watching := false, _watchers := [] } rfl⟩
  · exact List.perm_singleton.1 h2
  · rw [h3]
    rfl
  · rw [h3]
    rfl

/-- Witness for the amended C13: the non-recursive expansion of `/d/c*` over `c.txt` and
`abc.txt` visits exactly the children that contain `/d/c`. -/
theorem expansion_matching_rule_witness :
    ["/d/c.txt"] = (fs_abc.directory_iterator "/d").filter (child_matches "/d/c" "") ∧
    "/d/abc.txt" ∉ ["/d/c.txt"] :=
  ⟨(expansion_matching_rule 1 fs_abc "/d" "c*" false false ["/d/c.txt"]
      (by decide) (by decide) (by decide) (by decide) (by decide) (by decide)
      (by decide)).2.2.2 rfl,
    by decide⟩

/-- Witness for the amended C17: `/d/*.txt` resolves into `/d` and `*.txt`. -/
theorem path_filter_pair_final_segment_witness :
    get_path_filter_pair fs_before "/d/*.txt" = ("/d", "*.txt") ∧
    '*' ∉ (get_path_filter_pair fs_before "/d/*.txt").1.data ∧
    '*' ∈ (get_path_filter_pair fs_before "/d/*.txt").2.data :=
  ⟨(path_filter_pair_final_segment fs_before "/d/*.txt" "/" (by decide) (by decide)
      (by decide) (by decide)).1,
    (path_filter_pair_final_segment fs_before "/d/*.txt" "/" (by decide) (by decide)
      (by decide) (by decide)).2.1 (by decide)⟩

/-- Witness for C20: `/d/a.txt` is gone and `/d/b.txt` was created with its time and size;
the one missing key turns the one `created` entry into `renamed`. -/
theorem disappearances_accounted_witness :
    (process_modifications fs_renamed sample_watch._entries
        [file_entry "/d/b.txt" 5 10 entry_status.created]).1
      = [("/d/c.txt", file_entry "/d/c.txt" 6 20 entry_status.created)] ∧
    count_status entry_status.renamed
        (process_modifications fs_renamed sample_watch._entries
          [file_entry "/d/b.txt" 5 10 entry_status.created]).2
      + count_status entry_status.removed
        (process_modifications fs_renamed sample_watch._entries
          [file_entry "/d/b.txt" 5 10 entry_status.created]).2 = 1 :=
  ⟨(disappearances_accounted fs_renamed sample_watch._entries
      [file_entry "/d/b.txt" 5 10 entry_status.created] (by decide)).1,
    (disappearances_accounted fs_renamed sample_watch._entries
      [file_entry "/d/b.txt" 5 10 entry_status.created] (by decide)).2.1⟩

end filesystem_watcher
